import Mathlib

/-!
SmallVector (src/SmallVector.hpp)

A shallow embedding of the `SmallVector<T>` class template together with the
part of `std::allocator<T>` and `std::uninitialized_copy` it relies on.

* Addresses are natural numbers counted in units of `sizeof(T)`; `0` is `nullptr`.
* The allocator's storage is a map from addresses to `Cell`s, with a table of the
  live allocations. Touching storage in a way C++ leaves undefined (constructing
  into a slot that is not allocated, destroying or reading a slot that holds no
  object, releasing a block that was not handed out with that size) is reported
  as `Outcome.ub` (or `none` in the allocator primitives).
* An exception leaving a call is reported as `Outcome.threw` carrying the state at
  the moment the exception leaves.
* `SmallVector` objects live in an object store indexed by identity, so that
  `this != &rhs` is a comparison of identities.
-/

namespace SmallVec

/-! ## Storage model -/

/-- State of one slot of the address space: not allocated, allocated but holding no
object, or holding a constructed object. -/
inductive Cell (T : Type) where
  | unmapped
  | raw
  | obj (x : T)
deriving DecidableEq, Repr

/-- The storage managed by `std::allocator<T>`: `mem` gives the state of every slot,
`table` maps the base address of every live allocation to its size, `brk` is the lowest
address that was never handed out and `avail` the number of slots still obtainable. -/
structure Heap (T : Type) where
  mem : Nat → Cell T
  table : Nat → Option Nat
  brk : Nat
  avail : Nat

/-- The three data members of `SmallVector<T>` (lines 55-60). -/
structure SmallVector where
  elements : Nat
  first_free : Nat
  current_capacity : Nat
deriving DecidableEq, Repr

/-- A program state: the allocator's storage and the `SmallVector` objects by identity. -/
structure World (T : Type) where
  heap : Heap T
  vec : Nat → SmallVector

/-- Result of running a piece of code from a state: normal return with a value,
an exception leaving the call, or undefined behaviour. -/
inductive Outcome (σ α : Type) where
  | ok (a : α) (s : σ)
  | threw (s : σ)
  | ub

/-- The element type's copy and move constructors. `none` means the constructor throws;
`move x = some (y, r)` constructs `y` and leaves `r` in the moved-from source. -/
structure ElemOps (T : Type) where
  copy : T → Option T
  move : T → Option (T × T)

/-- Element construction through `const T&`: the source is left as it was. -/
def copyCons {T : Type} (ops : ElemOps T) (x : T) : Option (T × T) :=
  match ops.copy x with
  | none => none
  | some y => some (y, x)

/-- Element construction through `T&&` (what a `std::move_iterator` yields). -/
def moveCons {T : Type} (ops : ElemOps T) (x : T) : Option (T × T) :=
  ops.move x

/-- Overwrite the state of slot `p`. -/
def store {T : Type} (h : Heap T) (p : Nat) (c : Cell T) : Heap T :=
  { h with mem := fun a => if a = p then c else h.mem a }

/-- A heap with no allocation; address 0 is never handed out. -/
def Heap.empty (T : Type) (avail : Nat) : Heap T :=
  { mem := fun _ => Cell.unmapped, table := fun _ => none, brk := 1, avail := avail }

/-- Largest request `std::allocator<T>::allocate` accepts (`PTRDIFF_MAX` slots). -/
def max_size : Nat := 2 ^ 63 - 1

/-- The call `alloc.allocate(n)`: a fresh block of `n` raw slots, or `none` when the request
is refused (`std::bad_alloc` / `std::bad_array_new_length`). One slot is left unused
after every block, so distinct blocks never touch. -/
def allocate {T : Type} (h : Heap T) (n : Nat) : Option (Nat × Heap T) :=
  if n ≤ max_size ∧ n ≤ h.avail then
    some (h.brk,
      { mem := fun a => if h.brk ≤ a ∧ a < h.brk + n then Cell.raw else h.mem a
        table := fun b => if b = h.brk then some n else h.table b
        brk := h.brk + n + 1
        avail := h.avail - n })
  else none

/-- The call `alloc.deallocate(p, n)`: undefined unless `p` came from `allocate(n)`. -/
def deallocate {T : Type} (h : Heap T) (p n : Nat) : Option (Heap T) :=
  if h.table p = some n then
    some { h with
      mem := fun a => if p ≤ a ∧ a < p + n then Cell.unmapped else h.mem a
      table := fun b => if b = p then none else h.table b
      avail := h.avail + n }
  else none

/-- The call `alloc.destroy(p)`: undefined unless slot `p` holds an object. -/
def destroy {T : Type} (h : Heap T) (p : Nat) : Option (Heap T) :=
  match h.mem p with
  | Cell.obj _ => some (store h p Cell.raw)
  | _ => none

/-- The call `alloc.construct(p, args)` where `r` is what `T`'s constructor produces
(`none` when it throws): undefined when slot `p` is not allocated storage. -/
def construct {T : Type} (h : Heap T) (p : Nat) (r : Option T) : Outcome (Heap T) Unit :=
  match h.mem p with
  | Cell.unmapped => Outcome.ub
  | _ =>
    match r with
    | none => Outcome.threw h
    | some y => Outcome.ok () (store h p (Cell.obj y))

/-- Destroy the objects in slots `p, p+1, ..., p+n-1` (clean-up of `std::uninitialized_copy`). -/
def destroy_range {T : Type} (h : Heap T) (p : Nat) : Nat → Option (Heap T)
  | 0 => some h
  | n + 1 =>
    match destroy h p with
    | none => none
    | some h1 => destroy_range h1 (p + 1) n

/-- The loop of `std::uninitialized_copy`: `n` elements remain, the next is read at `first`
and constructed at `cur`; `d_first` is where the output range started. When a construction
throws, the objects built so far are destroyed and the exception leaves. -/
def uninitialized_copy_loop {T : Type} (cons : T → Option (T × T)) (d_first : Nat) :
    Nat → Nat → Nat → Heap T → Outcome (Heap T) Nat
  | 0, _, cur, h => Outcome.ok cur h
  | n + 1, first, cur, h =>
    match h.mem first with
    | Cell.obj x =>
      match h.mem cur with
      | Cell.unmapped => Outcome.ub
      | _ =>
        match cons x with
        | none =>
          match destroy_range h d_first (cur - d_first) with
          | none => Outcome.ub
          | some h1 => Outcome.threw h1
        | some (y, r) =>
          uninitialized_copy_loop cons d_first n (first + 1) (cur + 1)
            (store (store h first (Cell.obj r)) cur (Cell.obj y))
    | _ => Outcome.ub

/-- The call `std::uninitialized_copy(first, last, d_first)`; returns one past the last
slot constructed. -/
def uninitialized_copy {T : Type} (cons : T → Option (T × T)) (h : Heap T)
    (first last d_first : Nat) : Outcome (Heap T) Nat :=
  if last < first then Outcome.ub
  else uninitialized_copy_loop cons d_first (last - first) first d_first h

/-! ## SmallVector -/

/-- Conversion of a pointer difference to `std::size_t`. -/
def to_size_t (d : Int) : Nat := (d % 2 ^ 64).toNat

/-- Line 32: `size()` is `first_free - elements`. -/
def size (v : SmallVector) : Nat := to_size_t ((v.first_free : Int) - (v.elements : Int))

/-- Line 33: `capacity()` is `current_capacity - first_free`. -/
def capacity (v : SmallVector) : Nat :=
  to_size_t ((v.current_capacity : Int) - (v.first_free : Int))

/-- The number of allocated slots, `current_capacity - elements` (the size passed to
`deallocate` on line 145). -/
def total_slots (v : SmallVector) : Nat :=
  to_size_t ((v.current_capacity : Int) - (v.elements : Int))

/-- Replace the object with identity `this`. -/
def setVec (f : Nat → SmallVector) (this : Nat) (v : SmallVector) : Nat → SmallVector :=
  fun i => if i = this then v else f i

/-- Lines 10-15: the default constructor. -/
def default_construct {T : Type} (w : World T) (this : Nat) : World T :=
  { w with vec := setVec w.vec this ⟨0, 0, 0⟩ }

/-- The loop of `free()` (lines 134-136): `iter` is `elements + n` and walks down. -/
def destroy_down {T : Type} (h : Heap T) (elements : Nat) : Nat → Option (Heap T)
  | 0 => some h
  | n + 1 =>
    match destroy h (elements + n) with
    | none => none
    | some h1 => destroy_down h1 elements n

/-- Lines 124-147: `free()`; `none` is undefined behaviour. -/
def free {T : Type} (w : World T) (this : Nat) : Option (World T) :=
  let v := w.vec this
  if v.elements ≠ 0 then
    if v.first_free < v.elements then none
    else
      match destroy_down w.heap v.elements (v.first_free - v.elements) with
      | none => none
      | some h1 =>
        match deallocate h1 v.elements (total_slots v) with
        | none => none
        | some h2 => some { w with heap := h2 }
  else some w

/-- Line 156: `new_capacity = size() ? 2 * size() : 3`, computed in `std::size_t`. -/
def new_capacity (v : SmallVector) : Nat :=
  (if size v ≠ 0 then 2 * size v else 3) % 2 ^ 64

/-- Lines 153-179: `reallocate()`. -/
def reallocate {T : Type} (ops : ElemOps T) (w : World T) (this : Nat) :
    Outcome (World T) Unit :=
  let v := w.vec this
  match allocate w.heap (new_capacity v) with
  | none => Outcome.threw w
  | some (first, h1) =>
    match uninitialized_copy (moveCons ops) h1 v.elements v.first_free first with
    | Outcome.ub => Outcome.ub
    | Outcome.threw h2 => Outcome.threw { w with heap := h2 }
    | Outcome.ok last h2 =>
      match free { w with heap := h2 } this with
      | none => Outcome.ub
      | some w3 =>
        Outcome.ok () { w3 with vec := setVec w3.vec this ⟨first, last, first + new_capacity v⟩ }

/-- Lines 42-47: `check_then_allocate()`. -/
def check_then_allocate {T : Type} (ops : ElemOps T) (w : World T) (this : Nat) :
    Outcome (World T) Unit :=
  if size (w.vec this) = capacity (w.vec this) then reallocate ops w this
  else Outcome.ok () w

/-- The statement `alloc.construct(first_free++, value)` shared by both `push_back` forms;
`r` is what `T`'s constructor produces. The increment is sequenced before the call. -/
def construct_at_first_free {T : Type} (w : World T) (this : Nat) (r : Option T) :
    Outcome (World T) Unit :=
  let v := w.vec this
  let vec1 := setVec w.vec this { v with first_free := v.first_free + 1 }
  match construct w.heap v.first_free r with
  | Outcome.ub => Outcome.ub
  | Outcome.threw h1 => Outcome.threw { heap := h1, vec := vec1 }
  | Outcome.ok _ h1 => Outcome.ok () { heap := h1, vec := vec1 }

/-- Lines 180-185: `push_back(const T&)`. -/
def push_back {T : Type} (ops : ElemOps T) (w : World T) (this : Nat) (lvalue_elem : T) :
    Outcome (World T) Unit :=
  match check_then_allocate ops w this with
  | Outcome.ub => Outcome.ub
  | Outcome.threw w1 => Outcome.threw w1
  | Outcome.ok _ w1 => construct_at_first_free w1 this (ops.copy lvalue_elem)

/-- Lines 187-192: `push_back(T&&)`. -/
def push_back_move {T : Type} (ops : ElemOps T) (w : World T) (this : Nat) (rvalue_elem : T) :
    Outcome (World T) Unit :=
  match check_then_allocate ops w this with
  | Outcome.ub => Outcome.ub
  | Outcome.threw w1 => Outcome.threw w1
  | Outcome.ok _ w1 =>
    construct_at_first_free w1 this
      (match ops.move rvalue_elem with
       | none => none
       | some (y, _) => some y)

/-- Lines 66-78: `alloc_then_copy(begin, end)`. -/
def alloc_then_copy {T : Type} (ops : ElemOps T) (h : Heap T) (begin end_ : Nat) :
    Outcome (Heap T) (Nat × Nat) :=
  let range : Int := (end_ : Int) - (begin : Int)
  match allocate h (to_size_t range) with
  | none => Outcome.threw h
  | some (data, h1) =>
    match uninitialized_copy (copyCons ops) h1 begin end_ data with
    | Outcome.ub => Outcome.ub
    | Outcome.threw h2 => Outcome.threw h2
    | Outcome.ok last h2 => Outcome.ok (data, last) h2

/-- Lines 80-86: the copy constructor, building object `this` from `small_vector`. -/
def copy_construct {T : Type} (ops : ElemOps T) (w : World T) (this small_vector : Nat) :
    Outcome (World T) Unit :=
  let src := w.vec small_vector
  match alloc_then_copy ops w.heap src.elements src.first_free with
  | Outcome.ub => Outcome.ub
  | Outcome.threw h1 => Outcome.threw { w with heap := h1 }
  | Outcome.ok newly_allocated_data h1 =>
    Outcome.ok () { heap := h1
                    vec := setVec w.vec this
                      ⟨newly_allocated_data.1, newly_allocated_data.2, newly_allocated_data.2⟩ }

/-- Lines 88-96: copy assignment `*this = rhs`. -/
def copy_assign {T : Type} (ops : ElemOps T) (w : World T) (this rhs : Nat) :
    Outcome (World T) Unit :=
  let src := w.vec rhs
  match alloc_then_copy ops w.heap src.elements src.first_free with
  | Outcome.ub => Outcome.ub
  | Outcome.threw h1 => Outcome.threw { w with heap := h1 }
  | Outcome.ok newly_allocated_data h1 =>
    match free { w with heap := h1 } this with
    | none => Outcome.ub
    | some w2 =>
      Outcome.ok () { w2 with
        vec := setVec w2.vec this
          ⟨newly_allocated_data.1, newly_allocated_data.2, newly_allocated_data.2⟩ }

/-- Lines 98-106: the move constructor, building object `this` from `small_vector`. -/
def move_construct {T : Type} (w : World T) (this small_vector : Nat) : World T :=
  let src := w.vec small_vector
  { w with vec := setVec (setVec w.vec this ⟨src.elements, src.first_free, src.current_capacity⟩)
                    small_vector ⟨0, 0, 0⟩ }

/-- Lines 108-122: move assignment `*this = std::move(rhs)`; `none` is undefined behaviour. -/
def move_assign {T : Type} (w : World T) (this rhs : Nat) : Option (World T) :=
  if this ≠ rhs then
    match free w this with
    | none => none
    | some w1 =>
      let src := w1.vec rhs
      some { w1 with
        vec := setVec (setVec w1.vec this ⟨src.elements, src.first_free, src.current_capacity⟩)
                 rhs ⟨0, 0, 0⟩ }
  else some w

/-- Line 151: the destructor. -/
def destruct {T : Type} (w : World T) (this : Nat) : Option (World T) :=
  free w this

/-! ## Observations and client programs -/

/-- The slots of the range `[begin(), end())`, in order. -/
def contents {T : Type} (w : World T) (this : Nat) : List (Cell T) :=
  (List.range (size (w.vec this))).map (fun i => w.heap.mem ((w.vec this).elements + i))

/-- One `push_back` call of a client: by copy or by move. -/
inductive Push (T : Type) where
  | copy (x : T)
  | move (x : T)

/-- The value a `push_back` call appends. -/
def Push.value {T : Type} : Push T → T
  | Push.copy x => x
  | Push.move x => x

/-- Run one `push_back` call in the form the client chose. -/
def push {T : Type} (ops : ElemOps T) (w : World T) (this : Nat) : Push T → Outcome (World T) Unit
  | Push.copy x => push_back ops w this x
  | Push.move x => push_back_move ops w this x

/-- Run a sequence of `push_back` calls on object `this`; an exception or undefined
behaviour ends the run. -/
def push_all {T : Type} (ops : ElemOps T) (this : Nat) : List (Push T) → World T → Outcome (World T) Unit
  | [], w => Outcome.ok () w
  | p :: ps, w =>
    match push ops w this p with
    | Outcome.ub => Outcome.ub
    | Outcome.threw w1 => Outcome.threw w1
    | Outcome.ok _ w1 => push_all ops this ps w1

/-- Copy and move constructors of a trivially copyable type such as `int`. -/
def trivialOps (T : Type) : ElemOps T :=
  { copy := fun x => some x, move := fun x => some (x, x) }

/-- A program state with no allocation in which every object is default-constructed. -/
def World.init (T : Type) (avail : Nat) : World T :=
  { heap := Heap.empty T avail, vec := fun _ => ⟨0, 0, 0⟩ }

/-! ## The class invariant -/

/-- Object `this` is a well-formed buffer in state `w` whose live elements are `xs` and
which owns `t` allocated slots: either it holds no allocation (all three cursors null), or
its cursors delimit a live block of `t` slots handed out by the allocator, of which the
first `xs.length` hold the objects `xs` and the rest are raw. -/
def Holds {T : Type} (w : World T) (this : Nat) (xs : List T) (t : Nat) : Prop :=
  ((w.vec this).elements = 0 ∧ (w.vec this).first_free = 0 ∧
    (w.vec this).current_capacity = 0 ∧ xs = [] ∧ t = 0) ∨
  ((w.vec this).elements ≠ 0 ∧
    (w.vec this).first_free = (w.vec this).elements + xs.length ∧
    (w.vec this).current_capacity = (w.vec this).elements + t ∧
    xs.length ≤ t ∧ t ≤ max_size ∧
    w.heap.table (w.vec this).elements = some t ∧
    (w.vec this).elements + t < w.heap.brk ∧
    (∀ i x, xs[i]? = some x → w.heap.mem ((w.vec this).elements + i) = Cell.obj x) ∧
    (∀ i, xs.length ≤ i → i < t → w.heap.mem ((w.vec this).elements + i) = Cell.raw))

/-- The storage of objects `a` and `b` does not overlap (one of them holds none, or their
blocks lie apart). -/
def Separate {T : Type} (w : World T) (a b : Nat) : Prop :=
  (w.vec a).elements = 0 ∨ (w.vec b).elements = 0 ∨
  (w.vec a).current_capacity < (w.vec b).elements ∨
  (w.vec b).current_capacity < (w.vec a).elements

/-- The data-model invariant on the cursors: `0 ≤ count ≤ capacity` with
`count = first_free - elements` and `capacity = current_capacity - elements`, and
`capacity == 0` implies `count == 0`. -/
def CountWithinCapacity (v : SmallVector) : Prop :=
  size v ≤ total_slots v ∧ (total_slots v = 0 → size v = 0)

instance (v : SmallVector) : Decidable (CountWithinCapacity v) := by
  unfold CountWithinCapacity
  infer_instance

/-- The `push_back(const T&)` calls appending the given values in order. -/
def copies {T : Type} (xs : List T) : List (Push T) := xs.map Push.copy

/-- A state in which object 0 holds `[5, 7]` in a block of 3 slots at address 1. -/
def world57 : World Int :=
  { heap :=
      { mem := fun a =>
          if a = 1 then Cell.obj 5 else if a = 2 then Cell.obj 7
          else if a = 3 then Cell.raw else Cell.unmapped
        table := fun b => if b = 1 then some 3 else none
        brk := 5
        avail := 100 }
    vec := fun i => if i = 0 then ⟨1, 3, 4⟩ else ⟨0, 0, 0⟩ }

/-- A state with two buffers: object 0 holds `[5, 7]` in a block of 3 slots at address 1 and
object 1 holds `[9]` in a block of 1 slot at address 5. -/
def twoVectors : World Int :=
  { heap :=
      { mem := fun a =>
          if a = 1 then Cell.obj 5 else if a = 2 then Cell.obj 7
          else if a = 3 then Cell.raw else if a = 5 then Cell.obj 9 else Cell.unmapped
        table := fun b => if b = 1 then some 3 else if b = 5 then some 1 else none
        brk := 7
        avail := 100 }
    vec := fun i => if i = 0 then ⟨1, 3, 4⟩ else if i = 1 then ⟨5, 6, 6⟩ else ⟨0, 0, 0⟩ }

end SmallVec


namespace SmallVec

/-! ## Teardown with its allocator calls, and further inputs -/

/-- A call that `free()` makes on the allocator. -/
inductive AllocCall where
  | destroy (p : Nat)
  | deallocate (p n : Nat)
deriving DecidableEq, Repr

/-- The loop of `free()` (lines 134-136) together with the `alloc.destroy` calls it makes,
in the order it makes them. -/
def destroy_down_traced {T : Type} (h : Heap T) (elements : Nat) :
    Nat → Option (Heap T × List AllocCall)
  | 0 => some (h, [])
  | n + 1 =>
    match destroy h (elements + n) with
    | none => none
    | some h1 =>
      match destroy_down_traced h1 elements n with
      | none => none
      | some (h2, calls) => some (h2, AllocCall.destroy (elements + n) :: calls)

/-- Lines 124-147: `free()` together with the allocator calls it makes, in order. -/
def free_traced {T : Type} (w : World T) (this : Nat) : Option (World T × List AllocCall) :=
  let v := w.vec this
  if v.elements ≠ 0 then
    if v.first_free < v.elements then none
    else
      match destroy_down_traced w.heap v.elements (v.first_free - v.elements) with
      | none => none
      | some (h1, calls) =>
        match deallocate h1 v.elements (total_slots v) with
        | none => none
        | some h2 =>
          some ({ w with heap := h2 },
            calls ++ [AllocCall.deallocate v.elements (total_slots v)])
  else some (w, [])

/-- An element type whose copy constructor throws when asked to copy the value 7. -/
def pickyOps : ElemOps Int :=
  { copy := fun x => if x = 7 then none else some x
    move := fun x => some (x, x) }

/-- The state `twoVectors` with a single slot left to allocate. -/
def tightWorld : World Int :=
  { twoVectors with heap := { twoVectors.heap with avail := 1 } }

/-! ## Client programs over several objects -/

/-- One call of a public member of `SmallVector<T>` made by a client; objects are named by
identity. -/
inductive Op (T : Type) where
  | default_construct (this : Nat)
  | copy_construct (this small_vector : Nat)
  | copy_assign (this rhs : Nat)
  | move_construct (this small_vector : Nat)
  | move_assign (this rhs : Nat)
  | push_back (this : Nat) (lvalue_elem : T)
  | push_back_move (this : Nat) (rvalue_elem : T)
  | destruct (this : Nat)

/-- Run one call of a public member. -/
def run {T : Type} (ops : ElemOps T) (w : World T) : Op T → Outcome (World T) Unit
  | Op.default_construct this => Outcome.ok () (default_construct w this)
  | Op.copy_construct this small_vector => copy_construct ops w this small_vector
  | Op.copy_assign this rhs => copy_assign ops w this rhs
  | Op.move_construct this small_vector => Outcome.ok () (move_construct w this small_vector)
  | Op.move_assign this rhs =>
    match move_assign w this rhs with
    | none => Outcome.ub
    | some w1 => Outcome.ok () w1
  | Op.push_back this lvalue_elem => push_back ops w this lvalue_elem
  | Op.push_back_move this rvalue_elem => push_back_move ops w this rvalue_elem
  | Op.destruct this =>
    match destruct w this with
    | none => Outcome.ub
    | some w1 => Outcome.ok () w1

/-- The program states a client can reach: it starts with no allocation and every object
default-constructed, and calls public members; a call either returns or is left by an
exception, after which the client goes on from the state the exception left. A call with
undefined behaviour reaches no state. Object lifetimes are not tracked (a constructor may
run on a live object, a member on a destroyed one), so the states of every well-formed
client are among these. -/
inductive Reached {T : Type} (ops : ElemOps T) : World T → Prop where
  | init (avail : Nat) : Reached ops (World.init T avail)
  | returned (w w1 : World T) (op : Op T) :
      Reached ops w → run ops w op = Outcome.ok () w1 → Reached ops w1
  | threw (w w1 : World T) (op : Op T) :
      Reached ops w → run ops w op = Outcome.threw w1 → Reached ops w1

end SmallVec
/-!
std::vector helpers and heap order

Shared by the two heap classes: `std::swap` of two vector elements and the order
predicates used to state and prove the heap properties.
-/

namespace StdVector

/-- The call `std::swap(v[i], v[j])`; `none` (undefined behaviour) when an index is out of
range. -/
def swap_at {T : Type} (v : List T) (i j : Nat) : Option (List T) :=
  match v[i]?, v[j]? with
  | some a, some b => some ((v.set i b).set j a)
  | _, _ => none

end StdVector

namespace HeapOrder

/-- Position `p` dominates position `c`: whatever they hold is related by `r`. -/
def Dom {T : Type} (r : T → T → Prop) (l : List T) (p c : Nat) : Prop :=
  ∀ a b, l[p]? = some a → l[c]? = some b → r a b

/-- Heap order on the first `n` items for every child whose parent index is at least `k`:
`r items[(c-1)/2] items[c]`. With `k = 0` this is the heap order of the whole prefix. -/
def HeapFrom {T : Type} (r : T → T → Prop) (l : List T) (n k : Nat) : Prop :=
  ∀ c, 0 < c → c < n → k ≤ (c - 1) / 2 → Dom r l ((c - 1) / 2) c

/-- State of a sift-down at node `j`: every parent at index `k` or above other than `j`
dominates its children, and the parent of `j` (when at `k` or above) dominates the children
of `j`. -/
def SiftDown {T : Type} (r : T → T → Prop) (l : List T) (n k j : Nat) : Prop :=
  (∀ c, 0 < c → c < n → k ≤ (c - 1) / 2 → (c - 1) / 2 ≠ j → Dom r l ((c - 1) / 2) c) ∧
  (∀ c, 0 < c → c < n → (c - 1) / 2 = j → 0 < j → k ≤ (j - 1) / 2 → Dom r l ((j - 1) / 2) c)

/-- State of a sift-up at node `j`: every node other than `j` is dominated by its parent,
and the parent of `j` dominates the children of `j`. -/
def SiftUp {T : Type} (r : T → T → Prop) (l : List T) (n j : Nat) : Prop :=
  (∀ c, 0 < c → c < n → c ≠ j → Dom r l ((c - 1) / 2) c) ∧
  (∀ c, 0 < c → c < n → (c - 1) / 2 = j → 0 < j → Dom r l ((j - 1) / 2) c)

/-- The list `l1` is `l` with the items at positions `i` and `j` exchanged. -/
def Swapped {T : Type} (l l1 : List T) (i j : Nat) : Prop :=
  ∀ x, l1[x]? = if x = i then l[j]? else if x = j then l[i]? else l[x]?

end HeapOrder

/-!
Heap (src/Heap.cpp)

`int` values are modelled by `Int`; a computation whose result leaves the range of `int`
is undefined behaviour (`none`). `items` is the `std::vector<T>`; indexing it outside
`[0, items.size())` is undefined behaviour. Loops carry a fuel counter.
-/

namespace MinHeap

/-- Largest value of `int`. -/
def INT_MAX : Int := 2147483647

/-- Smallest value of `int`. -/
def INT_MIN : Int := -2147483648

/-- The value of an `int` expression: `none` on signed overflow. -/
def int (x : Int) : Option Int :=
  if INT_MIN ≤ x ∧ x ≤ INT_MAX then some x else none

/-- Lines 44-54: the data members of `Heap<T>`. -/
structure Heap (T : Type) where
  items : List T
  size : Int

/-- Result of a member function: normal return with a value, `std::length_error` leaving the
call, or undefined behaviour (also when a loop runs out of fuel). -/
inductive Result (σ α : Type) where
  | ok (a : α) (s : σ)
  | length_error (s : σ)
  | ub

/-- Line 12: the default-constructed heap. -/
def empty (T : Type) : Heap T := { items := [], size := 0 }

/-- Line 58: `get_left_child`. -/
def get_left_child (parent_index : Int) : Option Int :=
  match int (2 * parent_index) with
  | none => none
  | some d => int (d + 1)

/-- Line 60: `get_right_child`. -/
def get_right_child (parent_index : Int) : Option Int :=
  match int (2 * parent_index) with
  | none => none
  | some d => int (d + 2)

/-- Line 62: `get_parent_index`; `/` on `int` truncates toward zero. -/
def get_parent_index (child_index : Int) : Option Int :=
  match int (child_index - 1) with
  | none => none
  | some d => some (Int.tdiv d 2)

/-- Line 65: `has_left_child`. -/
def has_left_child (size index : Int) : Option Bool :=
  match get_left_child index with
  | none => none
  | some l => some (decide (l < size))

/-- Line 67: `has_right_child`. -/
def has_right_child (size index : Int) : Option Bool :=
  match get_right_child index with
  | none => none
  | some r => some (decide (r < size))

/-- Line 69: `has_parent`. -/
def has_parent (index : Int) : Option Bool :=
  match get_parent_index index with
  | none => none
  | some p => some (decide (p ≥ 0))

/-- The expression `items[i]` for an `int` index. -/
def item {T : Type} (items : List T) (i : Int) : Option T :=
  if 0 ≤ i then items[i.toNat]? else none

/-- The call `std::swap(items[i], items[j])` for `int` indices. -/
def swap_items {T : Type} (items : List T) (i j : Int) : Option (List T) :=
  if 0 ≤ i ∧ 0 ≤ j then StdVector.swap_at items i.toNat j.toNat else none

/-- The loop of `heapify_up()` (lines 124-127) at `index`. -/
def heapify_up_loop {T : Type} [LinearOrder T] : Nat → List T → Int → Option (List T)
  | 0, _, _ => none
  | fuel + 1, items, index =>
    match has_parent index with
    | none => none
    | some false => some items
    | some true =>
      match get_parent_index index with
      | none => none
      | some p =>
        match item items p, item items index with
        | some a, some b =>
          if a > b then
            match swap_items items p index with
            | none => none
            | some items1 => heapify_up_loop fuel items1 p
          else some items
        | _, _ => none

/-- Lines 120-128: `heapify_up()`. -/
def heapify_up {T : Type} [LinearOrder T] (h : Heap T) : Option (Heap T) :=
  match int (h.size - 1) with
  | none => none
  | some index =>
    match heapify_up_loop (h.items.length + 1) h.items index with
    | none => none
    | some items1 => some { h with items := items1 }

/-- Lines 135-139: the choice of `smaller_child_index`, given the left child index. -/
def smaller_child {T : Type} [LinearOrder T] (size : Int) (items : List T) (index left : Int) :
    Option Int :=
  match has_right_child size index with
  | none => none
  | some false => some left
  | some true =>
    match get_right_child index with
    | none => none
    | some right =>
      match item items right, item items left with
      | some a, some b => some (if a < b then right else left)
      | _, _ => none

/-- The loop of `heapify_down()` (lines 134-148) at `index`. -/
def heapify_down_loop {T : Type} [LinearOrder T] (size : Int) :
    Nat → List T → Int → Option (List T)
  | 0, _, _ => none
  | fuel + 1, items, index =>
    match has_left_child size index with
    | none => none
    | some false => some items
    | some true =>
      match get_left_child index with
      | none => none
      | some left =>
        match smaller_child size items index left with
        | none => none
        | some smaller_child_index =>
          match item items index, item items smaller_child_index with
          | some a, some b =>
            if a < b then some items
            else
              match swap_items items smaller_child_index index with
              | none => none
              | some items1 => heapify_down_loop size fuel items1 smaller_child_index
          | _, _ => none

/-- Lines 130-149: `heapify_down()`. -/
def heapify_down {T : Type} [LinearOrder T] (h : Heap T) : Option (Heap T) :=
  match heapify_down_loop h.size (h.items.length + 1) h.items 0 with
  | none => none
  | some items1 => some { h with items := items1 }

/-- Lines 105-111: `check_in_range`: `true` when it throws. -/
def check_in_range {T : Type} (h : Heap T) : Bool := h.items.isEmpty

/-- Lines 113-118: `top()`. -/
def top {T : Type} (h : Heap T) : Result (Heap T) T :=
  if check_in_range h then Result.length_error h
  else
    match item h.items 0 with
    | none => Result.ub
    | some a => Result.ok a h

/-- Lines 151-160: `extract_min()`. -/
def extract_min {T : Type} [LinearOrder T] (h : Heap T) : Result (Heap T) T :=
  if check_in_range h then Result.length_error h
  else
    match item h.items 0 with
    | none => Result.ub
    | some it =>
      match int (h.size - 1) with
      | none => Result.ub
      | some size1 =>
        match item h.items size1 with
        | none => Result.ub
        | some last =>
          match heapify_down { items := (h.items.set 0 last).dropLast, size := size1 } with
          | none => Result.ub
          | some h1 => Result.ok it h1

/-- Lines 162-168: `add(elem)`; `none` is undefined behaviour. -/
def add {T : Type} [LinearOrder T] (h : Heap T) (elem : T) : Option (Heap T) :=
  match int (h.size + 1) with
  | none => none
  | some size1 => heapify_up { items := h.items ++ [elem], size := size1 }

/-- A call a client makes on the heap. -/
inductive Call (T : Type) where
  | add (elem : T)
  | extract_min

/-- Heaps reached from the empty heap by `add` and `extract_min` calls that return. -/
inductive Reached {T : Type} [LinearOrder T] : Heap T → Prop where
  | empty : Reached (empty T)
  | add (h h1 : Heap T) (elem : T) : Reached h → add h elem = some h1 → Reached h1
  | extract_min (h h1 : Heap T) (a : T) :
      Reached h → extract_min h = Result.ok a h1 → Reached h1

/-- The min-heap order of the claim: `items[(i-1)/2] <= items[i]` for every `0 < i < size`. -/
def MinHeapOrder {T : Type} [LinearOrder T] (items : List T) (size : Nat) : Prop :=
  ∀ i, 0 < i → i < size → ∀ a b, items[(i - 1) / 2]? = some a → items[i]? = some b → a ≤ b

/-- The class invariant of `Heap<T>`: `size` counts the items, fits an `int`, and the items
are in min-heap order. -/
def Wf {T : Type} [LinearOrder T] (h : Heap T) : Prop :=
  h.size = h.items.length ∧ h.size ≤ INT_MAX ∧ MinHeapOrder h.items h.items.length

/-- Index reached after `t` moves to the left child from the root: `2^t - 1`. -/
def leftmost : Nat → Nat
  | 0 => 0
  | t + 1 => 2 * leftmost t + 1

/-- The heap built by `main` (lines 172-180): add 6, extract, add 7, 0, 19, -1, -89. -/
def mainHeap : Heap Int := { items := [-89, -1, 19, 7, 0], size := 5 }

/-- A heap of `2^30 + 2` items: `2^30 - 1` fives, then 7, 5, 5. -/
def bigHeap : Heap Int :=
  { items := List.replicate 1073741823 5 ++ [7, 5, 5], size := ((1073741823 : Nat) : Int) + 3 }

end MinHeap

/-!
Heap (src/Heap/SimpleHeap.cpp)

`std::size_t` values are natural numbers with arithmetic modulo `2^64`; a conversion to
`int` keeps the low 32 bits as a signed value; vector indexing outside the vector is
undefined behaviour (`none`). Recursion and loops carry a fuel counter.
-/

namespace SimpleHeap

/-- Lines 6-9: the data members of `Heap<T>`. -/
structure Heap (T : Type) where
  items : List T
  sorted : Bool
  heap_size : Nat

/-- The conversion `static_cast<int>(n)` (also the implicit one at a call) of a
`std::size_t`. -/
def to_int (n : Nat) : Int :=
  if n % 2 ^ 32 < 2 ^ 31 then ((n % 2 ^ 32 : Nat) : Int) else ((n % 2 ^ 32 : Nat) : Int) - 2 ^ 32

/-- The `std::size_t` value `n - 1`, which wraps around to `2^64 - 1` at zero. -/
def size_pred (n : Nat) : Nat := if n = 0 then 18446744073709551615 else n - 1

/-- Lines 36-39: `parent(int index)`. -/
def parent (index : Int) : Nat :=
  if index > 0 then ((index - 1) % 2 ^ 32).toNat / 2 else 0

/-- Line 41: `left`. -/
def left (index : Nat) : Nat := (2 * index + 1) % 2 ^ 64

/-- Line 42: `right`. -/
def right (index : Nat) : Nat := (2 * index + 2) % 2 ^ 64

/-- Lines 56-62: one of the two comparisons of `max_heapify`: `cand` if it is inside the heap
and holds more than `cur`, else `cur`. -/
def pick_larger {T : Type} [LinearOrder T] (h : Heap T) (cand cur : Nat) : Option Nat :=
  if cand < h.heap_size then
    match h.items[cand]?, h.items[cur]? with
    | some a, some b => some (if a > b then cand else cur)
    | _, _ => none
  else some cur

/-- Lines 52-68: `max_heapify(heap, index)`. -/
def max_heapify {T : Type} [LinearOrder T] : Nat → Heap T → Nat → Option (Heap T)
  | 0, _, _ => none
  | fuel + 1, h, index =>
    match pick_larger h (left index) index with
    | none => none
    | some largest1 =>
      match pick_larger h (right index) largest1 with
      | none => none
      | some largest =>
        if largest ≠ index then
          match StdVector.swap_at h.items index largest with
          | none => none
          | some items1 => max_heapify fuel { h with items := items1 } largest
        else some h

/-- The loop of `build_max_heap` (lines 73-75) with `k` iterations left: `i` is `k - 1`. -/
def build_max_heap_loop {T : Type} [LinearOrder T] : Nat → Heap T → Option (Heap T)
  | 0, h => some h
  | k + 1, h =>
    match max_heapify (h.heap_size + 1) h k with
    | none => none
    | some h1 => build_max_heap_loop k h1

/-- Lines 70-76: `build_max_heap(heap)`: `i` runs from `static_cast<int>(heap_size / 2)`
down to 0, not at all when that start value is negative. -/
def build_max_heap {T : Type} [LinearOrder T] (h : Heap T) : Option (Heap T) :=
  build_max_heap_loop (to_int (h.heap_size / 2) + 1).toNat h

/-- Lines 44-50: the constructor from a vector. -/
def construct {T : Type} [LinearOrder T] (items : List T) : Option (Heap T) :=
  build_max_heap { items := items, sorted := false, heap_size := items.length }

/-- Line 12: the default constructor. -/
def empty (T : Type) : Heap T := { items := [], sorted := false, heap_size := 0 }

/-- Lines 78-85: `heap_up(heap, index)`. -/
def heap_up {T : Type} [LinearOrder T] : Nat → Heap T → Nat → Option (Heap T)
  | 0, _, _ => none
  | fuel + 1, h, index =>
    match h.items[index]?, h.items[parent (to_int index)]? with
    | some a, some b =>
      if a > b then
        match StdVector.swap_at h.items index (parent (to_int index)) with
        | none => none
        | some items1 => heap_up fuel { h with items := items1 } (parent (to_int index))
      else some h
    | _, _ => none

/-- Lines 87-98: `insert(elem)`. -/
def insert {T : Type} [LinearOrder T] (h : Heap T) (elem : T) : Option (Heap T) :=
  match (if h.sorted then
      match build_max_heap h with
      | none => none
      | some h1 => some { h1 with sorted := false }
    else some h) with
  | none => none
  | some h1 =>
    heap_up (h1.items.length + 2)
      { h1 with items := h1.items ++ [elem], heap_size := (h1.items ++ [elem]).length }
      (size_pred (h1.items ++ [elem]).length)

/-- Lines 100-109: `extract_max()`; `none` is undefined behaviour (empty vector). -/
def extract_max {T : Type} [LinearOrder T] (h : Heap T) : Option (T × Heap T) :=
  match StdVector.swap_at h.items 0 (h.items.length - 1) with
  | none => none
  | some items1 =>
    match items1.getLast? with
    | none => none
    | some elem =>
      match build_max_heap
          { h with items := items1.dropLast, heap_size := items1.dropLast.length } with
      | none => none
      | some h1 => some (elem, h1)

/-- The loop of `sort()` (lines 116-120) with `k` iterations left: `i` is `k`. -/
def sort_loop {T : Type} [LinearOrder T] : Nat → Heap T → Option (Heap T)
  | 0, h => some h
  | k + 1, h =>
    match StdVector.swap_at h.items 0 (k + 1) with
    | none => none
    | some items1 =>
      match max_heapify (h.heap_size + 1)
          { h with items := items1, heap_size := size_pred h.heap_size } 0 with
      | none => none
      | some h1 => sort_loop k h1

/-- Lines 111-124: `sort()`: `i` runs from `static_cast<int>(heap_size - 1)` down to 1. -/
def sort {T : Type} [LinearOrder T] (h : Heap T) : Option (Heap T) :=
  match build_max_heap h with
  | none => none
  | some h1 =>
    match sort_loop (to_int (size_pred h1.heap_size)).toNat h1 with
    | none => none
    | some h2 => some { h2 with sorted := true, heap_size := h.heap_size }

/-- Lines 126-130: `max()`. -/
def max {T : Type} (h : Heap T) : Option T := h.items.head?

/-- Line 31: `size()`. -/
def size {T : Type} (h : Heap T) : Nat := h.heap_size

/-- Heap states reachable through the constructors, `insert`, `sort` and `extract_max`. -/
inductive Reached {T : Type} [LinearOrder T] : Heap T → Prop where
  | empty : Reached (empty T)
  | construct (items : List T) (h : Heap T) : construct items = some h → Reached h
  | insert (h h1 : Heap T) (elem : T) : Reached h → insert h elem = some h1 → Reached h1
  | sort (h h1 : Heap T) : Reached h → sort h = some h1 → Reached h1
  | extract_max (h h1 : Heap T) (elem : T) :
      Reached h → extract_max h = some (elem, h1) → Reached h1

/-- The max-heap order of the claim: `items[(i-1)/2] >= items[i]` for every `0 < i < size`. -/
def MaxHeapOrder {T : Type} [LinearOrder T] (items : List T) (size : Nat) : Prop :=
  ∀ i, 0 < i → i < size → ∀ a b, items[(i - 1) / 2]? = some a → items[i]? = some b → a ≥ b

/-- The invariant of the reachable states: `heap_size` counts the items, and unless the
heap is flagged as sorted (or holds more than `2^31` items) the items are in max-heap
order. -/
def Inv {T : Type} [LinearOrder T] (h : Heap T) : Prop :=
  h.heap_size = h.items.length ∧
  (h.sorted = false → h.items.length ≤ 2 ^ 31 → MaxHeapOrder h.items h.items.length)

/-- Every item at a position above `k` is at least every item at a position before it:
the part of the vector behind position `k` is in its final, non-decreasing place. -/
def SortedAbove {T : Type} [LinearOrder T] (items : List T) (k : Nat) : Prop :=
  ∀ i j a b, i < j → k < j → items[i]? = some a → items[j]? = some b → a ≤ b

/-- The heap of `main` after `Heap<int> heap({ 1, 2, 3, 4, 5 }); heap.insert(6);`. -/
def shownHeap : Heap Int := { items := [6, 4, 5, 1, 2, 3], sorted := false, heap_size := 6 }

/-- The heap of `main` after the following `heap.sort();`. -/
def shownSorted : Heap Int := { items := [1, 2, 3, 4, 5, 6], sorted := true, heap_size := 6 }

/-- A vector holding one 1 followed by `m` zeros; it is in max-heap order as it stands. -/
def flatList (m : Nat) : List Int := 1 :: List.replicate m 0

/-- The heap that the constructor builds from `flatList m`. -/
def flatHeap (m : Nat) : Heap Int :=
  { items := flatList m, sorted := false, heap_size := m + 1 }

end SimpleHeap
/-!
DirectAddressTable (src/DirectAddressTable/DirectAddressTable.cc)

`int` values are modelled by `Int`; the table is a map from slot index to `Entry`, of
which the slots `0..12` are the `std::array<Entry, UNIVERSE>`. An entry passed by reference
is the caller's own object (not a slot of the table); each operation returns its new value.
-/

namespace DirectAddress

/-- Line 33: `#define MAXKEY 12`. -/
def MAXKEY : Int := 12

/-- Line 35: `#define VALID(key) (((key) >= 0 && (key) <= MAXKEY))`. -/
def VALID (key : Int) : Bool := decide (key ≥ 0) && decide (key ≤ MAXKEY)

/-- Lines 37-40: `struct Entry`. -/
structure Entry where
  satellite : Int
  key : Int
deriving DecidableEq, Repr

/-- Lines 42-53: the data members of `DirectAddressTable`; `reclaimed_keys` lists the stack
from its top. -/
structure DirectAddressTable where
  table : Nat → Entry
  key : Int
  reclaimed_keys : List Int

/-- The assignment `table[k] = e` for an in-range index. -/
def setSlot (table : Nat → Entry) (k : Nat) (e : Entry) : Nat → Entry :=
  fun i => if i = k then e else table i

/-- The assignment `table[key] = e` of `std::array<Entry, UNIVERSE>`: `none` (undefined
behaviour) when the index is outside `0..12`. -/
def assignSlot (table : Nat → Entry) (key : Int) (e : Entry) : Option (Nat → Entry) :=
  if 0 ≤ key ∧ key ≤ MAXKEY then some (setSlot table key.toNat e) else none

/-- Lines 55-61: `reuse_key_on(entry)`; `none` is undefined behaviour (`top()` of an empty
stack, or a slot index out of range). Returns the table and the entry as left by the call. -/
def reuse_key_on (d : DirectAddressTable) (entry : Entry) :
    Option (DirectAddressTable × Entry) :=
  match d.reclaimed_keys with
  | [] => none
  | k :: rest =>
    let entry1 : Entry := { entry with key := k }
    match assignSlot d.table entry1.key entry1 with
    | none => none
    | some t => some ({ d with table := t, reclaimed_keys := rest }, entry1)

/-- Lines 63-74: `Insert(entry)`. -/
def Insert (d : DirectAddressTable) (entry : Entry) : Option (DirectAddressTable × Entry) :=
  if d.key > MAXKEY ∧ d.reclaimed_keys.isEmpty then some (d, entry)
  else if d.key > MAXKEY ∧ ¬ d.reclaimed_keys.isEmpty then reuse_key_on d entry
  else
    let entry1 : Entry := { entry with key := d.key }
    match assignSlot d.table entry1.key entry1 with
    | none => none
    | some t => some ({ d with table := t, key := d.key + 1 }, entry1)

/-- Lines 79-88: `Delete(entry)`. -/
def Delete (d : DirectAddressTable) (entry : Entry) : DirectAddressTable × Entry :=
  if VALID entry.key then
    let k := entry.key
    ({ d with reclaimed_keys := k :: d.reclaimed_keys
              table := setSlot d.table entry.key.toNat ⟨-1, -1⟩ },
     { entry with key := -1 })
  else (d, entry)

/-- Lines 90-96: `Search(entry)`. -/
def Search (d : DirectAddressTable) (entry : Entry) : Entry :=
  if VALID entry.key then d.table entry.key.toNat else ⟨-1, -1⟩

/-- The table of `main` before any call: no key handed out, no key reclaimed; the slots of the
array are not initialised by the class, here they hold zeros. -/
def emptyTable : DirectAddressTable :=
  { table := fun _ => ⟨0, 0⟩, key := 0, reclaimed_keys := [] }

/-- A table in which the keys 0..4 have been handed out and key 3 was reclaimed. -/
def usedTable : DirectAddressTable :=
  { table := fun i => if i = 3 then ⟨-1, -1⟩ else ⟨100 + i, i⟩
    key := 5
    reclaimed_keys := [3] }

end DirectAddress

namespace SmallVec

/-! ## Lemmas on the storage primitives -/

theorem range_map_eq {T : Type} (xs : List T) (f : Nat → Cell T) (n : Nat) (hn : n = xs.length)
    (h : ∀ i x, xs[i]? = some x → f i = Cell.obj x) :
    (List.range n).map f = xs.map Cell.obj := by
  subst hn
  apply List.ext_getElem?
  intro i
  by_cases hi : i < xs.length
  · have h1 : xs[i]? = some xs[i] := List.getElem?_eq_getElem hi
    simp [List.getElem?_range, hi, h i _ h1]
  · have h1 : xs[i]? = none := List.getElem?_eq_none (by omega)
    simp [List.getElem?_range, hi, h1]
    omega

theorem to_size_t_of_lt (d : Nat) (hd : d < 2 ^ 64) : to_size_t (d : Int) = d := by
  unfold to_size_t
  omega

theorem uninitialized_copy_loop_ok {T : Type} (cons : T → Option (T × T)) (R : T → T → Prop)
    (d_first : Nat) :
    ∀ (xs : List T) (first cur : Nat) (h : Heap T),
      (∀ i x, xs[i]? = some x → h.mem (first + i) = Cell.obj x) →
      (∀ x, x ∈ xs → ∃ r, cons x = some (x, r) ∧ R x r) →
      (∀ i, i < xs.length → h.mem (cur + i) ≠ Cell.unmapped) →
      first + xs.length ≤ cur →
      ∃ h1, uninitialized_copy_loop cons d_first xs.length first cur h
            = Outcome.ok (cur + xs.length) h1 ∧
        h1.table = h.table ∧ h1.brk = h.brk ∧ h1.avail = h.avail ∧
        (∀ i x, xs[i]? = some x → h1.mem (cur + i) = Cell.obj x) ∧
        (∀ i x, xs[i]? = some x → ∃ r, h1.mem (first + i) = Cell.obj r ∧ R x r) ∧
        (∀ a, (a < first ∨ first + xs.length ≤ a) → (a < cur ∨ cur + xs.length ≤ a) →
          h1.mem a = h.mem a) := by
  intro xs
  induction xs with
  | nil =>
    intro first cur h _ _ _ _
    exact ⟨h, by simp [uninitialized_copy_loop], rfl, rfl, rfl, by simp, by simp, fun _ _ _ => rfl⟩
  | cons x xs ih =>
    intro first cur h hsrc hcons hdst hle
    have h0 : h.mem first = Cell.obj x := by simpa using hsrc 0 x (by simp)
    have hd0 : h.mem cur ≠ Cell.unmapped := by simpa using hdst 0 (by simp)
    obtain ⟨r, hr, hR⟩ := hcons x (List.mem_cons_self x xs)
    simp only [List.length_cons] at hle hdst
    have hstep : uninitialized_copy_loop cons d_first (x :: xs).length first cur h
        = uninitialized_copy_loop cons d_first xs.length (first + 1) (cur + 1)
            (store (store h first (Cell.obj r)) cur (Cell.obj x)) := by
      simp only [List.length_cons, uninitialized_copy_loop, h0]
      cases hc : h.mem cur with
      | unmapped => exact absurd hc hd0
      | raw => simp [hr]
      | obj z => simp [hr]
    obtain ⟨h1, hrun, htab, hbrk, hav, hdst1, hsrc1, hframe⟩ :=
      ih (first + 1) (cur + 1) (store (store h first (Cell.obj r)) cur (Cell.obj x))
        (by
          intro i y hy
          have := hsrc (i + 1) y (by simpa using hy)
          have hlt : i < xs.length := by
            rcases Nat.lt_or_ge i xs.length with hl | hl
            · exact hl
            · rw [List.getElem?_eq_none hl] at hy; cases hy
          simp only [store]
          rw [if_neg (by omega), if_neg (by omega)]
          rw [← this]; congr 1; omega)
        (fun y hy => hcons y (List.mem_cons_of_mem x hy))
        (by
          intro i hi
          have := hdst (i + 1) (by omega)
          simp only [store]
          rw [if_neg (by omega)]
          by_cases he : cur + 1 + i = first
          · omega
          · rw [if_neg he]
            rw [show cur + 1 + i = cur + (i + 1) by omega]; exact this)
        (by omega)
    refine ⟨h1, ?_, ?_, ?_, ?_, ?_, ?_, ?_⟩
    · rw [hstep, hrun]; simp only [List.length_cons]; congr 1; omega
    · rw [htab]; rfl
    · rw [hbrk]; rfl
    · rw [hav]; rfl
    · intro i y hy
      cases i with
      | zero =>
        simp at hy
        subst hy
        rw [hframe (cur + 0) (by omega) (by omega)]
        simp [store]
      | succ j =>
        have := hdst1 j y (by simpa using hy)
        rw [← this]; congr 1; omega
    · intro i y hy
      cases i with
      | zero =>
        simp at hy
        subst hy
        refine ⟨r, ?_, hR⟩
        rw [hframe (first + 0) (by omega) (by omega)]
        simp only [store]
        rw [if_neg (by omega)]
        simp
      | succ j =>
        obtain ⟨r1, hr1, hR1⟩ := hsrc1 j y (by simpa using hy)
        refine ⟨r1, ?_, hR1⟩
        rw [← hr1]; congr 1; omega
    · intro a ha1 ha2
      simp only [List.length_cons] at ha1 ha2
      rw [hframe a (by omega) (by omega)]
      simp only [store]
      rw [if_neg (by omega), if_neg (by omega)]

theorem destroy_down_ok {T : Type} (el : Nat) :
    ∀ (n : Nat) (h : Heap T), (∀ i, i < n → ∃ r, h.mem (el + i) = Cell.obj r) →
      ∃ h1, destroy_down h el n = some h1 ∧ h1.table = h.table ∧ h1.brk = h.brk ∧
        h1.avail = h.avail ∧ (∀ a, (a < el ∨ el + n ≤ a) → h1.mem a = h.mem a) := by
  intro n
  induction n with
  | zero =>
    intro h _
    exact ⟨h, rfl, rfl, rfl, rfl, fun _ _ => rfl⟩
  | succ n ih =>
    intro h hobj
    obtain ⟨r, hr⟩ := hobj n (by omega)
    obtain ⟨h1, hrun, htab, hbrk, hav, hframe⟩ := ih (store h (el + n) Cell.raw) (by
      intro i hi
      obtain ⟨r1, hr1⟩ := hobj i (by omega)
      refine ⟨r1, ?_⟩
      simp only [store]
      rw [if_neg (by omega)]
      exact hr1)
    refine ⟨h1, ?_, ?_, ?_, ?_, ?_⟩
    · simp only [destroy_down, destroy, hr]
      exact hrun
    · rw [htab]; rfl
    · rw [hbrk]; rfl
    · rw [hav]; rfl
    · intro a ha
      rw [hframe a (by omega)]
      simp only [store]
      rw [if_neg (by omega)]

theorem free_ok {T : Type} (w : World T) (this c t : Nat)
    (hff : (w.vec this).first_free = (w.vec this).elements + c)
    (hcc : (w.vec this).current_capacity = (w.vec this).elements + t)
    (hct : c ≤ t) (ht : t < 2 ^ 64)
    (htab : (w.vec this).elements ≠ 0 → w.heap.table (w.vec this).elements = some t)
    (hobj : ∀ i, i < c → ∃ r, w.heap.mem ((w.vec this).elements + i) = Cell.obj r) :
    ∃ w1, free w this = some w1 ∧ w1.vec = w.vec ∧ w1.heap.brk = w.heap.brk ∧
      (∀ a, (a < (w.vec this).elements ∨ (w.vec this).elements + t ≤ a) →
        w1.heap.mem a = w.heap.mem a) ∧
      (∀ b, (b ≠ (w.vec this).elements ∨ (w.vec this).elements = 0) →
        w1.heap.table b = w.heap.table b) ∧
      w.heap.avail ≤ w1.heap.avail := by
  by_cases hel : (w.vec this).elements = 0
  · refine ⟨w, ?_, rfl, rfl, fun _ _ => rfl, fun _ _ => rfl, Nat.le_refl _⟩
    simp [free, hel]
  · obtain ⟨h1, hrun, htab1, hbrk1, hav1, hframe1⟩ :=
      destroy_down_ok (w.vec this).elements c w.heap hobj
    have htot : total_slots (w.vec this) = t := by
      simp only [total_slots, hcc, to_size_t]
      omega
    have hsub : (w.vec this).first_free - (w.vec this).elements = c := by omega
    have hnlt : ¬ (w.vec this).first_free < (w.vec this).elements := by omega
    have hdealloc : h1.table (w.vec this).elements = some t := by rw [htab1]; exact htab hel
    refine ⟨{ w with heap :=
        { h1 with
          mem := fun a => if (w.vec this).elements ≤ a ∧ a < (w.vec this).elements + t
            then Cell.unmapped else h1.mem a
          table := fun b => if b = (w.vec this).elements then none else h1.table b
          avail := h1.avail + t } }, ?_, rfl, ?_, ?_, ?_, ?_⟩
    · simp only [free, ne_eq, hel, not_false_eq_true, if_true, hnlt, if_false, hsub, hrun, htot,
        deallocate, hdealloc]
    · exact hbrk1
    · intro a ha
      simp only
      rw [if_neg (by omega)]
      exact hframe1 a (by omega)
    · intro b hb
      simp only
      rw [if_neg (by rcases hb with hb | hb; exact hb; exact absurd hb hel), htab1]
    · simp only
      omega

theorem Holds.shape {T : Type} {w : World T} {this : Nat} {xs : List T} {t : Nat}
    (hv : Holds w this xs t) :
    (w.vec this).first_free = (w.vec this).elements + xs.length ∧
    (w.vec this).current_capacity = (w.vec this).elements + t ∧
    xs.length ≤ t ∧ t ≤ max_size ∧
    ((w.vec this).elements ≠ 0 →
      w.heap.table (w.vec this).elements = some t ∧ (w.vec this).elements + t < w.heap.brk) ∧
    (∀ i x, xs[i]? = some x → w.heap.mem ((w.vec this).elements + i) = Cell.obj x) ∧
    (∀ i, xs.length ≤ i → i < t → w.heap.mem ((w.vec this).elements + i) = Cell.raw) := by
  rcases hv with ⟨h1, h2, h3, h4, h5⟩ | ⟨h1, h2, h3, h4, h5, h6, h7, h8, h9⟩
  · subst h4; subst h5
    refine ⟨by simp [h1, h2], by simp [h1, h3], by simp, by simp [max_size], ?_, ?_, ?_⟩
    · intro hne; exact absurd h1 hne
    · intro i x hx; simp at hx
    · intro i _ hi; omega
  · exact ⟨h2, h3, h4, h5, fun _ => ⟨h6, h7⟩, h8, h9⟩

theorem Holds.size_eq {T : Type} {w : World T} {this : Nat} {xs : List T} {t : Nat}
    (hv : Holds w this xs t) : size (w.vec this) = xs.length := by
  obtain ⟨h1, _, h3, h4, _⟩ := hv.shape
  simp only [size, h1, to_size_t, max_size] at *
  omega

theorem Holds.total_eq {T : Type} {w : World T} {this : Nat} {xs : List T} {t : Nat}
    (hv : Holds w this xs t) : total_slots (w.vec this) = t := by
  obtain ⟨_, h2, _, h4, _⟩ := hv.shape
  simp only [total_slots, h2, to_size_t, max_size] at *
  omega

theorem Holds.capacity_eq {T : Type} {w : World T} {this : Nat} {xs : List T} {t : Nat}
    (hv : Holds w this xs t) : capacity (w.vec this) = t - xs.length := by
  obtain ⟨h1, h2, h3, h4, _⟩ := hv.shape
  simp only [capacity, h1, h2, to_size_t, max_size] at *
  omega

theorem Holds.new_capacity_eq {T : Type} {w : World T} {this : Nat} {xs : List T} {t : Nat}
    (hv : Holds w this xs t) :
    new_capacity (w.vec this) = if xs.length ≠ 0 then 2 * xs.length else 3 := by
  obtain ⟨_, _, h3, h4, _⟩ := hv.shape
  simp only [new_capacity, hv.size_eq, max_size] at *
  split <;> omega

theorem contents_eq {T : Type} (w : World T) (this : Nat) (xs : List T)
    (hsize : size (w.vec this) = xs.length)
    (hobj : ∀ i x, xs[i]? = some x → w.heap.mem ((w.vec this).elements + i) = Cell.obj x) :
    contents w this = xs.map Cell.obj :=
  range_map_eq xs _ _ hsize hobj

theorem Holds.contents_obj {T : Type} {w : World T} {this : Nat} {xs : List T} {t : Nat}
    (hv : Holds w this xs t) : contents w this = xs.map Cell.obj :=
  SmallVec.contents_eq w this xs hv.size_eq hv.shape.2.2.2.2.2.1

theorem reallocate_ok {T : Type} (ops : ElemOps T) (w : World T) (this : Nat) (xs : List T)
    (t : Nat) (hv : Holds w this xs t)
    (hmove : ∀ x, x ∈ xs → ∃ r, ops.move x = some (x, r))
    (hmax : new_capacity (w.vec this) ≤ max_size)
    (hav : new_capacity (w.vec this) ≤ w.heap.avail) :
    ∃ w1, reallocate ops w this = Outcome.ok () w1 ∧
      w1.vec = setVec w.vec this
        ⟨w.heap.brk, w.heap.brk + xs.length, w.heap.brk + new_capacity (w.vec this)⟩ ∧
      (∀ i x, xs[i]? = some x → w1.heap.mem (w.heap.brk + i) = Cell.obj x) ∧
      (∀ i, xs.length ≤ i → i < new_capacity (w.vec this) →
        w1.heap.mem (w.heap.brk + i) = Cell.raw) ∧
      w1.heap.table w.heap.brk = some (new_capacity (w.vec this)) ∧
      w1.heap.brk = w.heap.brk + new_capacity (w.vec this) + 1 := by
  obtain ⟨hff, hcc, hct, htm, hnn, hobj, _⟩ := hv.shape
  have hnc := hv.new_capacity_eq
  have hcn : xs.length ≤ new_capacity (w.vec this) := by rw [hnc]; split <;> omega
  have hbelow : (w.vec this).elements + t ≤ w.heap.brk ∨ (xs.length = 0 ∧ t = 0) := by
    by_cases hel : (w.vec this).elements = 0
    · rcases hv with ⟨_, _, _, h4, h5⟩ | ⟨h1, _⟩
      · right; exact ⟨by simp [h4], h5⟩
      · exact absurd hel h1
    · left; exact Nat.le_of_lt (hnn hel).2
  -- the new block
  let h1 : Heap T :=
    { mem := fun a => if w.heap.brk ≤ a ∧ a < w.heap.brk + new_capacity (w.vec this)
        then Cell.raw else w.heap.mem a
      table := fun b => if b = w.heap.brk then some (new_capacity (w.vec this)) else w.heap.table b
      brk := w.heap.brk + new_capacity (w.vec this) + 1
      avail := w.heap.avail - new_capacity (w.vec this) }
  have halloc : allocate w.heap (new_capacity (w.vec this)) = some (w.heap.brk, h1) := by
    simp [allocate, hmax, hav, h1]
  have hsrcbelow : ∀ i, i < xs.length → (w.vec this).elements + i < w.heap.brk := by
    intro i hi
    by_cases hel : (w.vec this).elements = 0
    · rcases hbelow with hb | ⟨hb, _⟩ <;> omega
    · have hlt := (hnn hel).2; omega
  have hidx : ∀ i (x : T), xs[i]? = some x → i < xs.length := by
    intro i x hx
    rcases Nat.lt_or_ge i xs.length with hl | hl
    · exact hl
    · rw [List.getElem?_eq_none hl] at hx; cases hx
  obtain ⟨h2, hrun, htab2, hbrk2, _, hdst2, hsrc2, hframe2⟩ :=
    uninitialized_copy_loop_ok (moveCons ops) (fun _ _ => True) w.heap.brk xs
      (w.vec this).elements w.heap.brk h1
      (by
        intro i x hx
        have hlt := hsrcbelow i (hidx i x hx)
        simp only [h1]
        rw [if_neg (by omega)]
        exact hobj i x hx)
      (by
        intro x hx
        obtain ⟨r, hr⟩ := hmove x hx
        exact ⟨r, hr, trivial⟩)
      (by
        intro i hi
        simp only [h1]
        rw [if_pos (by omega)]
        simp)
      (by
        by_cases hx : xs.length = 0
        · by_cases hel : (w.vec this).elements = 0
          · omega
          · have hlt := (hnn hel).2; omega
        · have hlt := hsrcbelow (xs.length - 1) (by omega); omega)
  have hcopy : uninitialized_copy (moveCons ops) h1 (w.vec this).elements
      (w.vec this).first_free w.heap.brk = Outcome.ok (w.heap.brk + xs.length) h2 := by
    simp only [uninitialized_copy, hff]
    rw [if_neg (by omega)]
    rw [show (w.vec this).elements + xs.length - (w.vec this).elements = xs.length by omega]
    exact hrun
  obtain ⟨w3, hfree, hvec3, hbrk3, hframe3, htab3, _⟩ :=
    free_ok { w with heap := h2 } this xs.length t hff hcc hct
      (by simp only [max_size] at htm; omega)
      (by
        intro hel
        show h2.table (w.vec this).elements = some t
        rw [htab2]
        simp only [h1]
        rw [if_neg (by have hlt := (hnn hel).2; omega)]
        exact (hnn hel).1)
      (by
        intro i hi
        obtain ⟨r, hr, _⟩ := hsrc2 i xs[i] (List.getElem?_eq_getElem hi)
        exact ⟨r, hr⟩)
  have hout : ∀ i, i < new_capacity (w.vec this) →
      w3.heap.mem (w.heap.brk + i) = h2.mem (w.heap.brk + i) := by
    intro i _
    apply hframe3
    show w.heap.brk + i < (w.vec this).elements ∨ (w.vec this).elements + t ≤ w.heap.brk + i
    rcases hbelow with hb | ⟨_, hb⟩
    · omega
    · by_cases hel : (w.vec this).elements = 0
      · omega
      · have hlt := (hnn hel).2; omega
  refine ⟨{ w3 with vec := (setVec w3.vec this
      ⟨w.heap.brk, w.heap.brk + xs.length, w.heap.brk + new_capacity (w.vec this)⟩) },
    ?_, ?_, ?_, ?_, ?_, ?_⟩
  · simp only [reallocate, halloc, hcopy, hfree]
  · simp only [hvec3]
  · intro i x hx
    show w3.heap.mem (w.heap.brk + i) = Cell.obj x
    rw [hout i (by have hlt := hidx i x hx; omega)]
    exact hdst2 i x hx
  · intro i hi1 hi2
    show w3.heap.mem (w.heap.brk + i) = Cell.raw
    rw [hout i hi2, hframe2 _ (by
      by_cases hel : (w.vec this).elements = 0
      · rcases hbelow with hb | ⟨hb, _⟩ <;> omega
      · have hlt := (hnn hel).2; omega) (by omega)]
    simp only [h1]
    rw [if_pos (by omega)]
  · show w3.heap.table w.heap.brk = some (new_capacity (w.vec this))
    by_cases hel : (w.vec this).elements = 0
    · rw [htab3 _ (Or.inr hel), htab2]
      simp [h1]
    · rw [htab3 _ (Or.inl (by
        show w.heap.brk ≠ (w.vec this).elements
        have hlt := (hnn hel).2; omega)), htab2]
      simp [h1]
  · show w3.heap.brk = _
    rw [hbrk3]
    exact hbrk2

theorem world57_holds : Holds world57 0 [5, 7] 3 := by
  refine Or.inr ⟨by decide, rfl, rfl, by decide, by decide, rfl, by decide, ?_, ?_⟩
  · intro i x hx
    rcases i with _ | _ | i
    · simp at hx; subst hx; rfl
    · simp at hx; subst hx; rfl
    · simp at hx
  · intro i h1 h2
    have hi : i = 2 := by simp at h1; omega
    subst hi
    rfl

/-- C4: from a well-formed buffer with `count` live elements, when `T`'s move constructor
yields equal values and the allocator grants the request, `reallocate()` returns normally
with total capacity `2 * count` if `count > 0` and `3` if `count == 0`, with `size()` still
`count` and with the same live elements in the same order. -/
theorem C4_reallocate_growth_policy {T : Type} (ops : ElemOps T) (w : World T) (self : Nat)
    (xs : List T) (t : Nat) (hv : Holds w self xs t)
    (hmove : ∀ x, x ∈ xs → ∃ r, ops.move x = some (x, r))
    (hmax : new_capacity (w.vec self) ≤ max_size)
    (hav : new_capacity (w.vec self) ≤ w.heap.avail) :
    ∃ w1, reallocate ops w self = Outcome.ok () w1 ∧
      total_slots (w1.vec self) =
        (if 0 < size (w.vec self) then 2 * size (w.vec self) else 3) ∧
      size (w1.vec self) = size (w.vec self) ∧
      contents w1 self = contents w self ∧
      contents w1 self = xs.map Cell.obj := by
  obtain ⟨w1, hrun, hvec, hobj, _, _, _⟩ := reallocate_ok ops w self xs t hv hmove hmax hav
  have hnc := hv.new_capacity_eq
  have hsz := hv.size_eq
  have hlen : xs.length ≤ max_size := Nat.le_trans hv.shape.2.2.1 hv.shape.2.2.2.1
  have hv1 : w1.vec self
      = ⟨w.heap.brk, w.heap.brk + xs.length, w.heap.brk + new_capacity (w.vec self)⟩ := by
    rw [hvec]; simp [setVec]
  have hsize1 : size (w1.vec self) = xs.length := by
    rw [hv1]
    simp only [size, to_size_t]
    simp only [max_size] at hlen
    omega
  have hc1 : contents w1 self = xs.map Cell.obj := by
    apply contents_eq w1 self xs hsize1
    rw [hv1]
    exact hobj
  refine ⟨w1, hrun, ?_, ?_, ?_, hc1⟩
  · rw [hv1, hsz, hnc]
    simp only [total_slots, to_size_t]
    simp only [max_size] at hlen
    by_cases hx : xs.length = 0
    · simp only [hx]; simp
    · rw [if_pos hx, if_pos (by omega)]; omega
  · rw [hsize1, hsz]
  · rw [hc1, hv.contents_obj]

/-- The growth policy at the buffer `[5, 7]` of `world57`: capacity 4 afterwards. -/
theorem C4_reallocate_growth_policy_witness :
    Holds world57 0 [5, 7] 3 ∧
    ∃ w1, reallocate (trivialOps Int) world57 0 = Outcome.ok () w1 ∧
      total_slots (w1.vec 0) = (if 0 < size (world57.vec 0) then 2 * size (world57.vec 0) else 3) ∧
      size (w1.vec 0) = size (world57.vec 0) ∧
      contents w1 0 = contents world57 0 ∧
      contents w1 0 = [Cell.obj 5, Cell.obj 7] :=
  ⟨world57_holds,
   C4_reallocate_growth_policy (trivialOps Int) world57 0 [5, 7] 3 world57_holds
     (fun x _ => ⟨x, rfl⟩) (by decide) (by decide)⟩

/-! ## Growth from a default-constructed buffer -/

/-- C1: three values pushed onto a default-constructed `SmallVector<int>` are stored in
order, but the fourth `push_back` (N = 4) does not append: no growth step runs and the
element is constructed outside the 3-slot block, which is undefined behaviour. -/
theorem C1_fourth_push_back_overruns :
    (∃ w3, push_all (trivialOps Int) 0 (copies [6, 7, 0]) (World.init Int 100)
        = Outcome.ok () w3 ∧
      size (w3.vec 0) = 3 ∧ contents w3 0 = [Cell.obj 6, Cell.obj 7, Cell.obj 0]) ∧
    push_all (trivialOps Int) 0 (copies [6, 7, 0, 19]) (World.init Int 100) = Outcome.ub :=
  ⟨⟨_, rfl, by decide, by decide⟩, rfl⟩

/-- C2: with count equal to the number of allocated slots (3 of 3), `check_then_allocate()`
returns without growing, because it compares `size()` with the free-slot count `capacity()`;
both `push_back` forms then construct into slot index 3 of a 3-slot block. -/
theorem C2_full_buffer_skips_growth :
    ∃ w3, push_all (trivialOps Int) 0 (copies [1, 2, 3]) (World.init Int 100)
        = Outcome.ok () w3 ∧
      size (w3.vec 0) = 3 ∧ total_slots (w3.vec 0) = 3 ∧ capacity (w3.vec 0) = 0 ∧
      (∃ w4, check_then_allocate (trivialOps Int) w3 0 = Outcome.ok () w4 ∧
        w4.vec 0 = w3.vec 0 ∧ total_slots (w4.vec 0) = 3) ∧
      (w3.vec 0).first_free = (w3.vec 0).elements + total_slots (w3.vec 0) ∧
      w3.heap.mem (w3.vec 0).first_free = Cell.unmapped ∧
      push_back (trivialOps Int) w3 0 4 = Outcome.ub ∧
      push_back_move (trivialOps Int) w3 0 4 = Outcome.ub :=
  ⟨_, rfl, by decide, by decide, by decide, ⟨_, rfl, by decide, by decide⟩, by decide, by decide,
    rfl, rfl⟩

/-- C3: the state reached by three `push_back` calls satisfies `0 ≤ count ≤ capacity`, but
`push_back` does not preserve it there: the statement `alloc.construct(first_free++, x)`
runs without a growth step, advancing `first_free` past `current_capacity` (count 4,
capacity 3) and constructing outside the block. -/
theorem C3_push_back_breaks_count_le_capacity :
    ∃ w3, push_all (trivialOps Int) 0 [Push.move 1, Push.copy 2, Push.move 3]
        (World.init Int 100) = Outcome.ok () w3 ∧
      CountWithinCapacity (w3.vec 0) ∧
      check_then_allocate (trivialOps Int) w3 0 = Outcome.ok () w3 ∧
      ¬ CountWithinCapacity { w3.vec 0 with first_free := (w3.vec 0).first_free + 1 } ∧
      (w3.vec 0).current_capacity < (w3.vec 0).first_free + 1 ∧
      push_back (trivialOps Int) w3 0 4 = Outcome.ub ∧
      push_back_move (trivialOps Int) w3 0 4 = Outcome.ub :=
  ⟨_, rfl, by decide, rfl, by decide, by decide, rfl, rfl⟩

/-- C6: pushing 6, 7, 0, 19, -1, -89 onto a default-constructed `SmallVector<int>`: the
first push grows the capacity from 0 to 3, the next two fill the block, and the fourth push
runs no growth step (capacity stays 3, never 6) and constructs out of bounds, so the run
does not reach `size() == 6`. -/
theorem C6_worked_example_never_grows_to_six :
    (∃ w1, push_all (trivialOps Int) 0 (copies [6]) (World.init Int 100) = Outcome.ok () w1 ∧
      total_slots (w1.vec 0) = 3) ∧
    (∃ w3, push_all (trivialOps Int) 0 (copies [6, 7, 0]) (World.init Int 100)
        = Outcome.ok () w3 ∧
      total_slots (w3.vec 0) = 3 ∧ size (w3.vec 0) ≠ capacity (w3.vec 0) ∧
      check_then_allocate (trivialOps Int) w3 0 = Outcome.ok () w3) ∧
    push_all (trivialOps Int) 0 (copies [6, 7, 0, 19, -1, -89]) (World.init Int 100)
      = Outcome.ub :=
  ⟨⟨_, rfl, by decide⟩, ⟨_, rfl, by decide, by decide, rfl⟩, rfl⟩

/-- C7: with `A = [1]`, the copy constructor gives `B` the content `[1]` in a block of exactly
1 slot and leaves `A` as it was, but the following `push_back` on `B` runs no growth step
and constructs outside `B`'s block: undefined behaviour, so nothing is guaranteed about `A`. -/
theorem C7_push_back_on_copy_overruns :
    ∃ wA wB, push_all (trivialOps Int) 0 (copies [1]) (World.init Int 100) = Outcome.ok () wA ∧
      copy_construct (trivialOps Int) wA 1 0 = Outcome.ok () wB ∧
      contents wB 1 = [Cell.obj 1] ∧ total_slots (wB.vec 1) = 1 ∧
      contents wB 0 = [Cell.obj 1] ∧ wB.vec 0 = wA.vec 0 ∧
      push_back (trivialOps Int) wB 1 2 = Outcome.ub ∧
      push_back_move (trivialOps Int) wB 1 2 = Outcome.ub :=
  ⟨_, _, rfl, rfl, by decide, by decide, by decide, by decide, rfl, rfl⟩

/-! ## Copying and self-assignment -/

theorem getElem?_lt {T : Type} {xs : List T} {i : Nat} {x : T} (hx : xs[i]? = some x) :
    i < xs.length := by
  rcases Nat.lt_or_ge i xs.length with hl | hl
  · exact hl
  · rw [List.getElem?_eq_none hl] at hx; cases hx

theorem Holds.below_brk {T : Type} {w : World T} {self : Nat} {xs : List T} {t : Nat}
    (hv : Holds w self xs t) : ∀ i, i < xs.length → (w.vec self).elements + i < w.heap.brk := by
  intro i hi
  rcases hv with ⟨_, _, _, h4, _⟩ | ⟨_, _, _, h4, _, _, h7, _⟩
  · subst h4; simp at hi
  · omega

theorem alloc_then_copy_ok {T : Type} (ops : ElemOps T) (w : World T) (self : Nat)
    (xs : List T) (t : Nat) (hv : Holds w self xs t)
    (hcopy : ∀ x, x ∈ xs → ops.copy x = some x) (hav : xs.length ≤ w.heap.avail) :
    ∃ h2, alloc_then_copy ops w.heap (w.vec self).elements (w.vec self).first_free
        = Outcome.ok (w.heap.brk, w.heap.brk + xs.length) h2 ∧
      h2.brk = w.heap.brk + xs.length + 1 ∧
      h2.table w.heap.brk = some xs.length ∧
      (∀ b, b ≠ w.heap.brk → h2.table b = w.heap.table b) ∧
      (∀ i x, xs[i]? = some x → h2.mem (w.heap.brk + i) = Cell.obj x) ∧
      (∀ a, a < w.heap.brk → h2.mem a = w.heap.mem a) ∧
      (∀ a, w.heap.brk + xs.length ≤ a → h2.mem a = w.heap.mem a) := by
  obtain ⟨hff, hcc, hct, htm, hnn, hobj, _⟩ := hv.shape
  have hbelow := hv.below_brk
  have hlen : xs.length ≤ max_size := Nat.le_trans hct htm
  have hrange : to_size_t (((w.vec self).first_free : Int) - ((w.vec self).elements : Int))
      = xs.length := hv.size_eq
  let h1 : Heap T :=
    { mem := fun a => if w.heap.brk ≤ a ∧ a < w.heap.brk + xs.length
        then Cell.raw else w.heap.mem a
      table := fun b => if b = w.heap.brk then some xs.length else w.heap.table b
      brk := w.heap.brk + xs.length + 1
      avail := w.heap.avail - xs.length }
  have halloc : allocate w.heap xs.length = some (w.heap.brk, h1) := by
    simp [allocate, hlen, hav, h1]
  have hle : (w.vec self).elements + xs.length ≤ w.heap.brk := by
    by_cases hx : xs.length = 0
    · by_cases hel : (w.vec self).elements = 0
      · omega
      · have hlt := (hnn hel).2; omega
    · have hlt := hbelow (xs.length - 1) (by omega); omega
  obtain ⟨h2, hrun, htab2, hbrk2, _, hdst2, hsrc2, hframe2⟩ :=
    uninitialized_copy_loop_ok (copyCons ops) (fun x r => r = x) w.heap.brk xs
      (w.vec self).elements w.heap.brk h1
      (by
        intro i x hx
        have hlt := hbelow i (getElem?_lt hx)
        simp only [h1]
        rw [if_neg (by omega)]
        exact hobj i x hx)
      (by
        intro x hx
        exact ⟨x, by simp [copyCons, hcopy x hx], rfl⟩)
      (by
        intro i hi
        simp only [h1]
        rw [if_pos (by omega)]
        simp)
      hle
  have hcopyrun : uninitialized_copy (copyCons ops) h1 (w.vec self).elements
      (w.vec self).first_free w.heap.brk = Outcome.ok (w.heap.brk + xs.length) h2 := by
    simp only [uninitialized_copy, hff]
    rw [if_neg (by omega)]
    rw [show (w.vec self).elements + xs.length - (w.vec self).elements = xs.length by omega]
    exact hrun
  refine ⟨h2, ?_, hbrk2, ?_, ?_, hdst2, ?_, ?_⟩
  · simp only [alloc_then_copy, hrange, halloc, hcopyrun]
  · rw [htab2]; simp [h1]
  · intro b hb
    rw [htab2]; simp [h1, hb]
  · intro a ha
    by_cases hin : (w.vec self).elements ≤ a ∧ a < (w.vec self).elements + xs.length
    · obtain ⟨r, hr, hrx⟩ := hsrc2 (a - (w.vec self).elements)
        xs[a - (w.vec self).elements]
        (List.getElem?_eq_getElem (by omega))
      have hobja := hobj (a - (w.vec self).elements) xs[a - (w.vec self).elements]
        (List.getElem?_eq_getElem (by omega))
      rw [show (w.vec self).elements + (a - (w.vec self).elements) = a by omega] at hr hobja
      rw [hr, hobja, hrx]
    · rw [hframe2 a (by omega) (by omega)]
      simp only [h1]
      rw [if_neg (by omega)]
  · intro a ha
    rw [hframe2 a (by omega) (by omega)]
    simp only [h1]
    rw [if_neg (by omega)]

theorem copy_assign_self_ok {T : Type} (ops : ElemOps T) (w : World T) (self : Nat)
    (xs : List T) (t : Nat) (hv : Holds w self xs t)
    (hcopy : ∀ x, x ∈ xs → ops.copy x = some x) (hav : xs.length ≤ w.heap.avail) :
    ∃ w1, copy_assign ops w self self = Outcome.ok () w1 ∧
      w1.vec self = ⟨w.heap.brk, w.heap.brk + xs.length, w.heap.brk + xs.length⟩ ∧
      (∀ i x, xs[i]? = some x → w1.heap.mem (w.heap.brk + i) = Cell.obj x) := by
  obtain ⟨hff, hcc, hct, htm, hnn, hobj, _⟩ := hv.shape
  obtain ⟨h2, hatc, hbrk2, htabn, htabo, hdst, hold, _⟩ :=
    alloc_then_copy_ok ops w self xs t hv hcopy hav
  obtain ⟨w3, hfree, hvec3, _, hframe3, _, _⟩ :=
    free_ok { w with heap := h2 } self xs.length t hff hcc hct
      (by simp only [max_size] at htm; omega)
      (by
        intro hel
        show h2.table (w.vec self).elements = some t
        rw [htabo _ (by have hlt := (hnn hel).2; omega)]
        exact (hnn hel).1)
      (by
        intro i hi
        refine ⟨xs[i], ?_⟩
        show h2.mem ((w.vec self).elements + i) = Cell.obj xs[i]
        rw [hold _ (hv.below_brk i hi)]
        exact hobj i xs[i] (List.getElem?_eq_getElem hi))
  refine ⟨{ w3 with vec := (setVec w3.vec self
      ⟨w.heap.brk, w.heap.brk + xs.length, w.heap.brk + xs.length⟩) }, ?_, ?_, ?_⟩
  · simp only [copy_assign, hatc, hfree]
  · simp [setVec]
  · intro i x hx
    show w3.heap.mem (w.heap.brk + i) = Cell.obj x
    rw [hframe3 _ (by
      show w.heap.brk + i < (w.vec self).elements ∨ (w.vec self).elements + t ≤ w.heap.brk + i
      by_cases hel : (w.vec self).elements = 0
      · rcases hv with ⟨_, _, _, _, h5⟩ | ⟨h1, _⟩
        · omega
        · exact absurd hel h1
      · have hlt := (hnn hel).2; omega)]
    exact hdst i x hx

/-- C9: for a well-formed buffer `A` whose elements can be copied, copy-assigning `A` to itself
returns normally (the copy is taken before `free()`, so no released slot is read) and
leaves `size()` and the live elements unchanged; move-assigning `A` to itself takes the
`this == &rhs` path, which skips `free()` and leaves the whole state unchanged. -/
theorem C9_self_assignment {T : Type} (ops : ElemOps T) (w : World T) (self : Nat)
    (xs : List T) (t : Nat) (hv : Holds w self xs t)
    (hcopy : ∀ x, x ∈ xs → ops.copy x = some x) (hav : xs.length ≤ w.heap.avail) :
    (∃ w1, copy_assign ops w self self = Outcome.ok () w1 ∧
      size (w1.vec self) = size (w.vec self) ∧
      contents w1 self = contents w self ∧ contents w1 self = xs.map Cell.obj) ∧
    move_assign w self self = some w := by
  obtain ⟨w1, hrun, hvec, hobj⟩ := copy_assign_self_ok ops w self xs t hv hcopy hav
  have hlen : xs.length ≤ max_size := Nat.le_trans hv.shape.2.2.1 hv.shape.2.2.2.1
  have hsize1 : size (w1.vec self) = xs.length := by
    rw [hvec]
    simp only [size, to_size_t]
    simp only [max_size] at hlen
    omega
  have hc1 : contents w1 self = xs.map Cell.obj := by
    apply contents_eq w1 self xs hsize1
    rw [hvec]
    exact hobj
  refine ⟨⟨w1, hrun, ?_, ?_, hc1⟩, ?_⟩
  · rw [hsize1, hv.size_eq]
  · rw [hc1, hv.contents_obj]
  · simp [move_assign]

/-- Self-assignment of the buffer `[5, 7]` of `world57`. -/
theorem C9_self_assignment_witness :
    Holds world57 0 [5, 7] 3 ∧
    (∃ w1, copy_assign (trivialOps Int) world57 0 0 = Outcome.ok () w1 ∧
      size (w1.vec 0) = size (world57.vec 0) ∧
      contents w1 0 = contents world57 0 ∧ contents w1 0 = [Cell.obj 5, Cell.obj 7]) ∧
    move_assign world57 0 0 = some world57 :=
  ⟨world57_holds,
   C9_self_assignment (trivialOps Int) world57 0 [5, 7] 3 world57_holds (fun _ _ => rfl)
     (by decide)⟩

/-! ## Moving -/

theorem construct_at_first_free_ok {T : Type} (w : World T) (self : Nat) (y : T)
    (hmap : w.heap.mem (w.vec self).first_free ≠ Cell.unmapped) :
    construct_at_first_free w self (some y) = Outcome.ok ()
      { heap := store w.heap (w.vec self).first_free (Cell.obj y)
        vec := setVec w.vec self
          { w.vec self with first_free := (w.vec self).first_free + 1 } } := by
  cases hc : w.heap.mem (w.vec self).first_free with
  | unmapped => exact absurd hc hmap
  | raw => simp only [construct_at_first_free, construct, hc]
  | obj z => simp only [construct_at_first_free, construct, hc]

theorem push_on_empty_ok {T : Type} (ops : ElemOps T) (w : World T) (self : Nat) (y : T)
    (r : Option T) (hr : r = some y)
    (hnull : w.vec self = ⟨0, 0, 0⟩) (hav : 3 ≤ w.heap.avail) :
    ∃ w1 w2, check_then_allocate ops w self = Outcome.ok () w1 ∧
      construct_at_first_free w1 self r = Outcome.ok () w2 ∧
      size (w2.vec self) = 1 ∧ contents w2 self = [Cell.obj y] := by
  have hv : Holds w self ([] : List T) 0 := by
    refine Or.inl ⟨?_, ?_, ?_, rfl, rfl⟩ <;> rw [hnull]
  have hnc : new_capacity (w.vec self) = 3 := by rw [hnull]; decide
  obtain ⟨w1, hrun, hvec, _, hraw, _, _⟩ :=
    reallocate_ok ops w self [] 0 hv (by simp) (by rw [hnc]; decide) (by rw [hnc]; exact hav)
  have hv1 : w1.vec self = ⟨w.heap.brk, w.heap.brk, w.heap.brk + 3⟩ := by
    rw [hvec, hnc]; simp [setVec]
  have hmap : w1.heap.mem (w1.vec self).first_free ≠ Cell.unmapped := by
    rw [hv1]
    have h0 := hraw 0 (by simp) (by rw [hnc]; decide)
    rw [Nat.add_zero] at h0
    simp [h0]
  subst hr
  refine ⟨w1, _, ?_, construct_at_first_free_ok w1 self y hmap, ?_, ?_⟩
  · simp only [check_then_allocate]
    rw [if_pos (by rw [hnull]; decide)]
    exact hrun
  · simp only [setVec, if_true, hv1, size, to_size_t]
    omega
  · apply contents_eq _ self [y]
    · simp only [setVec, if_true, hv1, size, to_size_t, List.length_singleton]
      omega
    · intro i x hx
      have hi : i = 0 := by
        have hlt := getElem?_lt hx
        simp at hlt
        exact hlt
      subst hi
      simp at hx
      subst hx
      simp [setVec, hv1, store]

theorem push_back_on_empty_ok {T : Type} (ops : ElemOps T) (w : World T) (self : Nat) (x : T)
    (hcopy : ops.copy x = some x)
    (hnull : w.vec self = ⟨0, 0, 0⟩) (hav : 3 ≤ w.heap.avail) :
    ∃ w2, push_back ops w self x = Outcome.ok () w2 ∧
      size (w2.vec self) = 1 ∧ contents w2 self = [Cell.obj x] := by
  obtain ⟨w1, w2, h1, h2, h3, h4⟩ := push_on_empty_ok ops w self x _ hcopy hnull hav
  exact ⟨w2, by simp only [push_back, h1, h2], h3, h4⟩

theorem push_back_move_on_empty_ok {T : Type} (ops : ElemOps T) (w : World T) (self : Nat)
    (x : T) (hmove : ∃ r, ops.move x = some (x, r))
    (hnull : w.vec self = ⟨0, 0, 0⟩) (hav : 3 ≤ w.heap.avail) :
    ∃ w2, push_back_move ops w self x = Outcome.ok () w2 ∧
      size (w2.vec self) = 1 ∧ contents w2 self = [Cell.obj x] := by
  obtain ⟨r, hr⟩ := hmove
  obtain ⟨w1, w2, h1, h2, h3, h4⟩ :=
    push_on_empty_ok ops w self x
      (match ops.move x with
       | none => none
       | some (y, _) => some y) (by rw [hr]) hnull hav
  exact ⟨w2, by simp only [push_back_move, h1, h2], h3, h4⟩

theorem contents_congr {T : Type} (w w1 : World T) (a b : Nat)
    (hvec : w1.vec b = w.vec a)
    (hmem : ∀ i, i < size (w.vec a) →
      w1.heap.mem ((w.vec a).elements + i) = w.heap.mem ((w.vec a).elements + i)) :
    contents w1 b = contents w a := by
  simp only [contents, hvec]
  apply List.map_congr_left
  intro i hi
  exact hmem i (List.mem_range.mp hi)

/-- C8: for a well-formed buffer `A` and a distinct object `B`, move construction `B(move(A))`
and move assignment `B = move(A)` (with `B` well-formed and its storage apart from `A`'s) give
`B` exactly `A`'s prior elements, size and total capacity, leave `A` with all three cursors
null and `size() == 0`, and a following `push_back(x)` on `A` (either form, with the
allocator able to supply 3 slots) returns a buffer of size 1 whose only element is `x`. -/
theorem C8_move_empties_source {T : Type} (ops : ElemOps T) (w : World T) (a b : Nat)
    (xs ys : List T) (ta tb : Nat) (x : T)
    (hab : b ≠ a) (hA : Holds w a xs ta)
    (hcopy : ops.copy x = some x) (hmove : ∃ r, ops.move x = some (x, r))
    (hav : 3 ≤ w.heap.avail) :
    (contents (move_construct w b a) b = contents w a ∧
      size ((move_construct w b a).vec b) = size (w.vec a) ∧
      total_slots ((move_construct w b a).vec b) = total_slots (w.vec a) ∧
      (move_construct w b a).vec a = ⟨0, 0, 0⟩ ∧
      size ((move_construct w b a).vec a) = 0 ∧
      (∃ w2, push_back ops (move_construct w b a) a x = Outcome.ok () w2 ∧
        size (w2.vec a) = 1 ∧ contents w2 a = [Cell.obj x]) ∧
      (∃ w2, push_back_move ops (move_construct w b a) a x = Outcome.ok () w2 ∧
        size (w2.vec a) = 1 ∧ contents w2 a = [Cell.obj x])) ∧
    (Holds w b ys tb → Separate w a b →
      ∃ w1, move_assign w b a = some w1 ∧
        contents w1 b = contents w a ∧
        size (w1.vec b) = size (w.vec a) ∧
        total_slots (w1.vec b) = total_slots (w.vec a) ∧
        w1.vec a = ⟨0, 0, 0⟩ ∧
        size (w1.vec a) = 0 ∧
        (∃ w2, push_back ops w1 a x = Outcome.ok () w2 ∧
          size (w2.vec a) = 1 ∧ contents w2 a = [Cell.obj x]) ∧
        (∃ w2, push_back_move ops w1 a x = Outcome.ok () w2 ∧
          size (w2.vec a) = 1 ∧ contents w2 a = [Cell.obj x])) := by
  have hab2 : a ≠ b := fun h => hab h.symm
  constructor
  · have hb : (move_construct w b a).vec b = w.vec a := by
      simp [move_construct, setVec, hab]
    have ha : (move_construct w b a).vec a = ⟨0, 0, 0⟩ := by
      simp [move_construct, setVec]
    refine ⟨contents_congr w _ a b hb (fun _ _ => rfl), by rw [hb], by rw [hb], ha,
      by rw [ha]; decide, ?_, ?_⟩
    · exact push_back_on_empty_ok ops _ a x hcopy ha hav
    · exact push_back_move_on_empty_ok ops _ a x hmove ha hav
  · intro hB hsep
    obtain ⟨hffb, hccb, hctb, htmb, hnnb, hobjb, _⟩ := hB.shape
    obtain ⟨hffa, hcca, hcta, _, hnna, _, _⟩ := hA.shape
    obtain ⟨w3, hfree, hvec3, _, hframe3, _, hav3⟩ :=
      free_ok w b ys.length tb hffb hccb hctb (by simp only [max_size] at htmb; omega)
        (fun hel => (hnnb hel).1)
        (fun i hi => ⟨ys[i], hobjb i ys[i] (List.getElem?_eq_getElem hi)⟩)
    obtain ⟨w1, hw1⟩ : ∃ w1 : World T, w1 = { w3 with
        vec := (setVec (setVec w3.vec b
          ⟨(w3.vec a).elements, (w3.vec a).first_free, (w3.vec a).current_capacity⟩)
            a ⟨0, 0, 0⟩) } := ⟨_, rfl⟩
    have hrun : move_assign w b a = some w1 := by
      rw [hw1]
      simp only [move_assign, ne_eq, hab, not_false_eq_true, if_true, hfree]
    have hb : w1.vec b = w.vec a := by
      rw [hw1]
      simp [setVec, hab, hvec3]
    have ha : w1.vec a = ⟨0, 0, 0⟩ := by
      rw [hw1]
      simp [setVec]
    have hheap : w1.heap = w3.heap := by rw [hw1]
    refine ⟨w1, hrun, ?_, by rw [hb], by rw [hb], ha, by rw [ha]; decide, ?_, ?_⟩
    · apply contents_congr w w1 a b hb
      intro i hi
      rw [hA.size_eq] at hi
      rw [hheap]
      apply hframe3
      by_cases hela : (w.vec a).elements = 0
      · rcases hA with ⟨_, _, _, h4, _⟩ | ⟨h1, _⟩
        · subst h4; simp at hi
        · exact absurd hela h1
      · by_cases helb : (w.vec b).elements = 0
        · rcases hB with ⟨_, _, _, _, h5⟩ | ⟨h1, _⟩
          · right; omega
          · exact absurd helb h1
        · rcases hsep with h | h | h | h
          · exact absurd h hela
          · exact absurd h helb
          · left; omega
          · right; omega
    · exact push_back_on_empty_ok ops w1 a x hcopy ha
        (by rw [hheap]; exact Nat.le_trans hav hav3)
    · exact push_back_move_on_empty_ok ops w1 a x hmove ha
        (by rw [hheap]; exact Nat.le_trans hav hav3)

theorem twoVectors_holds_zero : Holds twoVectors 0 [5, 7] 3 := by
  refine Or.inr ⟨by decide, rfl, rfl, by decide, by decide, rfl, by decide, ?_, ?_⟩
  · intro i x hx
    rcases i with _ | _ | i
    · simp at hx; subst hx; rfl
    · simp at hx; subst hx; rfl
    · simp at hx
  · intro i h1 h2
    have hi : i = 2 := by simp at h1; omega
    subst hi
    rfl

theorem twoVectors_holds_one : Holds twoVectors 1 [9] 1 := by
  refine Or.inr ⟨by decide, rfl, rfl, by decide, by decide, rfl, by decide, ?_, ?_⟩
  · intro i x hx
    rcases i with _ | i
    · simp at hx; subst hx; rfl
    · simp at hx
  · intro i h1 h2
    simp at h1
    omega

/-- Moving the buffer `[5, 7]` of `twoVectors` into object 1, by construction and by
assignment over the buffer `[9]`, then pushing 4 onto the emptied source. -/
theorem C8_move_empties_source_witness :
    (contents (move_construct twoVectors 1 0) 1 = contents twoVectors 0 ∧
      size ((move_construct twoVectors 1 0).vec 1) = size (twoVectors.vec 0) ∧
      total_slots ((move_construct twoVectors 1 0).vec 1) = total_slots (twoVectors.vec 0) ∧
      (move_construct twoVectors 1 0).vec 0 = ⟨0, 0, 0⟩ ∧
      size ((move_construct twoVectors 1 0).vec 0) = 0 ∧
      (∃ w2, push_back (trivialOps Int) (move_construct twoVectors 1 0) 0 4 = Outcome.ok () w2 ∧
        size (w2.vec 0) = 1 ∧ contents w2 0 = [Cell.obj 4]) ∧
      (∃ w2, push_back_move (trivialOps Int) (move_construct twoVectors 1 0) 0 4
          = Outcome.ok () w2 ∧
        size (w2.vec 0) = 1 ∧ contents w2 0 = [Cell.obj 4])) ∧
    (∃ w1, move_assign twoVectors 1 0 = some w1 ∧
        contents w1 1 = contents twoVectors 0 ∧
        size (w1.vec 1) = size (twoVectors.vec 0) ∧
        total_slots (w1.vec 1) = total_slots (twoVectors.vec 0) ∧
        w1.vec 0 = ⟨0, 0, 0⟩ ∧
        size (w1.vec 0) = 0 ∧
        (∃ w2, push_back (trivialOps Int) w1 0 4 = Outcome.ok () w2 ∧
          size (w2.vec 0) = 1 ∧ contents w2 0 = [Cell.obj 4]) ∧
        (∃ w2, push_back_move (trivialOps Int) w1 0 4 = Outcome.ok () w2 ∧
          size (w2.vec 0) = 1 ∧ contents w2 0 = [Cell.obj 4])) :=
  have h := C8_move_empties_source (trivialOps Int) twoVectors 0 1 [5, 7] [9] 3 1 4
    (by decide) twoVectors_holds_zero rfl ⟨4, rfl⟩ (by decide)
  ⟨h.1, h.2 twoVectors_holds_one (Or.inr (Or.inr (Or.inl (by decide))))⟩

/-! ## Failure during growth -/

theorem destroy_range_ok {T : Type} :
    ∀ (n p : Nat) (h : Heap T), (∀ i, i < n → ∃ z, h.mem (p + i) = Cell.obj z) →
      ∃ h1, destroy_range h p n = some h1 ∧ h1.table = h.table ∧ h1.brk = h.brk ∧
        h1.avail = h.avail ∧ (∀ a, (a < p ∨ p + n ≤ a) → h1.mem a = h.mem a) := by
  intro n
  induction n with
  | zero =>
    intro p h _
    exact ⟨h, rfl, rfl, rfl, rfl, fun _ _ => rfl⟩
  | succ n ih =>
    intro p h hobj
    obtain ⟨z, hz⟩ := hobj 0 (by omega)
    rw [Nat.add_zero] at hz
    obtain ⟨h1, hrun, htab, hbrk, hav, hframe⟩ := ih (p + 1) (store h p Cell.raw) (by
      intro i hi
      obtain ⟨z1, hz1⟩ := hobj (i + 1) (by omega)
      refine ⟨z1, ?_⟩
      simp only [store]
      rw [if_neg (by omega), ← hz1]
      congr 1; omega)
    refine ⟨h1, ?_, ?_, ?_, ?_, ?_⟩
    · simp only [destroy_range, destroy, hz]
      exact hrun
    · rw [htab]; rfl
    · rw [hbrk]; rfl
    · rw [hav]; rfl
    · intro a ha
      rw [hframe a (by omega)]
      simp only [store]
      rw [if_neg (by omega)]

theorem uninitialized_copy_loop_throws {T : Type} (cons : T → Option (T × T)) (d_first : Nat) :
    ∀ (k : Nat) (xs : List T) (first cur : Nat) (h : Heap T),
      k < xs.length →
      (∀ i x, xs[i]? = some x → h.mem (first + i) = Cell.obj x) →
      (∀ i x, i < k → xs[i]? = some x → ∃ z r, cons x = some (z, r)) →
      (∀ x, xs[k]? = some x → cons x = none) →
      (∀ i, i ≤ k → h.mem (cur + i) ≠ Cell.unmapped) →
      d_first ≤ cur →
      (∀ a, d_first ≤ a → a < cur → ∃ z, h.mem a = Cell.obj z) →
      first + xs.length ≤ d_first →
      ∃ h1, uninitialized_copy_loop cons d_first xs.length first cur h = Outcome.threw h1 ∧
        h1.table = h.table ∧ h1.brk = h.brk ∧ h1.avail = h.avail ∧
        (∀ i x, k ≤ i → xs[i]? = some x → h1.mem (first + i) = Cell.obj x) ∧
        (∀ i x, i < k → xs[i]? = some x →
          ∃ z r, cons x = some (z, r) ∧ h1.mem (first + i) = Cell.obj r) ∧
        (∀ a, a < first → h1.mem a = h.mem a) := by
  intro k
  induction k with
  | zero =>
    intro xs first cur h hk hsrc _ hthrow hdst hle hbuilt hsep
    cases xs with
    | nil => simp at hk
    | cons x xs =>
      have h0 : h.mem first = Cell.obj x := by simpa using hsrc 0 x (by simp)
      have hd0 : h.mem cur ≠ Cell.unmapped := by simpa using hdst 0 (Nat.le_refl _)
      have hc : cons x = none := hthrow x (by simp)
      obtain ⟨h1, hrun, htab, hbrk, hav, hframe⟩ :=
        destroy_range_ok (cur - d_first) d_first h (by
          intro i hi
          exact hbuilt (d_first + i) (by omega) (by omega))
      simp only [List.length_cons] at hsep
      refine ⟨h1, ?_, htab, hbrk, hav, ?_, ?_, ?_⟩
      · simp only [List.length_cons, uninitialized_copy_loop, h0]
        cases hm : h.mem cur with
        | unmapped => exact absurd hm hd0
        | raw => simp [hc, hrun]
        | obj z => simp [hc, hrun]
      · intro i y _ hy
        have hi := getElem?_lt hy
        simp only [List.length_cons] at hi
        rw [hframe _ (by omega)]
        exact hsrc i y hy
      · intro i y hi _
        omega
      · intro a ha
        exact hframe a (by omega)
  | succ k ih =>
    intro xs first cur h hk hsrc hcons hthrow hdst hle hbuilt hsep
    cases xs with
    | nil => simp at hk
    | cons x xs =>
      have h0 : h.mem first = Cell.obj x := by simpa using hsrc 0 x (by simp)
      have hd0 : h.mem cur ≠ Cell.unmapped := by simpa using hdst 0 (Nat.zero_le _)
      obtain ⟨z, r, hzr⟩ := hcons 0 x (by omega) (by simp)
      simp only [List.length_cons] at hsep hk
      have hstep : uninitialized_copy_loop cons d_first (x :: xs).length first cur h
          = uninitialized_copy_loop cons d_first xs.length (first + 1) (cur + 1)
              (store (store h first (Cell.obj r)) cur (Cell.obj z)) := by
        simp only [List.length_cons, uninitialized_copy_loop, h0]
        cases hm : h.mem cur with
        | unmapped => exact absurd hm hd0
        | raw => simp [hzr]
        | obj z1 => simp [hzr]
      obtain ⟨h1, hrun, htab, hbrk, hav, hkeep, hmoved, hframe⟩ :=
        ih xs (first + 1) (cur + 1) (store (store h first (Cell.obj r)) cur (Cell.obj z))
          (by omega)
          (by
            intro i y hy
            have hi := getElem?_lt hy
            have hs := hsrc (i + 1) y (by simpa using hy)
            simp only [store]
            rw [if_neg (by omega), if_neg (by omega), ← hs]
            congr 1; omega)
          (by
            intro i y hi hy
            exact hcons (i + 1) y (by omega) (by simpa using hy))
          (by
            intro y hy
            exact hthrow y (by simpa using hy))
          (by
            intro i hi
            have hd := hdst (i + 1) (by omega)
            simp only [store]
            rw [if_neg (by omega), if_neg (by omega)]
            rw [show cur + 1 + i = cur + (i + 1) by omega]
            exact hd)
          (by omega)
          (by
            intro a ha1 ha2
            simp only [store]
            by_cases hac : a = cur
            · rw [if_pos hac]; exact ⟨z, rfl⟩
            · rw [if_neg hac, if_neg (by omega)]
              exact hbuilt a ha1 (by omega))
          (by omega)
      refine ⟨h1, ?_, ?_, ?_, ?_, ?_, ?_, ?_⟩
      · rw [hstep, hrun]
      · rw [htab]; rfl
      · rw [hbrk]; rfl
      · rw [hav]; rfl
      · intro i y hi hy
        cases i with
        | zero => omega
        | succ j =>
          have hj := hkeep j y (by omega) (by simpa using hy)
          rw [← hj]; congr 1; omega
      · intro i y hi hy
        cases i with
        | zero =>
          simp at hy
          subst hy
          refine ⟨z, r, hzr, ?_⟩
          rw [Nat.add_zero, hframe first (by omega)]
          simp only [store]
          rw [if_neg (by omega)]
          simp
        | succ j =>
          obtain ⟨z1, r1, hc1, hm1⟩ := hmoved j y (by omega) (by simpa using hy)
          refine ⟨z1, r1, hc1, ?_⟩
          rw [← hm1]; congr 1; omega
      · intro a ha
        rw [hframe a (by omega)]
        simp only [store]
        rw [if_neg (by omega), if_neg (by omega)]

theorem reallocate_throws {T : Type} (ops : ElemOps T) (w : World T) (self : Nat)
    (xs : List T) (t k : Nat) (hv : Holds w self xs t) (hk : k < xs.length)
    (hmax : new_capacity (w.vec self) ≤ max_size)
    (hav : new_capacity (w.vec self) ≤ w.heap.avail)
    (hmoved : ∀ i y, i < k → xs[i]? = some y → ∃ z r, ops.move y = some (z, r))
    (hthrow : ∀ y, xs[k]? = some y → ops.move y = none) :
    ∃ w1, reallocate ops w self = Outcome.threw w1 ∧ w1.vec = w.vec ∧
      (∀ i y, k ≤ i → xs[i]? = some y →
        w1.heap.mem ((w.vec self).elements + i) = Cell.obj y) ∧
      (∀ i y, i < k → xs[i]? = some y →
        ∃ z r, ops.move y = some (z, r) ∧
          w1.heap.mem ((w.vec self).elements + i) = Cell.obj r) := by
  obtain ⟨hff, _, _, _, _, hobj, _⟩ := hv.shape
  have hbelow := hv.below_brk
  have hnc := hv.new_capacity_eq
  have hcn : xs.length ≤ new_capacity (w.vec self) := by rw [hnc]; split <;> omega
  let h1 : Heap T :=
    { mem := fun a => if w.heap.brk ≤ a ∧ a < w.heap.brk + new_capacity (w.vec self)
        then Cell.raw else w.heap.mem a
      table := fun b => if b = w.heap.brk then some (new_capacity (w.vec self)) else w.heap.table b
      brk := w.heap.brk + new_capacity (w.vec self) + 1
      avail := w.heap.avail - new_capacity (w.vec self) }
  have halloc : allocate w.heap (new_capacity (w.vec self)) = some (w.heap.brk, h1) := by
    simp [allocate, hmax, hav, h1]
  have hle : (w.vec self).elements + xs.length ≤ w.heap.brk := by
    have hlt := hbelow (xs.length - 1) (by omega); omega
  obtain ⟨h2, hrun, _, _, _, hkeep, hres, _⟩ :=
    uninitialized_copy_loop_throws (moveCons ops) w.heap.brk k xs
      (w.vec self).elements w.heap.brk h1 hk
      (by
        intro i x hx
        have hlt := hbelow i (getElem?_lt hx)
        simp only [h1]
        rw [if_neg (by omega)]
        exact hobj i x hx)
      hmoved hthrow
      (by
        intro i hi
        simp only [h1]
        rw [if_pos (by omega)]
        simp)
      (Nat.le_refl _)
      (by intro a ha1 ha2; omega)
      hle
  have hcopy : uninitialized_copy (moveCons ops) h1 (w.vec self).elements
      (w.vec self).first_free w.heap.brk = Outcome.threw h2 := by
    simp only [uninitialized_copy, hff]
    rw [if_neg (by omega)]
    rw [show (w.vec self).elements + xs.length - (w.vec self).elements = xs.length by omega]
    exact hrun
  exact ⟨{ w with heap := h2 }, by simp only [reallocate, halloc, hcopy], rfl, hkeep, hres⟩

/-- The check of `check_then_allocate()` fires exactly when the block is half full. -/
theorem growth_check_iff {T : Type} {w : World T} {self : Nat} {xs : List T} {t : Nat}
    (hv : Holds w self xs t) :
    size (w.vec self) = capacity (w.vec self) ↔ 2 * xs.length = t := by
  rw [hv.size_eq, hv.capacity_eq]
  have hct := hv.shape.2.2.1
  omega

/-- A full, non-empty buffer is returned by `check_then_allocate()` as it is. -/
theorem check_then_allocate_full {T : Type} (ops : ElemOps T) (w : World T) (self : Nat)
    (xs : List T) (t : Nat) (hv : Holds w self xs t) (hfull : xs.length = t) (hpos : 0 < t) :
    check_then_allocate ops w self = Outcome.ok () w := by
  simp only [check_then_allocate]
  rw [if_neg (by rw [growth_check_iff hv]; omega)]

/-- On a full, non-empty buffer both `push_back` forms reduce to the construction
statement alone, and its target `first_free` is slot index `total` of the block. -/
theorem push_back_full {T : Type} (ops : ElemOps T) (w : World T) (self : Nat)
    (xs : List T) (t : Nat) (x : T) (hv : Holds w self xs t) (hfull : xs.length = t)
    (hpos : 0 < t) :
    push_back ops w self x = construct_at_first_free w self (ops.copy x) ∧
    push_back_move ops w self x = construct_at_first_free w self
      (match ops.move x with
       | none => none
       | some (y, _) => some y) ∧
    (w.vec self).first_free = (w.vec self).elements + total_slots (w.vec self) := by
  have hchk := check_then_allocate_full ops w self xs t hv hfull hpos
  refine ⟨by simp only [push_back, hchk], by simp only [push_back_move, hchk], ?_⟩
  rw [hv.total_eq, hv.shape.1, hfull]

/-- The copy constructor gives the new object `b` the elements of `a` in a block of exactly
`size()` slots and leaves `a` as it was. -/
theorem copy_construct_ok {T : Type} (ops : ElemOps T) (w : World T) (a b : Nat)
    (xs : List T) (t : Nat) (hab : b ≠ a) (hv : Holds w a xs t)
    (hcopy : ∀ x, x ∈ xs → ops.copy x = some x) (hav : xs.length ≤ w.heap.avail)
    (hbrk : w.heap.brk ≠ 0) :
    ∃ w1, copy_construct ops w b a = Outcome.ok () w1 ∧
      Holds w1 b xs xs.length ∧ Holds w1 a xs t ∧
      w1.vec b = ⟨w.heap.brk, w.heap.brk + xs.length, w.heap.brk + xs.length⟩ ∧
      (∀ p, w.heap.brk + xs.length ≤ p → w1.heap.mem p = w.heap.mem p) := by
  obtain ⟨h2, hatc, hbrk2, htabn, htabo, hdst, hold, habove⟩ :=
    alloc_then_copy_ok ops w a xs t hv hcopy hav
  have hlen : xs.length ≤ max_size := Nat.le_trans hv.shape.2.2.1 hv.shape.2.2.2.1
  obtain ⟨w1, hw1⟩ : ∃ w1 : World T, w1 = { heap := h2, vec := (setVec w.vec b
      ⟨w.heap.brk, w.heap.brk + xs.length, w.heap.brk + xs.length⟩) } := ⟨_, rfl⟩
  have hvb : w1.vec b = ⟨w.heap.brk, w.heap.brk + xs.length, w.heap.brk + xs.length⟩ := by
    rw [hw1]; simp [setVec]
  have hva : w1.vec a = w.vec a := by
    have hab2 : a ≠ b := fun h => hab h.symm
    rw [hw1]; simp [setVec, hab2]
  have hheap : w1.heap = h2 := by rw [hw1]
  refine ⟨w1, ?_, ?_, ?_, hvb, ?_⟩
  · rw [hw1]
    simp only [copy_construct, hatc]
  · refine Or.inr ?_
    rw [hvb, hheap]
    dsimp only
    refine ⟨hbrk, rfl, rfl, Nat.le_refl _, hlen, htabn, by omega, hdst, ?_⟩
    intro i h1 h2
    omega
  · rcases hv with ⟨h1, h2, h3, h4, h5⟩ | ⟨h1, h2, h3, h4, h5, h6, h7, h8, h9⟩
    · exact Or.inl (by rw [hva]; exact ⟨h1, h2, h3, h4, h5⟩)
    · refine Or.inr ?_
      rw [hva, hheap]
      refine ⟨h1, h2, h3, h4, h5, ?_, by omega, ?_, ?_⟩
      · rw [htabo _ (by omega)]; exact h6
      · intro i x hx
        have hi := getElem?_lt hx
        rw [hold _ (by omega)]
        exact h8 i x hx
      · intro i hi1 hi2
        rw [hold _ (by omega)]
        exact h9 i hi1 hi2
  · intro p hp
    rw [hheap]
    exact habove p hp

/-- In a heap whose never-handed-out addresses are unmapped, a `push_back` on the copy of any
non-empty buffer runs no growth step and constructs outside the copy's block. -/
theorem push_back_on_copy_ub {T : Type} (ops : ElemOps T) (w : World T) (a b : Nat)
    (xs : List T) (t : Nat) (x : T) (hab : b ≠ a) (hv : Holds w a xs t) (hne : xs ≠ [])
    (hcopy : ∀ y, y ∈ xs → ops.copy y = some y) (hav : xs.length ≤ w.heap.avail)
    (hbrk : w.heap.brk ≠ 0) (hfresh : ∀ p, w.heap.brk ≤ p → w.heap.mem p = Cell.unmapped) :
    ∃ w1, copy_construct ops w b a = Outcome.ok () w1 ∧
      push_back ops w1 b x = Outcome.ub ∧ push_back_move ops w1 b x = Outcome.ub := by
  obtain ⟨w1, hrun, hB, _, hvb, habove⟩ :=
    copy_construct_ok ops w a b xs t hab hv hcopy hav hbrk
  have hpos : 0 < xs.length := List.length_pos.mpr hne
  have hchk := check_then_allocate_full ops w1 b xs xs.length hB rfl hpos
  have hmem : w1.heap.mem (w1.vec b).first_free = Cell.unmapped := by
    rw [hvb]
    show w1.heap.mem (w.heap.brk + xs.length) = Cell.unmapped
    rw [habove _ (Nat.le_refl _)]
    exact hfresh _ (by omega)
  refine ⟨w1, hrun, ?_, ?_⟩
  · simp only [push_back, hchk, construct_at_first_free, construct, hmem]
  · simp only [push_back_move, hchk, construct_at_first_free, construct, hmem]

end SmallVec


namespace SmallVec

/-! ## Copy assignment -/

theorem destroy_range_frame {T : Type} :
    ∀ (n p : Nat) (h h1 : Heap T), destroy_range h p n = some h1 →
      ∀ a, a < p → h1.mem a = h.mem a := by
  intro n
  induction n with
  | zero =>
    intro p h h1 hrun a _
    have he : h = h1 := Option.some.inj hrun
    rw [he]
  | succ n ih =>
    intro p h h1 hrun a ha
    simp only [destroy_range] at hrun
    cases hd : destroy h p with
    | none => rw [hd] at hrun; cases hrun
    | some h2 =>
      rw [hd] at hrun
      have hrun2 : destroy_range h2 (p + 1) n = some h1 := hrun
      rw [ih (p + 1) h2 h1 hrun2 a (by omega)]
      unfold destroy at hd
      split at hd
      · have he := Option.some.inj hd
        rw [← he]
        simp only [store]
        rw [if_neg (by omega)]
      · cases hd

theorem copy_loop_frame {T : Type} (ops : ElemOps T) (d_first : Nat) :
    ∀ (n first cur : Nat) (h h1 : Heap T), d_first ≤ cur →
      (uninitialized_copy_loop (copyCons ops) d_first n first cur h = Outcome.threw h1 ∨
        ∃ c, uninitialized_copy_loop (copyCons ops) d_first n first cur h
          = Outcome.ok c h1) →
      ∀ a, a < d_first → h1.mem a = h.mem a := by
  intro n
  induction n with
  | zero =>
    intro first cur h h1 _ hrun a _
    rcases hrun with hrun | ⟨c, hrun⟩
    · simp [uninitialized_copy_loop] at hrun
    · simp only [uninitialized_copy_loop, Outcome.ok.injEq] at hrun
      rw [hrun.2]
  | succ n ih =>
    intro first cur h h1 hle hrun a ha
    cases hm : h.mem first with
    | unmapped => simp [uninitialized_copy_loop, hm] at hrun
    | raw => simp [uninitialized_copy_loop, hm] at hrun
    | obj x =>
      have hnext : ∀ y, ops.copy x = some y → h.mem cur ≠ Cell.unmapped →
          uninitialized_copy_loop (copyCons ops) d_first (n + 1) first cur h =
            uninitialized_copy_loop (copyCons ops) d_first n (first + 1) (cur + 1)
              (store (store h first (Cell.obj x)) cur (Cell.obj y)) := by
        intro y hy hc
        cases hcur : h.mem cur with
        | unmapped => exact absurd hcur hc
        | raw => simp [uninitialized_copy_loop, hm, hcur, copyCons, hy]
        | obj z => simp [uninitialized_copy_loop, hm, hcur, copyCons, hy]
      have hstop : ops.copy x = none → h.mem cur ≠ Cell.unmapped →
          uninitialized_copy_loop (copyCons ops) d_first (n + 1) first cur h =
            match destroy_range h d_first (cur - d_first) with
            | none => Outcome.ub
            | some h1 => Outcome.threw h1 := by
        intro hy hc
        cases hcur : h.mem cur with
        | unmapped => exact absurd hcur hc
        | raw => simp [uninitialized_copy_loop, hm, hcur, copyCons, hy]
        | obj z => simp [uninitialized_copy_loop, hm, hcur, copyCons, hy]
      by_cases hc : h.mem cur = Cell.unmapped
      · simp [uninitialized_copy_loop, hm, hc] at hrun
      · cases hy : ops.copy x with
        | none =>
          rw [hstop hy hc] at hrun
          cases hdr : destroy_range h d_first (cur - d_first) with
          | none => rw [hdr] at hrun; simp at hrun
          | some h2 =>
            rw [hdr] at hrun
            rcases hrun with hrun | ⟨c, hrun⟩
            · have he : h2 = h1 := by
                simp only [Outcome.threw.injEq] at hrun
                exact hrun
              rw [← he]
              exact destroy_range_frame _ _ _ _ hdr a ha
            · simp at hrun
        | some y =>
          rw [hnext y hy hc] at hrun
          rw [ih (first + 1) (cur + 1) _ h1 (by omega) hrun a ha]
          simp only [store]
          rw [if_neg (by omega)]
          by_cases haf : a = first
          · rw [if_pos haf, haf, hm]
          · rw [if_neg haf]

theorem alloc_then_copy_throws {T : Type} (ops : ElemOps T) (w : World T) (self : Nat)
    (xs : List T) (t k : Nat) (hv : Holds w self xs t) (hk : k < xs.length)
    (hav : xs.length ≤ w.heap.avail)
    (hcopied : ∀ i y, i < k → xs[i]? = some y → ∃ z, ops.copy y = some z)
    (hthrow : ∀ y, xs[k]? = some y → ops.copy y = none) :
    ∃ h2, alloc_then_copy ops w.heap (w.vec self).elements (w.vec self).first_free
        = Outcome.threw h2 ∧
      (∀ a, a < w.heap.brk → h2.mem a = w.heap.mem a) := by
  obtain ⟨hff, _, hct, htm, _, hobj, _⟩ := hv.shape
  have hbelow := hv.below_brk
  have hlen : xs.length ≤ max_size := Nat.le_trans hct htm
  have hrange : to_size_t (((w.vec self).first_free : Int) - ((w.vec self).elements : Int))
      = xs.length := hv.size_eq
  let h1 : Heap T :=
    { mem := fun a => if w.heap.brk ≤ a ∧ a < w.heap.brk + xs.length
        then Cell.raw else w.heap.mem a
      table := fun b => if b = w.heap.brk then some xs.length else w.heap.table b
      brk := w.heap.brk + xs.length + 1
      avail := w.heap.avail - xs.length }
  have halloc : allocate w.heap xs.length = some (w.heap.brk, h1) := by
    simp [allocate, hlen, hav, h1]
  have hle : (w.vec self).elements + xs.length ≤ w.heap.brk := by
    have hlt := hbelow (xs.length - 1) (by omega); omega
  obtain ⟨h2, hrun, _, _, _, _, _, _⟩ :=
    uninitialized_copy_loop_throws (copyCons ops) w.heap.brk k xs
      (w.vec self).elements w.heap.brk h1 hk
      (by
        intro i x hx
        have hlt := hbelow i (getElem?_lt hx)
        simp only [h1]
        rw [if_neg (by omega)]
        exact hobj i x hx)
      (by
        intro i y hi hy
        obtain ⟨z, hz⟩ := hcopied i y hi hy
        exact ⟨z, y, by simp [copyCons, hz]⟩)
      (by
        intro y hy
        simp [copyCons, hthrow y hy])
      (by
        intro i hi
        simp only [h1]
        rw [if_pos (by omega)]
        simp)
      (Nat.le_refl _)
      (by intro a ha1 ha2; omega)
      hle
  have hcopy : uninitialized_copy (copyCons ops) h1 (w.vec self).elements
      (w.vec self).first_free w.heap.brk = Outcome.threw h2 := by
    simp only [uninitialized_copy, hff]
    rw [if_neg (by omega)]
    rw [show (w.vec self).elements + xs.length - (w.vec self).elements = xs.length by omega]
    exact hrun
  refine ⟨h2, by simp only [alloc_then_copy, hrange, halloc, hcopy], ?_⟩
  intro a ha
  rw [copy_loop_frame ops w.heap.brk xs.length (w.vec self).elements w.heap.brk h1 h2
    (Nat.le_refl _) (Or.inl hrun) a ha]
  simp only [h1]
  rw [if_neg (by omega)]

theorem first_failure {T : Type} (ops : ElemOps T) :
    ∀ (xs : List T), (∃ x, x ∈ xs ∧ ops.copy x = none) →
      ∃ k, k < xs.length ∧ (∀ y, xs[k]? = some y → ops.copy y = none) ∧
        (∀ i y, i < k → xs[i]? = some y → ∃ z, ops.copy y = some z) := by
  intro xs
  induction xs with
  | nil =>
    intro h
    obtain ⟨x, hx, _⟩ := h
    cases hx
  | cons x xs ih =>
    intro h
    cases hc : ops.copy x with
    | none =>
      refine ⟨0, by simp, ?_, fun i y hi _ => absurd hi (Nat.not_lt_zero _)⟩
      intro y hy
      simp only [List.getElem?_cons_zero, Option.some.injEq] at hy
      rw [← hy]; exact hc
    | some z =>
      obtain ⟨x1, hx1, hn1⟩ := h
      have hmem : x1 ∈ xs := by
        rcases List.mem_cons.mp hx1 with he | hm
        · rw [he, hc] at hn1; cases hn1
        · exact hm
      obtain ⟨k, hk, hthrow, hcopied⟩ := ih ⟨x1, hmem, hn1⟩
      refine ⟨k + 1, by simp only [List.length_cons]; omega, ?_, ?_⟩
      · intro y hy
        rw [List.getElem?_cons_succ] at hy
        exact hthrow y hy
      · intro i y hi hy
        cases i with
        | zero =>
          simp only [List.getElem?_cons_zero, Option.some.injEq] at hy
          rw [← hy]; exact ⟨z, hc⟩
        | succ i =>
          rw [List.getElem?_cons_succ] at hy
          exact hcopied i y (by omega) hy

theorem copy_assign_ok {T : Type} (ops : ElemOps T) (w : World T) (d s : Nat)
    (ys xs : List T) (td ts : Nat) (hd : Holds w d ys td) (hs : Holds w s xs ts)
    (hsep : d ≠ s → Separate w d s)
    (hcopy : ∀ x, x ∈ xs → ops.copy x = some x) (hav : xs.length ≤ w.heap.avail) :
    ∃ w1, copy_assign ops w d s = Outcome.ok () w1 ∧
      contents w1 d = contents w s ∧ size (w1.vec d) = size (w.vec s) ∧
      contents w1 s = contents w s ∧ size (w1.vec s) = size (w.vec s) ∧
      (d ≠ s → w1.vec s = w.vec s) := by
  have hlen : xs.length ≤ max_size := Nat.le_trans hs.shape.2.2.1 hs.shape.2.2.2.1
  have hsizenew : size ⟨w.heap.brk, w.heap.brk + xs.length, w.heap.brk + xs.length⟩
      = xs.length := by
    simp only [size, to_size_t]
    simp only [max_size] at hlen
    omega
  by_cases hds : d = s
  · subst hds
    obtain ⟨w1, hrun, hvec, hobj⟩ := copy_assign_self_ok ops w d xs ts hs hcopy hav
    have hsize1 : size (w1.vec d) = xs.length := by rw [hvec]; exact hsizenew
    have hc1 : contents w1 d = xs.map Cell.obj := by
      apply contents_eq w1 d xs hsize1
      rw [hvec]
      exact hobj
    have hc : contents w1 d = contents w d := by rw [hc1, hs.contents_obj]
    exact ⟨w1, hrun, hc, by rw [hsize1, hs.size_eq], hc, by rw [hsize1, hs.size_eq],
      fun hne => absurd rfl hne⟩
  · obtain ⟨hffd, hccd, hctd, htmd, hnnd, hobjd, _⟩ := hd.shape
    obtain ⟨hffs, hccs, hcts, _, hnns, hobjs, _⟩ := hs.shape
    obtain ⟨h2, hatc, hbrk2, htabn, htabo, hdst, hold, _⟩ :=
      alloc_then_copy_ok ops w s xs ts hs hcopy hav
    obtain ⟨w3, hfree, hvec3, _, hframe3, _, _⟩ :=
      free_ok { w with heap := h2 } d ys.length td hffd hccd hctd
        (by simp only [max_size] at htmd; omega)
        (by
          intro hel
          show h2.table (w.vec d).elements = some td
          rw [htabo _ (by have hlt := (hnnd hel).2; omega)]
          exact (hnnd hel).1)
        (by
          intro i hi
          refine ⟨ys[i], ?_⟩
          show h2.mem ((w.vec d).elements + i) = Cell.obj ys[i]
          rw [hold _ (hd.below_brk i hi)]
          exact hobjd i ys[i] (List.getElem?_eq_getElem hi))
    have hvec3s : w3.vec = w.vec := hvec3
    -- the block of `d` ends below the new block
    have hdend : (w.vec d).elements + td ≤ w.heap.brk := by
      by_cases hel : (w.vec d).elements = 0
      · rcases hd with ⟨_, _, _, _, h5⟩ | ⟨h1, _⟩
        · omega
        · exact absurd hel h1
      · have hlt := (hnnd hel).2; omega
    have hframe3b : ∀ a, (a < (w.vec d).elements ∨ (w.vec d).elements + td ≤ a) →
        w3.heap.mem a = h2.mem a := hframe3
    refine ⟨{ w3 with vec := (setVec w3.vec d
        ⟨w.heap.brk, w.heap.brk + xs.length, w.heap.brk + xs.length⟩) }, ?_, ?_, ?_, ?_, ?_, ?_⟩
    · simp only [copy_assign, hatc, hfree]
    · rw [hs.contents_obj]
      apply contents_eq _ d xs
      · show size (setVec w3.vec d _ d) = xs.length
        simp only [setVec, if_true]
        exact hsizenew
      · intro i x hx
        show w3.heap.mem ((setVec w3.vec d _ d).elements + i) = Cell.obj x
        simp only [setVec, if_true]
        rw [hframe3b _ (Or.inr (by omega))]
        exact hdst i x hx
    · show size (setVec w3.vec d _ d) = size (w.vec s)
      simp only [setVec, if_true]
      rw [hsizenew, hs.size_eq]
    · apply contents_congr w _ s s
      · show setVec w3.vec d _ s = w.vec s
        simp only [setVec]
        rw [if_neg (fun h => hds h.symm), hvec3s]
      · intro i hi
        rw [hs.size_eq] at hi
        show w3.heap.mem ((w.vec s).elements + i) = w.heap.mem ((w.vec s).elements + i)
        have hbl := hs.below_brk i hi
        have hout : (w.vec s).elements + i < (w.vec d).elements ∨
            (w.vec d).elements + td ≤ (w.vec s).elements + i := by
          have hels : (w.vec s).elements ≠ 0 := by
            intro h0
            rcases hs with ⟨_, _, _, h4, _⟩ | ⟨h1, _⟩
            · subst h4; simp at hi
            · exact h1 h0
          rcases hsep hds with h1 | h1 | h1 | h1
          · rcases hd with ⟨_, _, _, _, h5⟩ | ⟨h6, _⟩
            · right; omega
            · exact absurd h1 h6
          · exact absurd h1 hels
          · right; omega
          · left; omega
        rw [hframe3b _ hout, hold _ hbl]
    · show size (setVec w3.vec d _ s) = size (w.vec s)
      simp only [setVec]
      rw [if_neg (fun h => hds h.symm), hvec3s]
    · intro _
      show setVec w3.vec d _ s = w.vec s
      simp only [setVec]
      rw [if_neg (fun h => hds h.symm), hvec3s]

theorem copy_assign_throws {T : Type} (ops : ElemOps T) (w : World T) (d s : Nat)
    (ys xs : List T) (td ts k : Nat) (hd : Holds w d ys td) (hs : Holds w s xs ts)
    (hk : k < xs.length) (hav : xs.length ≤ w.heap.avail)
    (hcopied : ∀ i y, i < k → xs[i]? = some y → ∃ z, ops.copy y = some z)
    (hthrow : ∀ y, xs[k]? = some y → ops.copy y = none) :
    ∃ w1, copy_assign ops w d s = Outcome.threw w1 ∧ w1.vec = w.vec ∧
      size (w1.vec d) = size (w.vec d) ∧ contents w1 d = contents w d ∧
      contents w1 s = contents w s := by
  obtain ⟨h2, hatc, hold⟩ := alloc_then_copy_throws ops w s xs ts k hs hk hav hcopied hthrow
  refine ⟨{ w with heap := h2 }, by simp only [copy_assign, hatc], rfl, rfl, ?_, ?_⟩
  · refine contents_congr w { w with heap := h2 } d d rfl ?_
    intro i hi
    rw [hd.size_eq] at hi
    exact hold _ (hd.below_brk i hi)
  · refine contents_congr w { w with heap := h2 } s s rfl ?_
    intro i hi
    rw [hs.size_eq] at hi
    exact hold _ (hs.below_brk i hi)

end SmallVec

namespace SmallVec

theorem tightWorld_holds_zero : Holds tightWorld 0 [5, 7] 3 := twoVectors_holds_zero

theorem tightWorld_holds_one : Holds tightWorld 1 [9] 1 := twoVectors_holds_one

/-- C11: for well-formed buffers `D` and `S` (the same object, or two objects whose blocks
lie apart) and a copy constructor of `T` that yields an equal value whenever it returns:
(1) after every copy assignment `D = S` that returns normally, `D`'s live elements are
`S`'s in order, `D.size() == S.size()`, and the elements, size and (for a distinct `S`) the
cursors of `S` are as before; (2) the assignment does return normally when the block can be
allocated and every element copy returns; (3) if the allocation fails, the exception
leaves with the whole state unchanged; (4) if the copy of the element at index `k` fails
(those before it returning), the exception leaves before `free()` has run, with every
cursor unchanged and the size and the elements of `D` (and of `S`) exactly as before the
call. -/
theorem C11_copy_assignment {T : Type} (ops : ElemOps T) (w : World T) (d s : Nat)
    (ys xs : List T) (td ts : Nat) (hd : Holds w d ys td) (hs : Holds w s xs ts)
    (hsep : d ≠ s → Separate w d s)
    (hfaith : ∀ x y, x ∈ xs → ops.copy x = some y → y = x) :
    (∀ w1, copy_assign ops w d s = Outcome.ok () w1 →
      contents w1 d = contents w s ∧ size (w1.vec d) = size (w.vec s) ∧
      contents w1 s = contents w s ∧ size (w1.vec s) = size (w.vec s) ∧
      (d ≠ s → w1.vec s = w.vec s)) ∧
    ((∀ x, x ∈ xs → ops.copy x ≠ none) → xs.length ≤ w.heap.avail →
      ∃ w1, copy_assign ops w d s = Outcome.ok () w1) ∧
    (allocate w.heap (size (w.vec s)) = none → copy_assign ops w d s = Outcome.threw w) ∧
    (∀ k, k < xs.length → xs.length ≤ w.heap.avail →
      (∀ i y, i < k → xs[i]? = some y → ∃ z, ops.copy y = some z) →
      (∀ y, xs[k]? = some y → ops.copy y = none) →
      ∃ w1, copy_assign ops w d s = Outcome.threw w1 ∧ w1.vec = w.vec ∧
        size (w1.vec d) = size (w.vec d) ∧ contents w1 d = contents w d ∧
        contents w1 s = contents w s) := by
  have hok : (∀ x, x ∈ xs → ops.copy x ≠ none) → xs.length ≤ w.heap.avail →
      ∃ w1, copy_assign ops w d s = Outcome.ok () w1 ∧
        contents w1 d = contents w s ∧ size (w1.vec d) = size (w.vec s) ∧
        contents w1 s = contents w s ∧ size (w1.vec s) = size (w.vec s) ∧
        (d ≠ s → w1.vec s = w.vec s) := by
    intro hall hav
    apply copy_assign_ok ops w d s ys xs td ts hd hs hsep _ hav
    intro x hx
    cases hc : ops.copy x with
    | none => exact absurd hc (hall x hx)
    | some y => rw [hfaith x y hx hc]
  have hnoalloc : allocate w.heap (size (w.vec s)) = none →
      copy_assign ops w d s = Outcome.threw w := by
    intro hfail
    have hfail2 : allocate w.heap
        (to_size_t (((w.vec s).first_free : Int) - ((w.vec s).elements : Int))) = none := hfail
    simp only [copy_assign, alloc_then_copy, hfail2]
  have hthrows := copy_assign_throws ops w d s ys xs td ts
  refine ⟨?_, ?_, hnoalloc, fun k hk hav hcopied hthrow => hthrows k hd hs hk hav hcopied hthrow⟩
  · intro w1 hrun
    have hav : xs.length ≤ w.heap.avail := by
      rcases Nat.lt_or_ge w.heap.avail xs.length with hlt | hge
      · have hfail : allocate w.heap (size (w.vec s)) = none := by
          rw [hs.size_eq]
          unfold allocate
          rw [if_neg (by omega)]
        rw [hnoalloc hfail] at hrun
        cases hrun
      · exact hge
    have hall : ∀ x, x ∈ xs → ops.copy x ≠ none := by
      intro x hx hc
      obtain ⟨k, hk, hthrow, hcopied⟩ := first_failure ops xs ⟨x, hx, hc⟩
      obtain ⟨w2, hrun2, _⟩ := hthrows k hd hs hk hav hcopied hthrow
      rw [hrun2] at hrun
      cases hrun
    obtain ⟨w2, hrun2, hp⟩ := hok hall hav
    rw [hrun2] at hrun
    have he : w2 = w1 := by
      simp only [Outcome.ok.injEq, true_and] at hrun
      exact hrun
    rw [← he]
    exact hp
  · intro hall hav
    obtain ⟨w1, hrun, _⟩ := hok hall hav
    exact ⟨w1, hrun⟩

/-- Assigning the buffer `[5, 7]` (object 0) of `twoVectors` to the buffer `[9]`
(object 1): with `int`-like copies the assignment returns and object 1 holds
`[5, 7]`; with a copy constructor that throws on 7 the exception leaves with object 1
as before; and with a single slot left to allocate the exception leaves with the state
unchanged. -/
theorem C11_copy_assignment_witness :
    Holds twoVectors 1 [9] 1 ∧ Holds twoVectors 0 [5, 7] 3 ∧
    (∃ w1, copy_assign (trivialOps Int) twoVectors 1 0 = Outcome.ok () w1 ∧
      contents w1 1 = contents twoVectors 0 ∧ size (w1.vec 1) = size (twoVectors.vec 0) ∧
      contents w1 0 = contents twoVectors 0 ∧ size (w1.vec 0) = size (twoVectors.vec 0) ∧
      ((1 : Nat) ≠ 0 → w1.vec 0 = twoVectors.vec 0)) ∧
    (∃ w1, copy_assign pickyOps twoVectors 1 0 = Outcome.threw w1 ∧
      w1.vec = twoVectors.vec ∧ size (w1.vec 1) = size (twoVectors.vec 1) ∧
      contents w1 1 = contents twoVectors 1 ∧ contents w1 0 = contents twoVectors 0) ∧
    copy_assign (trivialOps Int) tightWorld 1 0 = Outcome.threw tightWorld := by
  have hsep : (1 : Nat) ≠ 0 → Separate twoVectors 1 0 :=
    fun _ => Or.inr (Or.inr (Or.inr (by decide)))
  have hplain := C11_copy_assignment (trivialOps Int) twoVectors 1 0 [9] [5, 7] 1 3
    twoVectors_holds_one twoVectors_holds_zero hsep
    (fun x y _ h => (Option.some.inj h).symm)
  have hpicky := C11_copy_assignment pickyOps twoVectors 1 0 [9] [5, 7] 1 3
    twoVectors_holds_one twoVectors_holds_zero hsep
    (by
      intro x y _ h
      simp only [pickyOps] at h
      split at h
      · cases h
      · exact (Option.some.inj h).symm)
  have htight := C11_copy_assignment (trivialOps Int) tightWorld 1 0 [9] [5, 7] 1 3
    tightWorld_holds_one tightWorld_holds_zero
    (fun _ => Or.inr (Or.inr (Or.inr (by decide))))
    (fun x y _ h => (Option.some.inj h).symm)
  refine ⟨twoVectors_holds_one, twoVectors_holds_zero, ?_, ?_, htight.2.2.1 (by rfl)⟩
  · obtain ⟨w1, hrun⟩ := hplain.2.1 (fun x _ h => by cases h) (by decide)
    exact ⟨w1, hrun, hplain.1 w1 hrun⟩
  · refine hpicky.2.2.2 1 (by decide) (by decide) ?_ ?_
    · intro i y hi hy
      have h0 : i = 0 := by omega
      subst h0
      simp at hy
      subst hy
      exact ⟨5, rfl⟩
    · intro y hy
      simp at hy
      subst hy
      rfl

end SmallVec

namespace SmallVec

/-! ## Teardown -/

theorem destroy_down_traced_fst {T : Type} (el : Nat) :
    ∀ (n : Nat) (h : Heap T),
      (destroy_down_traced h el n).map Prod.fst = destroy_down h el n := by
  intro n
  induction n with
  | zero => intro h; rfl
  | succ n ih =>
    intro h
    simp only [destroy_down_traced, destroy_down]
    cases hd : destroy h (el + n) with
    | none => rfl
    | some h1 =>
      simp only
      rw [← ih h1]
      cases destroy_down_traced h1 el n with
      | none => rfl
      | some p => rfl

theorem free_traced_fst {T : Type} (w : World T) (self : Nat) :
    (free_traced w self).map Prod.fst = free w self := by
  unfold free_traced free
  simp only
  split
  · split
    · rfl
    · rw [← destroy_down_traced_fst]
      cases destroy_down_traced w.heap (w.vec self).elements
          ((w.vec self).first_free - (w.vec self).elements) with
      | none => rfl
      | some p =>
        simp only [Option.map_some']
        cases deallocate p.1 (w.vec self).elements (total_slots (w.vec self)) with
        | none => rfl
        | some h2 => rfl
  · rfl

theorem destroy_down_traced_ok {T : Type} (el : Nat) :
    ∀ (n : Nat) (h : Heap T), (∀ i, i < n → ∃ r, h.mem (el + i) = Cell.obj r) →
      ∃ h1, destroy_down_traced h el n =
        some (h1, (List.range n).reverse.map (fun i => AllocCall.destroy (el + i))) := by
  intro n
  induction n with
  | zero =>
    intro h _
    exact ⟨h, rfl⟩
  | succ n ih =>
    intro h hobj
    obtain ⟨r, hr⟩ := hobj n (by omega)
    obtain ⟨h1, hrun⟩ := ih (store h (el + n) Cell.raw) (by
      intro i hi
      obtain ⟨r1, hr1⟩ := hobj i (by omega)
      refine ⟨r1, ?_⟩
      simp only [store]
      rw [if_neg (by omega)]
      exact hr1)
    refine ⟨h1, ?_⟩
    simp only [destroy_down_traced, destroy, hr, hrun, List.range_succ, List.reverse_append,
      List.reverse_cons, List.reverse_nil, List.nil_append, List.singleton_append,
      List.map_cons]

/-- C12: for a well-formed buffer with `count` live elements that holds an allocation,
`free()` (and the destructor, which only calls it) returns after making exactly these
allocator calls, in this order: `destroy` on the slots of the live elements from index
`count - 1` down to index 0, each holding a live element, then one `deallocate` of the
block with size `current_capacity - elements`, the size it was allocated with; for a
buffer whose `elements` is null, as after default or move construction, it makes no
call and leaves the state unchanged. -/
theorem C12_free_teardown {T : Type} (w : World T) (self : Nat) (xs : List T) (t : Nat)
    (hv : Holds w self xs t) :
    (free_traced w self).map Prod.fst = free w self ∧ destruct w self = free w self ∧
    ((w.vec self).elements ≠ 0 →
      (∃ w1, free_traced w self = some (w1,
          (List.range xs.length).reverse.map
              (fun i => AllocCall.destroy ((w.vec self).elements + i)) ++
            [AllocCall.deallocate (w.vec self).elements
              (to_size_t (((w.vec self).current_capacity : Int) - (w.vec self).elements))])) ∧
      size (w.vec self) = xs.length ∧
      (∀ i x, xs[i]? = some x → w.heap.mem ((w.vec self).elements + i) = Cell.obj x) ∧
      w.heap.table (w.vec self).elements
        = some (to_size_t (((w.vec self).current_capacity : Int) - (w.vec self).elements))) ∧
    ((w.vec self).elements = 0 → free_traced w self = some (w, [])) ∧
    free_traced (default_construct w self) self = some (default_construct w self, []) ∧
    (∀ b, free_traced (move_construct w b self) self = some (move_construct w b self, [])) := by
  obtain ⟨hff, hcc, hct, htm, hnn, hobj, _⟩ := hv.shape
  refine ⟨free_traced_fst w self, rfl, ?_, ?_, ?_, ?_⟩
  · intro hel
    have htot : total_slots (w.vec self) = t := hv.total_eq
    have htot2 : to_size_t (((w.vec self).current_capacity : Int) - (w.vec self).elements)
        = t := htot
    obtain ⟨h1, hrun⟩ := destroy_down_traced_ok (w.vec self).elements xs.length w.heap
      (fun i hi => ⟨xs[i], hobj i xs[i] (List.getElem?_eq_getElem hi)⟩)
    have hfst := destroy_down_traced_fst (w.vec self).elements xs.length w.heap
    rw [hrun] at hfst
    obtain ⟨h1b, hrunb, htab1, _, _, _⟩ := destroy_down_ok (w.vec self).elements xs.length
      w.heap (fun i hi => ⟨xs[i], hobj i xs[i] (List.getElem?_eq_getElem hi)⟩)
    rw [hrunb] at hfst
    have he : h1 = h1b := Option.some.inj hfst
    subst he
    have hsub : (w.vec self).first_free - (w.vec self).elements = xs.length := by omega
    have hnlt : ¬ (w.vec self).first_free < (w.vec self).elements := by omega
    have hdealloc : h1.table (w.vec self).elements = some t := by
      rw [htab1]; exact (hnn hel).1
    refine ⟨⟨{ w with heap :=
        { h1 with
          mem := fun a => if (w.vec self).elements ≤ a ∧ a < (w.vec self).elements + t
            then Cell.unmapped else h1.mem a
          table := fun b => if b = (w.vec self).elements then none else h1.table b
          avail := h1.avail + t } }, ?_⟩, hv.size_eq, hobj, ?_⟩
    · rw [htot2]
      simp only [free_traced, ne_eq, hel, not_false_eq_true, if_true, hnlt, if_false, hsub,
        hrun, htot, deallocate, hdealloc]
    · rw [htot2]; exact (hnn hel).1
  · intro hel
    simp [free_traced, hel]
  · simp [free_traced, default_construct, setVec]
  · intro b
    simp [free_traced, move_construct, setVec]

/-- Teardown of the buffer `[5, 7]` of `twoVectors` (3 slots at address 1): `free()`
destroys slot 2, then slot 1, then releases the block of 3 slots. -/
theorem C12_free_teardown_witness :
    Holds twoVectors 0 [5, 7] 3 ∧
    ∃ w1, free_traced twoVectors 0 = some (w1,
      [AllocCall.destroy 2, AllocCall.destroy 1, AllocCall.deallocate 1 3]) :=
  ⟨twoVectors_holds_zero,
    ((C12_free_teardown twoVectors 0 [5, 7] 3 twoVectors_holds_zero).2.2.1 (by decide)).1⟩

end SmallVec

namespace SmallVec

/-! ## What every call preserves

Results in this section are read off the outcome of a call: whatever the call returned or
threw, the heap it leaves is a later state of the heap it started from. -/

end SmallVec

namespace SmallVec

end SmallVec

namespace SmallVec

/-! ## The invariant of the reachable states -/

end SmallVec

namespace SmallVec

end SmallVec

namespace SmallVec

/-! ## Failure of a `push_back` that grows -/

end SmallVec

namespace SmallVec

/-! ## The capacity a growth step leaves -/

end SmallVec
namespace StdVector

/-! ## Exchange of two vector elements -/

theorem swap_at_some {T : Type} (v : List T) (i j : Nat) (hi : i < v.length)
    (hj : j < v.length) :
    swap_at v i j = some ((v.set i v[j]).set j v[i]) := by
  simp [swap_at, List.getElem?_eq_getElem hi, List.getElem?_eq_getElem hj]

theorem swap_at_spec {T : Type} [DecidableEq T] (v v1 : List T) (i j : Nat)
    (h : swap_at v i j = some v1) :
    v1.length = v.length ∧ HeapOrder.Swapped v v1 i j ∧ v1.Perm v := by
  unfold swap_at at h
  cases hi : v[i]? with
  | none => simp [hi] at h
  | some a =>
    cases hj : v[j]? with
    | none => simp [hi, hj] at h
    | some b =>
      simp only [hi, hj, Option.some.injEq] at h
      subst h
      have hil : i < v.length := by
        rcases Nat.lt_or_ge i v.length with hl | hl
        · exact hl
        · rw [List.getElem?_eq_none hl] at hi; cases hi
      have hjl : j < v.length := by
        rcases Nat.lt_or_ge j v.length with hl | hl
        · exact hl
        · rw [List.getElem?_eq_none hl] at hj; cases hj
      have hia : v[i] = a := by
        rw [List.getElem?_eq_getElem hil] at hi; exact Option.some.inj hi
      have hjb : v[j] = b := by
        rw [List.getElem?_eq_getElem hjl] at hj; exact Option.some.inj hj
      have hlen2 : (v.set i b).length = v.length := List.length_set ..
      refine ⟨by simp, ?_, ?_⟩
      · intro x
        rw [List.getElem?_set, List.getElem?_set, hlen2]
        by_cases hxj : x = j
        · subst hxj
          rw [if_pos rfl, if_pos hjl]
          by_cases hxi : x = i
          · subst hxi
            rw [if_pos rfl, hj, ← hia, ← hjb]
          · rw [if_neg hxi, if_pos rfl, hi]
        · rw [if_neg (fun h => hxj h.symm)]
          by_cases hxi : x = i
          · subst hxi
            rw [if_pos rfl, if_pos hil, if_pos rfl, hj]
          · rw [if_neg (fun h => hxi h.symm), if_neg hxi, if_neg hxj]
      · rw [List.perm_iff_count]
        intro c
        have hjl2 : j < (v.set i b).length := by rw [hlen2]; exact hjl
        have hget : (v.set i b)[j] = b := by
          rw [List.getElem_set]
          split
          · rfl
          · exact hjb
        rw [List.count_set a c (v.set i b) j hjl2, List.count_set b c v i hil, hget, hia]
        have hle : (if (a == c) = true then 1 else 0) ≤ List.count c v := by
          by_cases hac : a = c
          · subst hac
            have hmem : a ∈ v := by rw [← hia]; exact List.getElem_mem hil
            have hpos := List.count_pos_iff.mpr hmem
            simp only [beq_self_eq_true, if_true]
            omega
          · have hne : (a == c) = false := by simpa using hac
            simp [hne]
        generalize (if (a == c) = true then 1 else 0) = A at hle ⊢
        generalize (if (b == c) = true then 1 else 0) = B
        omega

end StdVector

namespace HeapOrder

/-! ## Sift-down and sift-up steps preserve the heap order -/

theorem siftDown_init {T : Type} (r : T → T → Prop) (l : List T) (n k : Nat)
    (h : HeapFrom r l n (k + 1)) : SiftDown r l n k k := by
  constructor
  · intro c hc0 hcn hk hne
    exact h c hc0 hcn (by omega)
  · intro c hc0 hcn hp hk0 hkp
    omega

theorem siftDown_done {T : Type} (r : T → T → Prop) (l : List T) (n k j : Nat)
    (hsd : SiftDown r l n k j)
    (hch : ∀ c, 0 < c → c < n → (c - 1) / 2 = j → Dom r l j c) : HeapFrom r l n k := by
  intro c hc0 hcn hk
  by_cases hp : (c - 1) / 2 = j
  · rw [hp]; exact hch c hc0 hcn hp
  · exact hsd.1 c hc0 hcn hk hp

theorem siftDown_step {T : Type} (r : T → T → Prop) (l l1 : List T) (n k j c : Nat) (a b : T)
    (hsd : SiftDown r l n k j) (hkj : k ≤ j) (hc0 : 0 < c) (hcn : c < n)
    (hcp : (c - 1) / 2 = j) (hj : l[j]? = some a) (hcv : l[c]? = some b) (hba : r b a)
    (hsib : ∀ d, 0 < d → d < n → (d - 1) / 2 = j → d ≠ c → Dom r l c d)
    (hsw : Swapped l l1 j c) : SiftDown r l1 n k c := by
  have hjc : j ≠ c := by omega
  have hl1j : l1[j]? = some b := by rw [hsw j, if_pos rfl, hcv]
  have hl1c : l1[c]? = some a := by rw [hsw c, if_neg (Ne.symm hjc), if_pos rfl, hj]
  have hother : ∀ x, x ≠ j → x ≠ c → l1[x]? = l[x]? := by
    intro x h1 h2
    rw [hsw x, if_neg h1, if_neg h2]
  constructor
  · intro d hd0 hdn hk hne
    intro u w hu hw
    by_cases hpj : (d - 1) / 2 = j
    · rw [hpj, hl1j] at hu
      have hub : b = u := Option.some.inj hu
      subst hub
      by_cases hdc : d = c
      · rw [hdc, hl1c] at hw
        have haw : a = w := Option.some.inj hw
        subst haw
        exact hba
      · rw [hother d (by omega) hdc] at hw
        exact hsib d hd0 hdn hpj hdc b w hcv hw
    · rw [hother _ hpj hne] at hu
      have hdc : d ≠ c := by
        intro h; rw [h] at hpj; exact hpj hcp
      by_cases hdj : d = j
      · rw [hdj, hl1j] at hw
        have hbw : b = w := Option.some.inj hw
        subst hbw
        rw [hdj] at hu hk
        exact hsd.2 c hc0 hcn hcp (by omega) hk u b hu hcv
      · rw [hother d hdj hdc] at hw
        exact hsd.1 d hd0 hdn hk hpj u w hu hw
  · intro d hd0 hdn hp _ hk
    intro u w hu hw
    rw [hcp, hl1j] at hu
    have hub : b = u := Option.some.inj hu
    subst hub
    rw [hother d (by omega) (by omega)] at hw
    exact hsd.1 d hd0 hdn (by omega) (by omega) b w (by rw [hp]; exact hcv) hw

theorem siftUp_init {T : Type} (r : T → T → Prop) (l : List T) (n : Nat)
    (h : HeapFrom r l n 0) : SiftUp r l (n + 1) n := by
  constructor
  · intro c hc0 hcn hne
    exact h c hc0 (by omega) (Nat.zero_le _)
  · intro c hc0 hcn hp _
    omega

theorem siftUp_done {T : Type} (r : T → T → Prop) (l : List T) (n j : Nat)
    (hsu : SiftUp r l n j) (hj : j = 0 ∨ Dom r l ((j - 1) / 2) j) : HeapFrom r l n 0 := by
  intro c hc0 hcn _
  by_cases hcj : c = j
  · rcases hj with hj | hj
    · omega
    · rw [hcj]; exact hj
  · exact hsu.1 c hc0 hcn hcj

theorem siftUp_step {T : Type} (r : T → T → Prop) (htr : ∀ x y z, r x y → r y z → r x z)
    (l l1 : List T) (n j : Nat) (a b : T)
    (hsu : SiftUp r l n j) (hj0 : 0 < j) (hjn : j < n)
    (hp : l[(j - 1) / 2]? = some a) (hjv : l[j]? = some b) (hba : r b a)
    (hsw : Swapped l l1 ((j - 1) / 2) j) : SiftUp r l1 n ((j - 1) / 2) := by
  have hpj : (j - 1) / 2 ≠ j := by omega
  have hl1p : l1[(j - 1) / 2]? = some b := by rw [hsw _, if_pos rfl, hjv]
  have hl1j : l1[j]? = some a := by rw [hsw j, if_neg (Ne.symm hpj), if_pos rfl, hp]
  have hother : ∀ x, x ≠ (j - 1) / 2 → x ≠ j → l1[x]? = l[x]? := by
    intro x h1 h2
    rw [hsw x, if_neg h1, if_neg h2]
  constructor
  · intro c hc0 hcn hne
    intro u w hu hw
    by_cases hcj : c = j
    · rw [hcj, hl1p] at hu
      rw [hcj, hl1j] at hw
      have h1 : b = u := Option.some.inj hu
      have h2 : a = w := Option.some.inj hw
      subst h1; subst h2
      exact hba
    · rw [hother c hne hcj] at hw
      by_cases hq : (c - 1) / 2 = (j - 1) / 2
      · rw [hq, hl1p] at hu
        have h1 : b = u := Option.some.inj hu
        subst h1
        have haw : r a w := hsu.1 c hc0 hcn hcj a w (by rw [hq]; exact hp) hw
        exact htr _ _ _ hba haw
      · by_cases hqj : (c - 1) / 2 = j
        · rw [hqj, hl1j] at hu
          have h1 : a = u := Option.some.inj hu
          subst h1
          exact hsu.2 c hc0 hcn hqj hj0 a w hp hw
        · rw [hother _ hq hqj] at hu
          exact hsu.1 c hc0 hcn hcj u w hu hw
  · intro c hc0 hcn hcp hp0
    intro u w hu hw
    rw [hother _ (by omega) (by omega)] at hu
    have hua : r u a := hsu.1 ((j - 1) / 2) hp0 (by omega) hpj u a hu hp
    by_cases hcj : c = j
    · rw [hcj, hl1j] at hw
      have h2 : a = w := Option.some.inj hw
      subst h2
      exact hua
    · rw [hother c (by omega) hcj] at hw
      have haw : r a w := hsu.1 c hc0 hcn hcj a w (by rw [hcp]; exact hp) hw
      exact htr _ _ _ hua haw

theorem root_dominates {T : Type} (r : T → T → Prop) (hrefl : ∀ x, r x x)
    (htr : ∀ x y z, r x y → r y z → r x z) (l : List T) (n : Nat) (hn : n ≤ l.length)
    (h : HeapFrom r l n 0) : ∀ i, i < n → Dom r l 0 i := by
  intro i
  induction i using Nat.strong_induction_on with
  | _ i ih =>
    intro hi a b ha hb
    by_cases h0 : i = 0
    · subst h0
      rw [ha] at hb
      have hab : a = b := Option.some.inj hb
      subst hab
      exact hrefl a
    · have hp : (i - 1) / 2 < i := by omega
      have hpl : (i - 1) / 2 < l.length := by omega
      have h1 := ih ((i - 1) / 2) hp (by omega) a l[(i - 1) / 2] ha
        (List.getElem?_eq_getElem hpl)
      have h2 := h i (by omega) hi (Nat.zero_le _) l[(i - 1) / 2] b
        (List.getElem?_eq_getElem hpl) hb
      exact htr _ _ _ h1 h2

theorem Swapped.symm {T : Type} {l l1 : List T} {i j : Nat} (h : Swapped l l1 i j) :
    Swapped l l1 j i := by
  intro x
  rw [h x]
  by_cases hi : x = i
  · by_cases hj : x = j
    · rw [if_pos hi, if_pos hj, ← hi, ← hj]
    · rw [if_pos hi, if_neg hj, if_pos hi]
  · by_cases hj : x = j
    · rw [if_neg hi, if_pos hj, if_pos hj]
    · rw [if_neg hi, if_neg hj, if_neg hj, if_neg hi]

end HeapOrder

namespace MinHeap

/-! ## Empty-heap errors -/

/-- C14: `top()` and `extract_min()` raise `std::length_error` exactly when `items` is
empty, and then leave the heap (items and size) unchanged; on a non-empty heap `top()`
returns `items[0]` and leaves the heap unchanged. -/
theorem C14_empty_heap_errors {T : Type} [LinearOrder T] (h : Heap T) :
    (h.items = [] → top h = Result.length_error h ∧ extract_min h = Result.length_error h) ∧
    (∀ s, top h = Result.length_error s → h.items = [] ∧ s = h) ∧
    (∀ s, extract_min h = Result.length_error s → h.items = [] ∧ s = h) ∧
    (h.items ≠ [] → ∃ a, h.items[0]? = some a ∧ top h = Result.ok a h) := by
  refine ⟨?_, ?_, ?_, ?_⟩
  · intro he
    simp [top, extract_min, check_in_range, he]
  · intro s hs
    cases hi : h.items with
    | nil =>
      simp [top, check_in_range, hi] at hs
      exact ⟨rfl, hs.symm⟩
    | cons x xs =>
      simp [top, check_in_range, hi, item] at hs
  · intro s hs
    cases hi : h.items with
    | nil =>
      simp [extract_min, check_in_range, hi] at hs
      exact ⟨rfl, hs.symm⟩
    | cons x xs =>
      simp only [extract_min, check_in_range, hi, List.isEmpty_cons] at hs
      revert hs
      simp only [Bool.false_eq_true, if_false]
      repeat' split
      all_goals intro hs; cases hs
  · intro hne
    cases hi : h.items with
    | nil => exact absurd hi hne
    | cons x xs =>
      refine ⟨x, by simp, ?_⟩
      simp [top, check_in_range, hi, item]

end MinHeap

namespace MinHeap

/-! ## `int` index arithmetic on non-negative indices -/

theorem int_some (x : Int) (h1 : INT_MIN ≤ x) (h2 : x ≤ INT_MAX) : int x = some x := by
  simp [int, h1, h2]

theorem int_eq_some {x y : Int} (h : int x = some y) : y = x ∧ INT_MIN ≤ x ∧ x ≤ INT_MAX := by
  unfold int at h
  split at h
  · next hc => exact ⟨(Option.some.inj h).symm, hc.1, hc.2⟩
  · cases h

theorem get_parent_index_nat (j : Nat) (hj : (j : Int) ≤ INT_MAX) :
    get_parent_index (j : Int) = some (((j - 1) / 2 : Nat) : Int) := by
  have h1 : int ((j : Int) - 1) = some ((j : Int) - 1) :=
    int_some _ (by simp only [INT_MIN]; omega) (by simp only [INT_MAX] at *; omega)
  simp only [get_parent_index, h1]
  congr 1
  by_cases h0 : j = 0
  · subst h0; decide
  · rw [Int.tdiv_eq_ediv (by omega) (by omega)]
    omega

theorem get_left_child_nat (j : Nat) (hj : (2 * j + 1 : Nat) ≤ INT_MAX) :
    get_left_child (j : Int) = some ((2 * j + 1 : Nat) : Int) := by
  simp only [INT_MAX] at hj
  have h1 : int (2 * (j : Int)) = some (2 * (j : Int)) :=
    int_some _ (by simp only [INT_MIN]; omega) (by simp only [INT_MAX]; omega)
  have h2 : int (2 * (j : Int) + 1) = some (2 * (j : Int) + 1) :=
    int_some _ (by simp only [INT_MIN]; omega) (by simp only [INT_MAX]; omega)
  simp only [get_left_child, h1, h2]
  congr 1

theorem get_right_child_nat (j : Nat) (hj : (2 * j + 2 : Nat) ≤ INT_MAX) :
    get_right_child (j : Int) = some ((2 * j + 2 : Nat) : Int) := by
  simp only [INT_MAX] at hj
  have h1 : int (2 * (j : Int)) = some (2 * (j : Int)) :=
    int_some _ (by simp only [INT_MIN]; omega) (by simp only [INT_MAX]; omega)
  have h2 : int (2 * (j : Int) + 2) = some (2 * (j : Int) + 2) :=
    int_some _ (by simp only [INT_MIN]; omega) (by simp only [INT_MAX]; omega)
  simp only [get_right_child, h1, h2]
  congr 1

theorem get_left_child_overflow (j : Nat) (hj : INT_MAX < (2 * j + 1 : Nat)) :
    get_left_child (j : Int) = none := by
  simp only [INT_MAX] at hj
  simp only [get_left_child]
  cases h : int (2 * (j : Int)) with
  | none => rfl
  | some d =>
    obtain ⟨hd, _, _⟩ := int_eq_some h
    subst hd
    simp only [int, INT_MAX, INT_MIN]
    rw [if_neg (by omega)]

theorem item_nat {T : Type} (items : List T) (j : Nat) : item items (j : Int) = items[j]? := by
  simp [item]

theorem swap_items_nat {T : Type} (items : List T) (i j : Nat) :
    swap_items items (i : Int) (j : Int) = StdVector.swap_at items i j := by
  simp [swap_items]

/-! ## `heapify_up` -/

theorem heapify_up_loop_spec {T : Type} [LinearOrder T] :
    ∀ (fuel : Nat) (items : List T) (j : Nat),
      HeapOrder.SiftUp (fun a b : T => a ≤ b) items items.length j →
      j < items.length → (j : Int) ≤ INT_MAX → j < fuel →
      ∃ items1, heapify_up_loop fuel items (j : Int) = some items1 ∧
        items1.Perm items ∧
        HeapOrder.HeapFrom (fun a b : T => a ≤ b) items1 items1.length 0 := by
  intro fuel
  induction fuel with
  | zero => intro items j _ _ _ hf; omega
  | succ fuel ih =>
    intro items j hsu hjn hjmax hf
    have hpl : (j - 1) / 2 < items.length := by omega
    have hpar := get_parent_index_nat j hjmax
    have hhas : has_parent (j : Int) = some true := by
      have hnn : (((j - 1) / 2 : Nat) : Int) ≥ 0 := Int.ofNat_nonneg _
      simp only [has_parent, hpar, hnn, decide_True]
    have hip : item items (((j - 1) / 2 : Nat) : Int) = some items[(j - 1) / 2] := by
      rw [item_nat]; exact List.getElem?_eq_getElem hpl
    have hij : item items (j : Int) = some items[j] := by
      rw [item_nat]; exact List.getElem?_eq_getElem hjn
    by_cases hgt : items[(j - 1) / 2] > items[j]
    · -- swap with the parent and continue there
      have hj0 : 0 < j := by
        rcases Nat.eq_zero_or_pos j with h0 | h0
        · subst h0
          exact absurd hgt (lt_irrefl _)
        · exact h0
      obtain ⟨hlen, hsw, hperm⟩ := StdVector.swap_at_spec items _ ((j - 1) / 2) j
        (StdVector.swap_at_some items ((j - 1) / 2) j hpl hjn)
      have hsu1 := HeapOrder.siftUp_step (fun a b : T => a ≤ b)
        (fun x y z hxy hyz => le_trans hxy hyz) items _ items.length j
        items[(j - 1) / 2] items[j] hsu hj0 hjn (List.getElem?_eq_getElem hpl)
        (List.getElem?_eq_getElem hjn) (le_of_lt hgt) hsw
      rw [← hlen] at hsu1
      obtain ⟨items2, hrun, hperm2, hheap⟩ := ih _ ((j - 1) / 2) hsu1
        (by rw [hlen]; exact hpl) (by simp only [INT_MAX] at *; omega) (by omega)
      refine ⟨items2, ?_, hperm2.trans hperm, hheap⟩
      simp only [heapify_up_loop, hhas, hpar, hip, hij, hgt, if_true, swap_items_nat,
        StdVector.swap_at_some items ((j - 1) / 2) j hpl hjn]
      exact hrun
    · refine ⟨items, ?_, List.Perm.refl _, ?_⟩
      · simp only [heapify_up_loop, hhas, hpar, hip, hij, hgt, if_false]
      · apply HeapOrder.siftUp_done _ items items.length j hsu
        right
        intro a b ha hb
        rw [List.getElem?_eq_getElem hpl] at ha
        rw [List.getElem?_eq_getElem hjn] at hb
        have h1 : items[(j - 1) / 2] = a := Option.some.inj ha
        have h2 : items[j] = b := Option.some.inj hb
        rw [← h1, ← h2]
        exact not_lt.mp hgt

end MinHeap

namespace MinHeap

/-! ## `heapify_down` -/

theorem heapify_down_exit {T : Type} [LinearOrder T] (n fuel : Nat) (items : List T) (j : Nat)
    (h1 : ((2 * j + 1 : Nat) : Int) ≤ INT_MAX) (h2 : ¬ 2 * j + 1 < n) :
    heapify_down_loop (n : Int) (fuel + 1) items (j : Int) = some items := by
  have hd : decide ((((2 * j + 1 : Nat) : Int)) < (n : Int)) = false := by
    simp only [decide_eq_false_iff_not]; omega
  simp only [heapify_down_loop, has_left_child, get_left_child_nat j h1, hd]

theorem heapify_down_overflow {T : Type} [LinearOrder T] (n fuel : Nat) (items : List T)
    (j : Nat) (h1 : INT_MAX < ((2 * j + 1 : Nat) : Int)) :
    heapify_down_loop (n : Int) (fuel + 1) items (j : Int) = none := by
  simp only [heapify_down_loop, has_left_child, get_left_child_overflow j h1]

theorem heapify_down_step {T : Type} [LinearOrder T] (n fuel : Nat) (items : List T) (j : Nat)
    (hn : (n : Int) ≤ INT_MAX) (hlen : items.length = n) (hl : 2 * j + 1 < n) :
    ∃ c vc vj, (c - 1) / 2 = j ∧ 0 < c ∧ c < n ∧ items[c]? = some vc ∧ items[j]? = some vj ∧
      (∀ d, 0 < d → d < n → (d - 1) / 2 = j → d ≠ c →
        HeapOrder.Dom (fun a b : T => a ≤ b) items c d) ∧
      heapify_down_loop (n : Int) (fuel + 1) items (j : Int) =
        (if vj < vc then some items
         else
           match StdVector.swap_at items c j with
           | none => none
           | some items1 => heapify_down_loop (n : Int) fuel items1 (c : Int)) := by
  have hn1 : (n : Int) ≤ 2147483647 := hn
  have hL : ((2 * j + 1 : Nat) : Int) ≤ INT_MAX := by
    show ((2 * j + 1 : Nat) : Int) ≤ 2147483647
    omega
  have hR : ((2 * j + 2 : Nat) : Int) ≤ INT_MAX := by
    show ((2 * j + 2 : Nat) : Int) ≤ 2147483647
    omega
  have hleft := get_left_child_nat j hL
  have hright := get_right_child_nat j hR
  have hdl : decide ((((2 * j + 1 : Nat) : Int)) < (n : Int)) = true := by
    simp only [decide_eq_true_eq]; omega
  have hjl : j < items.length := by omega
  have hll : 2 * j + 1 < items.length := by omega
  have hvj : items[j]? = some items[j] := List.getElem?_eq_getElem hjl
  have hvl : items[2 * j + 1]? = some items[2 * j + 1] := List.getElem?_eq_getElem hll
  by_cases hr : 2 * j + 2 < n
  · have hrl : 2 * j + 2 < items.length := by omega
    have hvr : items[2 * j + 2]? = some items[2 * j + 2] := List.getElem?_eq_getElem hrl
    have hdr : decide ((((2 * j + 2 : Nat) : Int)) < (n : Int)) = true := by
      simp only [decide_eq_true_eq]; omega
    by_cases hlt : items[2 * j + 2] < items[2 * j + 1]
    · refine ⟨2 * j + 2, items[2 * j + 2], items[j], by omega, by omega, hr, hvr, hvj, ?_, ?_⟩
      · intro d hd0 hdn hdp hdc a b ha hb
        have hd1 : d = 2 * j + 1 := by omega
        subst hd1
        rw [hvr] at ha
        rw [hvl] at hb
        rw [← Option.some.inj ha, ← Option.some.inj hb]
        exact le_of_lt hlt
      · simp only [heapify_down_loop, has_left_child, hleft, hdl, smaller_child,
          has_right_child, hright, hdr, item_nat, hvr, hvl, hvj, hlt, if_true, swap_items_nat]
    · refine ⟨2 * j + 1, items[2 * j + 1], items[j], by omega, by omega, hl, hvl, hvj, ?_, ?_⟩
      · intro d hd0 hdn hdp hdc a b ha hb
        have hd1 : d = 2 * j + 2 := by omega
        subst hd1
        rw [hvl] at ha
        rw [hvr] at hb
        rw [← Option.some.inj ha, ← Option.some.inj hb]
        exact not_lt.mp hlt
      · simp only [heapify_down_loop, has_left_child, hleft, hdl, smaller_child,
          has_right_child, hright, hdr, item_nat, hvr, hvl, hvj, hlt, if_false, swap_items_nat]
  · have hdr : decide ((((2 * j + 2 : Nat) : Int)) < (n : Int)) = false := by
      simp only [decide_eq_false_iff_not]; omega
    refine ⟨2 * j + 1, items[2 * j + 1], items[j], by omega, by omega, hl, hvl, hvj, ?_, ?_⟩
    · intro d hd0 hdn hdp hdc
      omega
    · simp only [heapify_down_loop, has_left_child, hleft, hdl, smaller_child,
        has_right_child, hright, hdr, item_nat, hvl, hvj, swap_items_nat]

theorem heapify_down_loop_spec {T : Type} [LinearOrder T] (n : Nat) (hn : (n : Int) ≤ INT_MAX) :
    ∀ (fuel : Nat) (items : List T) (j : Nat), items.length = n →
      HeapOrder.SiftDown (fun a b : T => a ≤ b) items n 0 j → (j < n ∨ j = 0) →
      (∀ items1, heapify_down_loop (n : Int) fuel items (j : Int) = some items1 →
        items1.Perm items ∧ HeapOrder.HeapFrom (fun a b : T => a ≤ b) items1 n 0) ∧
      (n ≤ 2 ^ 30 → n < fuel + j →
        ∃ items1, heapify_down_loop (n : Int) fuel items (j : Int) = some items1) := by
  intro fuel
  induction fuel with
  | zero =>
    intro items j _ _ hj
    constructor
    · intro items1 h; simp [heapify_down_loop] at h
    · intro _ hf; omega
  | succ fuel ih =>
    intro items j hlen hsd hj
    by_cases hov : INT_MAX < ((2 * j + 1 : Nat) : Int)
    · rw [heapify_down_overflow n fuel items j hov]
      constructor
      · intro items1 h; cases h
      · intro hb _
        have hov1 : (2147483647 : Int) < ((2 * j + 1 : Nat) : Int) := hov
        omega
    · have hL : ((2 * j + 1 : Nat) : Int) ≤ INT_MAX := not_lt.mp hov
      by_cases hl : 2 * j + 1 < n
      · obtain ⟨c, vc, vj, hcp, hc0, hcn, hvc, hvj, hsib, hstep⟩ :=
          heapify_down_step n fuel items j hn hlen hl
        rw [hstep]
        by_cases hlt : vj < vc
        · rw [if_pos hlt]
          constructor
          · intro items1 h
            have he : items = items1 := Option.some.inj h
            subst he
            refine ⟨List.Perm.refl _, ?_⟩
            apply HeapOrder.siftDown_done _ items n 0 j hsd
            intro d hd0 hdn hdp a b ha hb
            rw [hvj] at ha
            have haj : vj = a := Option.some.inj ha
            subst haj
            by_cases hdc : d = c
            · subst hdc
              rw [hvc] at hb
              rw [← Option.some.inj hb]
              exact le_of_lt hlt
            · have h1 := hsib d hd0 hdn hdp hdc vc b hvc hb
              exact le_trans (le_of_lt hlt) h1
          · intro _ _
            exact ⟨items, rfl⟩
        · rw [if_neg hlt]
          have hcl : c < items.length := by omega
          have hjl : j < items.length := by omega
          have hsome := StdVector.swap_at_some items c j hcl hjl
          obtain ⟨hlen1, hsw, hperm⟩ := StdVector.swap_at_spec items _ c j hsome
          rw [hsome]
          have hsd1 := HeapOrder.siftDown_step (fun a b : T => a ≤ b) items _ n 0 j c vj vc
            hsd (Nat.zero_le _) hc0 hcn hcp hvj hvc (not_lt.mp hlt) hsib hsw.symm
          obtain ⟨ihp, iht⟩ := ih _ c (by rw [hlen1]; exact hlen) hsd1 (Or.inl hcn)
          constructor
          · intro items1 h
            obtain ⟨hp1, hh1⟩ := ihp items1 h
            exact ⟨hp1.trans hperm, hh1⟩
          · intro hb hf
            exact iht hb (by omega)
      · rw [heapify_down_exit n fuel items j hL hl]
        constructor
        · intro items1 h
          have he : items = items1 := Option.some.inj h
          subst he
          refine ⟨List.Perm.refl _, ?_⟩
          apply HeapOrder.siftDown_done _ items n 0 j hsd
          intro d hd0 hdn hdp
          omega
        · intro _ _
          exact ⟨items, rfl⟩

end MinHeap

namespace MinHeap

/-! ## `add` and `extract_min` keep the class invariant -/

theorem minHeapOrder_iff {T : Type} [LinearOrder T] (items : List T) (n : Nat) :
    MinHeapOrder items n ↔ HeapOrder.HeapFrom (fun a b : T => a ≤ b) items n 0 := by
  constructor
  · intro h c hc0 hcn _ a b ha hb
    exact h c hc0 hcn a b ha hb
  · intro h i hi0 hin a b ha hb
    exact h i hi0 hin (Nat.zero_le _) a b ha hb

theorem add_spec {T : Type} [LinearOrder T] (h : Heap T) (elem : T) (hwf : Wf h) :
    (h.size < INT_MAX →
      ∃ h1, add h elem = some h1 ∧ h1.items.Perm (elem :: h.items) ∧
        h1.size = h.size + 1 ∧ Wf h1) ∧
    (∀ h1, add h elem = some h1 → h.size < INT_MAX) := by
  obtain ⟨hsz, hmax, hord⟩ := hwf
  have hmax1 : h.size ≤ 2147483647 := hmax
  constructor
  · intro hlt
    have hlt1 : h.size < 2147483647 := hlt
    have h1 : int (h.size + 1) = some (h.size + 1) :=
      int_some _ (by simp only [INT_MIN]; omega) (by simp only [INT_MAX]; omega)
    have h2 : int (h.size + 1 - 1) = some ((h.items.length : Nat) : Int) := by
      rw [int_some _ (by simp only [INT_MIN]; omega) (by simp only [INT_MAX]; omega)]
      congr 1; omega
    have hheap : HeapOrder.HeapFrom (fun a b : T => a ≤ b) (h.items ++ [elem])
        h.items.length 0 := by
      intro c hc0 hcn _ a b ha hb
      rw [List.getElem?_append_left (by omega)] at ha
      rw [List.getElem?_append_left hcn] at hb
      exact hord c hc0 hcn a b ha hb
    have hsu := HeapOrder.siftUp_init _ _ _ hheap
    have hlen : (h.items ++ [elem]).length = h.items.length + 1 := by simp
    rw [← hlen] at hsu
    obtain ⟨items1, hrun, hperm, hh⟩ :=
      heapify_up_loop_spec ((h.items ++ [elem]).length + 1) (h.items ++ [elem])
        h.items.length hsu (by omega)
        (by show ((h.items.length : Nat) : Int) ≤ 2147483647; omega) (by omega)
    have hl1 : items1.length = h.items.length + 1 := by rw [hperm.length_eq, hlen]
    refine ⟨{ items := items1, size := h.size + 1 }, ?_, ?_, rfl, ?_, ?_, ?_⟩
    · simp only [add, h1, heapify_up, h2, hrun]
    · exact hperm.trans (List.perm_append_singleton elem h.items)
    · show h.size + 1 = ((items1.length : Nat) : Int)
      rw [hl1]; omega
    · show h.size + 1 ≤ 2147483647
      omega
    · exact (minHeapOrder_iff _ _).mpr hh
  · intro h1 hadd
    simp only [add] at hadd
    cases hi : int (h.size + 1) with
    | none => rw [hi] at hadd; cases hadd
    | some s =>
      obtain ⟨_, _, hle⟩ := int_eq_some hi
      show h.size < 2147483647
      have hle1 : h.size + 1 ≤ 2147483647 := hle
      omega

theorem extract_perm {T : Type} (items : List T) (it last : T)
    (h0 : items[0]? = some it) (hl : items[items.length - 1]? = some last) :
    (it :: (items.set 0 last).dropLast).Perm items := by
  cases items with
  | nil => simp at h0
  | cons x tl =>
    simp only [List.getElem?_cons_zero, Option.some.injEq] at h0
    subst h0
    simp only [List.set_cons_zero]
    rcases List.eq_nil_or_concat tl with hnil | ⟨L, b, hLb⟩
    · subst hnil
      simp
    · subst hLb
      simp only [List.concat_eq_append] at hl ⊢
      have hb : last = b := by
        have hidx : (x :: (L ++ [b])).length - 1 = L.length + 1 := by simp
        rw [hidx, List.getElem?_cons_succ, List.getElem?_concat_length] at hl
        exact (Option.some.inj hl).symm
      subst hb
      have hd : (last :: (L ++ [last])).dropLast = last :: L := by
        rw [← List.cons_append, List.dropLast_concat]
      rw [hd]
      exact List.Perm.cons x (List.perm_append_singleton last L).symm

theorem extract_min_spec {T : Type} [LinearOrder T] (h : Heap T) (hwf : Wf h)
    (hne : h.items ≠ []) :
    (∀ a h1, extract_min h = Result.ok a h1 →
      a ∈ h.items ∧ (∀ x, x ∈ h.items → a ≤ x) ∧ (a :: h1.items).Perm h.items ∧
      h1.size = h.size - 1 ∧ Wf h1) ∧
    (h.items.length ≤ 2 ^ 30 + 1 → ∃ a h1, extract_min h = Result.ok a h1) := by
  obtain ⟨hsz, hmax, hord⟩ := hwf
  have hmax1 : h.size ≤ 2147483647 := hmax
  have hpos : 0 < h.items.length := List.length_pos.mpr hne
  have hchk : check_in_range h = false := by
    simp only [check_in_range, List.isEmpty_eq_true]
    simpa using hne
  have hit : item h.items 0 = some h.items[0] := by
    have := item_nat h.items 0
    simp only [Nat.cast_zero] at this
    rw [this]; exact List.getElem?_eq_getElem hpos
  have hsz1 : int (h.size - 1) = some (((h.items.length - 1 : Nat)) : Int) := by
    rw [int_some _ (by simp only [INT_MIN]; omega) (by simp only [INT_MAX]; omega)]
    congr 1; omega
  have hlast : item h.items (((h.items.length - 1 : Nat)) : Int)
      = some h.items[h.items.length - 1] := by
    rw [item_nat]; exact List.getElem?_eq_getElem (by omega)
  obtain ⟨items1, hi1⟩ : ∃ items1,
      items1 = (h.items.set 0 h.items[h.items.length - 1]).dropLast := ⟨_, rfl⟩
  have hlen1 : items1.length = h.items.length - 1 := by rw [hi1]; simp
  have hperm1 : (h.items[0] :: items1).Perm h.items := by
    rw [hi1]
    exact extract_perm h.items _ _ (List.getElem?_eq_getElem hpos)
      (List.getElem?_eq_getElem (by omega))
  have hrun : extract_min h =
      match heapify_down_loop (((h.items.length - 1 : Nat)) : Int) (items1.length + 1)
        items1 0 with
      | none => Result.ub
      | some items2 =>
        Result.ok h.items[0] { items := items2, size := ((h.items.length - 1 : Nat) : Int) } := by
    simp only [extract_min, hchk, hit, hsz1, hlast, heapify_down, ← hi1]
    cases heapify_down_loop (((h.items.length - 1 : Nat)) : Int) (items1.length + 1)
      items1 0 <;> rfl
  have hsd : HeapOrder.SiftDown (fun a b : T => a ≤ b) items1 (h.items.length - 1) 0 0 := by
    constructor
    · intro c hc0 hcn _ hp a b ha hb
      have hx : ∀ x, 0 < x → x < h.items.length - 1 → items1[x]? = h.items[x]? := by
        intro x hx0 hxn
        rw [hi1, List.getElem?_dropLast, if_pos (by simpa using hxn),
          List.getElem?_set_ne (by omega)]
      rw [hx _ (by omega) (by omega)] at ha
      rw [hx c hc0 hcn] at hb
      exact hord c hc0 (by omega) a b ha hb
    · intro c _ _ _ h0
      omega
  have hspec := heapify_down_loop_spec (h.items.length - 1)
    (by show ((h.items.length - 1 : Nat) : Int) ≤ 2147483647; omega)
    (items1.length + 1) items1 0 hlen1 hsd (Or.inr rfl)
  have hloop : heapify_down_loop (((h.items.length - 1 : Nat)) : Int) (items1.length + 1)
      items1 ((0 : Nat) : Int)
      = heapify_down_loop (((h.items.length - 1 : Nat)) : Int) (items1.length + 1)
      items1 0 := rfl
  rw [hloop] at hspec
  have hroot := HeapOrder.root_dominates (fun a b : T => a ≤ b) (fun x => le_refl x)
    (fun x y z hxy hyz => le_trans hxy hyz) h.items h.items.length (Nat.le_refl _)
    ((minHeapOrder_iff _ _).mp hord)
  constructor
  · intro a h1 hres
    rw [hrun] at hres
    cases hl : heapify_down_loop (((h.items.length - 1 : Nat)) : Int) (items1.length + 1)
        items1 0 with
    | none => rw [hl] at hres; cases hres
    | some items2 =>
      rw [hl] at hres
      obtain ⟨hp2, hh2⟩ := hspec.1 items2 hl
      injection hres with ha hh
      subst ha
      subst hh
      have hl2 : items2.length = h.items.length - 1 := by rw [hp2.length_eq, hlen1]
      refine ⟨List.getElem_mem hpos, ?_, ?_, ?_, ?_, ?_, ?_⟩
      · intro x hx
        obtain ⟨i, hi, hxi⟩ := List.getElem_of_mem hx
        exact hroot i hi h.items[0] x (List.getElem?_eq_getElem hpos)
          (by rw [List.getElem?_eq_getElem hi, hxi])
      · exact (List.Perm.cons _ hp2).trans hperm1
      · show ((h.items.length - 1 : Nat) : Int) = h.size - 1
        omega
      · show ((h.items.length - 1 : Nat) : Int) = ((items2.length : Nat) : Int)
        rw [hl2]
      · show ((h.items.length - 1 : Nat) : Int) ≤ 2147483647
        omega
      · rw [minHeapOrder_iff, hl2]
        exact hh2
  · intro hb
    obtain ⟨items2, hl⟩ := hspec.2 (by omega) (by omega)
    exact ⟨h.items[0], _, by rw [hrun, hl]⟩

theorem empty_wf {T : Type} [LinearOrder T] : Wf (empty T) := by
  refine ⟨rfl, ?_, ?_⟩
  · show (0 : Int) ≤ 2147483647
    omega
  · intro i _ hi
    simp [empty] at hi

theorem reached_wf {T : Type} [LinearOrder T] (h : Heap T) (hr : Reached h) : Wf h := by
  induction hr with
  | empty => exact empty_wf
  | add h h1 elem _ hadd ih =>
    obtain ⟨htot, hpart⟩ := add_spec h elem ih
    obtain ⟨h2, hadd2, _, _, hwf2⟩ := htot (hpart h1 hadd)
    rw [hadd] at hadd2
    rw [Option.some.inj hadd2]
    exact hwf2
  | extract_min h h1 a _ hex ih =>
    have hne : h.items ≠ [] := by
      intro he
      simp [extract_min, check_in_range, he] at hex
    exact ((extract_min_spec h ih hne).1 a h1 hex).2.2.2.2

end MinHeap

namespace MinHeap

/-! ## `extract_min` on reached heaps -/

/-- C13 (as amended): for every heap reached from the empty heap by `add` and `extract_min`
calls, on a non-empty heap (1) whenever `extract_min` returns, it returns the minimum of the
stored elements, removes exactly one occurrence of it, decreases `size` by one and leaves
the items in min-heap order; (2) it does return when the heap holds at most `2^30 + 1`
items. -/
theorem C13_extract_min_correct {T : Type} [LinearOrder T] (h : Heap T) (hr : Reached h)
    (hne : h.items ≠ []) :
    (∀ a h1, extract_min h = Result.ok a h1 →
      a ∈ h.items ∧ (∀ x, x ∈ h.items → a ≤ x) ∧ (a :: h1.items).Perm h.items ∧
      h1.size = h.size - 1 ∧ h1.size = h1.items.length ∧
      MinHeapOrder h1.items h1.items.length) ∧
    (h.items.length ≤ 2 ^ 30 + 1 → ∃ a h1, extract_min h = Result.ok a h1) := by
  obtain ⟨hpart, htot⟩ := extract_min_spec h (reached_wf h hr) hne
  refine ⟨?_, htot⟩
  intro a h1 hres
  obtain ⟨h1m, h2m, h3m, h4m, hwf⟩ := hpart a h1 hres
  exact ⟨h1m, h2m, h3m, h4m, hwf.1, hwf.2.2⟩

theorem mainHeap_reached : Reached mainHeap :=
  Reached.add ⟨[-1, 0, 19, 7], 4⟩ _ (-89)
    (Reached.add ⟨[0, 7, 19], 3⟩ _ (-1)
      (Reached.add ⟨[0, 7], 2⟩ _ 19
        (Reached.add ⟨[7], 1⟩ _ 0
          (Reached.add ⟨[], 0⟩ _ 7
            (Reached.extract_min ⟨[6], 1⟩ _ 6
              (Reached.add (empty Int) _ 6 Reached.empty (by rfl)) (by rfl))
            (by rfl)) (by rfl)) (by rfl)) (by rfl)) (by rfl)

/-- The heap of `main`: `extract_min` returns -89 and leaves `[-1, 0, 19, 7]`. -/
theorem C13_extract_min_correct_witness :
    (∀ a h1, extract_min mainHeap = Result.ok a h1 →
      a ∈ mainHeap.items ∧ (∀ x, x ∈ mainHeap.items → a ≤ x) ∧
      (a :: h1.items).Perm mainHeap.items ∧
      h1.size = mainHeap.size - 1 ∧ h1.size = h1.items.length ∧
      MinHeapOrder h1.items h1.items.length) ∧
    (∃ a h1, extract_min mainHeap = Result.ok a h1) ∧
    extract_min mainHeap = Result.ok (-89) ⟨[-1, 0, 19, 7], 4⟩ :=
  have h := C13_extract_min_correct mainHeap mainHeap_reached (by decide)
  ⟨h.1, h.2 (by decide), by rfl⟩

end MinHeap

namespace StdVector

theorem set_self {T : Type} (v : List T) (i : Nat) (a : T) (h : v[i]? = some a) :
    v.set i a = v := by
  apply List.ext_getElem?
  intro x
  rw [List.getElem?_set]
  by_cases hx : i = x
  · subst hx
    rw [if_pos rfl, h]
    have hl : i < v.length := by
      rcases Nat.lt_or_ge i v.length with hl | hl
      · exact hl
      · rw [List.getElem?_eq_none hl] at h; cases h
    rw [if_pos hl]
  · rw [if_neg hx]

theorem swap_at_equal {T : Type} (v : List T) (i j : Nat) (a : T) (hi : v[i]? = some a)
    (hj : v[j]? = some a) : swap_at v i j = some v := by
  simp only [swap_at, hi, hj]
  rw [set_self v i a hi, set_self v j a hj]

end StdVector

namespace MinHeap

/-! ## A heap of `2^30 + 2` items on which `extract_min` overflows -/

theorem add_no_swap {T : Type} [LinearOrder T] (h : Heap T) (elem : T)
    (hsz : h.size = h.items.length) (hlt : h.size < INT_MAX)
    (hpar : ∀ a, (h.items ++ [elem])[(h.items.length - 1) / 2]? = some a → ¬ a > elem) :
    add h elem = some { items := h.items ++ [elem], size := h.size + 1 } := by
  have hlt1 : h.size < 2147483647 := hlt
  have h1 : int (h.size + 1) = some (h.size + 1) :=
    int_some _ (by simp only [INT_MIN]; omega) (by simp only [INT_MAX]; omega)
  have h2 : int (h.size + 1 - 1) = some ((h.items.length : Nat) : Int) := by
    rw [int_some _ (by simp only [INT_MIN]; omega) (by simp only [INT_MAX]; omega)]
    congr 1; omega
  have hjmax : ((h.items.length : Nat) : Int) ≤ INT_MAX := by
    show ((h.items.length : Nat) : Int) ≤ 2147483647
    omega
  have hpar1 := get_parent_index_nat h.items.length hjmax
  have hnn : (((h.items.length - 1) / 2 : Nat) : Int) ≥ 0 := Int.ofNat_nonneg _
  have hlen : (h.items ++ [elem]).length = h.items.length + 1 := by simp
  have hpl : (h.items.length - 1) / 2 < (h.items ++ [elem]).length := by omega
  have hip : (h.items ++ [elem])[(h.items.length - 1) / 2]?
      = some (h.items ++ [elem])[(h.items.length - 1) / 2] := List.getElem?_eq_getElem hpl
  have hij : (h.items ++ [elem])[h.items.length]? = some elem :=
    List.getElem?_concat_length _ _
  have hng := hpar _ hip
  simp only [add, h1, heapify_up, h2, hlen, heapify_up_loop, has_parent, hpar1, hnn,
    decide_True, item_nat, hip, hij, hng, if_false]

theorem reached_fives : ∀ k : Nat, (k : Int) ≤ 2147483647 →
    Reached ({ items := List.replicate k 5, size := (k : Int) } : Heap Int) := by
  intro k
  induction k with
  | zero => intro _; exact Reached.empty
  | succ k ih =>
    intro hk
    have hk1 : ((k : Nat) : Int) < 2147483647 := by omega
    refine Reached.add _ _ 5 (ih (by omega)) ?_
    have hadd := add_no_swap ({ items := List.replicate k 5, size := (k : Int) } : Heap Int) 5
      (by simp) hk1
      (by
        intro a ha
        have hmem : a ∈ List.replicate k (5 : Int) ++ [5] := List.mem_iff_getElem?.mpr ⟨_, ha⟩
        have ha5 : a = 5 := by
          rcases List.mem_append.mp hmem with h1 | h1
          · exact (List.mem_replicate.mp h1).2
          · simpa using h1
        subst ha5
        decide)
    rw [hadd, List.replicate_succ']
    congr 2

theorem fives_lookup (m : Nat) (tail : List Int) (i : Nat) (hi : i < m) :
    (List.replicate m (5 : Int) ++ tail)[i]? = some 5 := by
  rw [List.getElem?_append_left (by simpa using hi), List.getElem?_replicate_of_lt hi]

theorem fives_lookup_tail (m : Nat) (tail : List Int) (i : Nat) :
    (List.replicate m (5 : Int) ++ tail)[m + i]? = tail[i]? := by
  rw [List.getElem?_append_right (by simp)]
  simp

theorem reached_big (m : Nat) (hm : ((m : Nat) : Int) + 3 ≤ 2147483647) (hm3 : 3 ≤ m) :
    Reached ({ items := List.replicate m 5 ++ [7, 5, 5], size := (m : Int) + 3 } : Heap Int) := by
  have hnot : ∀ a : Int, a = 5 → ∀ e : Int, 5 ≤ e → ¬ a > e := by
    intro a ha e he; omega
  -- add 7
  have r1 : Reached ({ items := List.replicate m 5 ++ [7], size := (m : Int) + 1 } : Heap Int) := by
    refine Reached.add _ _ 7 (reached_fives m (by omega)) ?_
    exact add_no_swap _ 7 (by simp) (by show ((m : Nat) : Int) < 2147483647; omega)
      (by
        intro a ha
        simp only [List.length_replicate] at ha
        rw [fives_lookup m [7] _ (by omega)] at ha
        exact hnot a (Option.some.inj ha).symm 7 (by decide))
  -- add 5
  have r2 : Reached ({ items := List.replicate m 5 ++ [7, 5], size := (m : Int) + 2 } :
      Heap Int) := by
    refine Reached.add _ _ 5 r1 ?_
    have hadd := add_no_swap
      ({ items := List.replicate m 5 ++ [7], size := (m : Int) + 1 } : Heap Int) 5
      (by simp) (by show (m : Int) + 1 < 2147483647; omega)
      (by
        intro a ha
        simp only [List.length_append, List.length_replicate, List.length_singleton,
          List.append_assoc] at ha
        rw [fives_lookup m _ _ (by omega)] at ha
        exact hnot a (Option.some.inj ha).symm 5 (by decide))
    rw [hadd]
    simp only [List.append_assoc, List.singleton_append]
    congr 2
  refine Reached.add _ _ 5 r2 ?_
  have hadd := add_no_swap
    ({ items := List.replicate m 5 ++ [7, 5], size := (m : Int) + 2 } : Heap Int) 5
    (by simp) (by show (m : Int) + 2 < 2147483647; omega)
    (by
      intro a ha
      simp only [List.length_append, List.length_replicate, List.length_cons,
        List.length_singleton, List.length_nil, List.append_assoc] at ha
      rw [fives_lookup m _ _ (by omega)] at ha
      exact hnot a (Option.some.inj ha).symm 5 (by decide))
  rw [hadd]
  simp only [List.append_assoc, List.cons_append, List.nil_append]
  congr 2

end MinHeap

namespace MinHeap

theorem heapify_down_left_equal (n fuel : Nat) (items : List Int) (j : Nat) (v w : Int)
    (hn : (n : Int) ≤ INT_MAX) (hr : 2 * j + 2 < n)
    (hvj : items[j]? = some v) (hvl : items[2 * j + 1]? = some v)
    (hvr : items[2 * j + 2]? = some w) (hlt : ¬ w < v) :
    heapify_down_loop (n : Int) (fuel + 1) items (j : Int)
      = heapify_down_loop (n : Int) fuel items ((2 * j + 1 : Nat) : Int) := by
  have hn1 : (n : Int) ≤ 2147483647 := hn
  have hL : ((2 * j + 1 : Nat) : Int) ≤ INT_MAX := by
    show ((2 * j + 1 : Nat) : Int) ≤ 2147483647
    omega
  have hR : ((2 * j + 2 : Nat) : Int) ≤ INT_MAX := by
    show ((2 * j + 2 : Nat) : Int) ≤ 2147483647
    omega
  have hdl : decide ((((2 * j + 1 : Nat) : Int)) < (n : Int)) = true := by
    simp only [decide_eq_true_eq]; omega
  have hdr : decide ((((2 * j + 2 : Nat) : Int)) < (n : Int)) = true := by
    simp only [decide_eq_true_eq]; omega
  have hvv : ¬ v < v := lt_irrefl v
  simp only [heapify_down_loop, has_left_child, get_left_child_nat j hL, hdl, smaller_child,
    has_right_child, get_right_child_nat j hR, hdr, item_nat, hvr, hvl, hvj, hlt, if_false,
    hvv, swap_items_nat, StdVector.swap_at_equal items (2 * j + 1) j v hvl hvj]

theorem heapify_down_right_equal (n fuel : Nat) (items : List Int) (j : Nat) (v u : Int)
    (hn : (n : Int) ≤ INT_MAX) (hr : 2 * j + 2 < n)
    (hvj : items[j]? = some v) (hvl : items[2 * j + 1]? = some u)
    (hvr : items[2 * j + 2]? = some v) (hlt : v < u) :
    heapify_down_loop (n : Int) (fuel + 1) items (j : Int)
      = heapify_down_loop (n : Int) fuel items ((2 * j + 2 : Nat) : Int) := by
  have hn1 : (n : Int) ≤ 2147483647 := hn
  have hL : ((2 * j + 1 : Nat) : Int) ≤ INT_MAX := by
    show ((2 * j + 1 : Nat) : Int) ≤ 2147483647
    omega
  have hR : ((2 * j + 2 : Nat) : Int) ≤ INT_MAX := by
    show ((2 * j + 2 : Nat) : Int) ≤ 2147483647
    omega
  have hdl : decide ((((2 * j + 1 : Nat) : Int)) < (n : Int)) = true := by
    simp only [decide_eq_true_eq]; omega
  have hdr : decide ((((2 * j + 2 : Nat) : Int)) < (n : Int)) = true := by
    simp only [decide_eq_true_eq]; omega
  have hvv : ¬ v < v := lt_irrefl v
  simp only [heapify_down_loop, has_left_child, get_left_child_nat j hL, hdl, smaller_child,
    has_right_child, get_right_child_nat j hR, hdr, item_nat, hvr, hvl, hvj, hlt, if_true,
    hvv, if_false, swap_items_nat, StdVector.swap_at_equal items (2 * j + 2) j v hvr hvj]

theorem heapify_down_leftmost (n m : Nat) (items : List Int) (hn : (n : Int) ≤ INT_MAX)
    (hmn : m < n) (hfive : ∀ i, i < m → items[i]? = some 5) :
    ∀ (t fuel : Nat), leftmost t + 1 < m →
      heapify_down_loop (n : Int) (fuel + t) items ((0 : Nat) : Int)
        = heapify_down_loop (n : Int) fuel items ((leftmost t : Nat) : Int) := by
  intro t
  induction t with
  | zero => intro fuel _; rfl
  | succ t ih =>
    intro fuel ht
    have hlm : leftmost (t + 1) = 2 * leftmost t + 1 := rfl
    rw [hlm] at ht
    have h1 := ih (fuel + 1) (by omega)
    rw [show fuel + (t + 1) = fuel + 1 + t by omega, h1, hlm]
    exact heapify_down_left_equal n fuel items (leftmost t) 5 5 hn (by omega)
      (hfive _ (by omega)) (hfive _ (by omega)) (hfive _ (by omega)) (by decide)

theorem extract_min_big (m t : Nat) (hm : 2 * leftmost t + 1 = m) (ht : 1 ≤ leftmost t)
    (htm : t ≤ m) (hmax : (m : Int) + 2 ≤ 2147483647)
    (hover : (2147483647 : Int) < ((2 * (m + 1) + 1 : Nat) : Int)) :
    extract_min ({ items := List.replicate m 5 ++ [7, 5, 5], size := (m : Int) + 3 } : Heap Int)
      = Result.ub := by
  have hitems : List.replicate m (5 : Int) ++ [7, 5, 5]
      = (List.replicate m (5 : Int) ++ [7, 5]) ++ [5] := by simp
  have hlen : (List.replicate m (5 : Int) ++ [7, 5, 5]).length = m + 3 := by simp
  have hchk : check_in_range
      ({ items := List.replicate m 5 ++ [7, 5, 5], size := (m : Int) + 3 } : Heap Int)
      = false := by
    simp [check_in_range]
  have h0 : (List.replicate m (5 : Int) ++ [7, 5, 5])[0]? = some 5 :=
    fives_lookup m _ 0 (by omega)
  have hit : item (List.replicate m (5 : Int) ++ [7, 5, 5]) 0 = some 5 := by
    have h := item_nat (List.replicate m (5 : Int) ++ [7, 5, 5]) 0
    simp only [Nat.cast_zero] at h
    rw [h, h0]
  have hsz1 : int ((m : Int) + 3 - 1) = some (((m + 2 : Nat)) : Int) := by
    rw [int_some _ (by simp only [INT_MIN]; omega) (by simp only [INT_MAX]; omega)]
    congr 1; omega
  have hlast : item (List.replicate m (5 : Int) ++ [7, 5, 5]) (((m + 2 : Nat)) : Int)
      = some 5 := by
    rw [item_nat, fives_lookup_tail]
    rfl
  have hitems1 : ((List.replicate m (5 : Int) ++ [7, 5, 5]).set 0 5).dropLast
      = List.replicate m (5 : Int) ++ [7, 5] := by
    rw [StdVector.set_self _ 0 5 h0, hitems, List.dropLast_concat]
  have hlen1 : (List.replicate m (5 : Int) ++ [7, 5]).length = m + 2 := by simp
  have hn : (((m + 2 : Nat)) : Int) ≤ INT_MAX := by
    show (((m + 2 : Nat)) : Int) ≤ 2147483647
    omega
  -- the sift-down walks the left spine, turns right once, and overflows
  have hpath := heapify_down_leftmost (m + 2) m (List.replicate m (5 : Int) ++ [7, 5]) hn
    (by omega) (fun i hi => fives_lookup m _ i hi) t (m + 1 - t + 1 + 1) (by omega)
  have hturn := heapify_down_right_equal (m + 2) (m + 1 - t + 1)
    (List.replicate m (5 : Int) ++ [7, 5]) (leftmost t) 5 7 hn (by omega)
    (fives_lookup m _ _ (by omega))
    (by
      rw [show 2 * leftmost t + 1 = m + 0 by omega, fives_lookup_tail]
      rfl)
    (by
      rw [show 2 * leftmost t + 2 = m + 1 by omega, fives_lookup_tail]
      rfl)
    (by decide)
  have hovf := heapify_down_overflow (T := Int) (m + 2) (m + 1 - t)
    (List.replicate m (5 : Int) ++ [7, 5]) (2 * leftmost t + 2)
    (by
      show (2147483647 : Int) < ((2 * (2 * leftmost t + 2) + 1 : Nat) : Int)
      omega)
  have hloop : heapify_down_loop (((m + 2 : Nat)) : Int)
      ((List.replicate m (5 : Int) ++ [7, 5]).length + 1)
      (List.replicate m (5 : Int) ++ [7, 5]) 0 = none := by
    rw [hlen1, show m + 2 + 1 = m + 1 - t + 1 + 1 + t by omega]
    have h00 : ((0 : Nat) : Int) = 0 := rfl
    rw [← h00, hpath, hturn, hovf]
  simp only [extract_min, hchk, hit, hsz1, hlast, hitems1, heapify_down, hloop]
  rfl

theorem big_items_length (m : Nat) :
    (List.replicate m (5 : Int) ++ [7, 5, 5]).length = m + 3 := by simp

theorem big_items_ne_nil (m : Nat) : List.replicate m (5 : Int) ++ [7, 5, 5] ≠ [] := by simp

/-- C13 (as stated) fails: the heap of `2^30 - 1` fives followed by 7, 5, 5 is reached from
the empty heap by `add` calls alone, is not empty, and `extract_min` on it is undefined
behaviour: the sift-down reaches index `2^30`, where `get_left_child` computes
`2 * index + 1` beyond `INT_MAX`. -/
theorem C13_extract_min_overflows_on_big_heap :
    Reached bigHeap ∧ bigHeap.items ≠ [] ∧ bigHeap.items.length = 2 ^ 30 + 2 ∧
      extract_min bigHeap = Result.ub :=
  have hl : leftmost 29 = 536870911 := by decide
  ⟨reached_big 1073741823 (by decide) (by decide),
   big_items_ne_nil 1073741823,
   Eq.trans (big_items_length 1073741823) (by decide),
   extract_min_big 1073741823 29 (by rw [hl]) (by rw [hl]; decide) (by decide)
     (by decide) (by decide)⟩

end MinHeap
namespace SimpleHeap

/-! ## Index arithmetic below the conversion limits -/

theorem left_eq (i : Nat) (h : 2 * i + 2 < 2 ^ 64) : left i = 2 * i + 1 := by
  unfold left; omega

theorem right_eq (i : Nat) (h : 2 * i + 2 < 2 ^ 64) : right i = 2 * i + 2 := by
  unfold right; omega

theorem to_int_eq (n : Nat) (h : n < 2 ^ 31) : to_int n = (n : Int) := by
  unfold to_int
  rw [if_pos (by omega)]
  omega

theorem parent_to_int (j : Nat) (h : j < 2 ^ 31) : parent (to_int j) = (j - 1) / 2 := by
  rw [to_int_eq j h]
  unfold parent
  by_cases h0 : j = 0
  · subst h0; simp
  · rw [if_pos (by omega)]
    omega

theorem size_pred_eq (n : Nat) (h0 : 0 < n) (h : n < 2 ^ 64) : size_pred n = n - 1 := by
  unfold size_pred
  rw [if_neg (by omega)]

/-! ## `max_heapify` -/

theorem max_heapify_step {T : Type} [LinearOrder T] (fuel : Nat) (h : Heap T) (j n : Nat)
    (hsz : h.heap_size = n) (hlen : n ≤ h.items.length) (hj : 2 * j + 2 < 2 ^ 64) :
    ∃ c, ((c = j ∧ ∀ d, 0 < d → d < n → (d - 1) / 2 = j →
            HeapOrder.Dom (fun a b : T => a ≥ b) h.items j d) ∨
          ((c - 1) / 2 = j ∧ 0 < c ∧ c < n ∧
            (∃ vc vj, h.items[c]? = some vc ∧ h.items[j]? = some vj ∧ vc > vj) ∧
            ∀ d, 0 < d → d < n → (d - 1) / 2 = j → d ≠ c →
              HeapOrder.Dom (fun a b : T => a ≥ b) h.items c d)) ∧
      max_heapify (fuel + 1) h j =
        (if c ≠ j then
           match StdVector.swap_at h.items j c with
           | none => none
           | some items1 => max_heapify fuel { h with items := items1 } c
         else some h) := by
  have hL := left_eq j hj
  have hR := right_eq j hj
  by_cases hl : 2 * j + 1 < n
  · have hjl : j < h.items.length := by omega
    have hll : 2 * j + 1 < h.items.length := by omega
    have hvj : h.items[j]? = some h.items[j] := List.getElem?_eq_getElem hjl
    have hvl : h.items[2 * j + 1]? = some h.items[2 * j + 1] := List.getElem?_eq_getElem hll
    by_cases hr : 2 * j + 2 < n
    · have hrl : 2 * j + 2 < h.items.length := by omega
      have hvr : h.items[2 * j + 2]? = some h.items[2 * j + 2] := List.getElem?_eq_getElem hrl
      by_cases hgl : h.items[2 * j + 1] > h.items[j]
      · by_cases hgr : h.items[2 * j + 2] > h.items[2 * j + 1]
        · -- the right child is the largest
          refine ⟨2 * j + 2, Or.inr ⟨by omega, by omega, hr,
            ⟨_, _, hvr, hvj, lt_trans hgl hgr⟩, ?_⟩, ?_⟩
          · intro d hd0 hdn hdp hdc a b ha hb
            have hd1 : d = 2 * j + 1 := by omega
            subst hd1
            rw [hvr] at ha; rw [hvl] at hb
            rw [← Option.some.inj ha, ← Option.some.inj hb]
            exact le_of_lt hgr
          · simp only [max_heapify, pick_larger, hL, hR, hsz, hl, hr, if_true, hvl, hvj, hgl,
              hvr, hgr]
        · -- the left child is the largest
          refine ⟨2 * j + 1, Or.inr ⟨by omega, by omega, hl, ⟨_, _, hvl, hvj, hgl⟩, ?_⟩, ?_⟩
          · intro d hd0 hdn hdp hdc a b ha hb
            have hd1 : d = 2 * j + 2 := by omega
            subst hd1
            rw [hvl] at ha; rw [hvr] at hb
            rw [← Option.some.inj ha, ← Option.some.inj hb]
            exact not_lt.mp hgr
          · simp only [max_heapify, pick_larger, hL, hR, hsz, hl, hr, if_true, hvl, hvj, hgl,
              hvr, hgr, if_false]
      · by_cases hgr : h.items[2 * j + 2] > h.items[j]
        · refine ⟨2 * j + 2, Or.inr ⟨by omega, by omega, hr, ⟨_, _, hvr, hvj, hgr⟩, ?_⟩, ?_⟩
          · intro d hd0 hdn hdp hdc a b ha hb
            have hd1 : d = 2 * j + 1 := by omega
            subst hd1
            rw [hvr] at ha; rw [hvl] at hb
            rw [← Option.some.inj ha, ← Option.some.inj hb]
            exact le_trans (not_lt.mp hgl) (le_of_lt hgr)
          · simp only [max_heapify, pick_larger, hL, hR, hsz, hl, hr, if_true, hvl, hvj, hgl,
              hvr, hgr, if_false]
        · refine ⟨j, Or.inl ⟨rfl, ?_⟩, ?_⟩
          · intro d hd0 hdn hdp a b ha hb
            rw [hvj] at ha
            rw [← Option.some.inj ha]
            have hd1 : d = 2 * j + 1 ∨ d = 2 * j + 2 := by omega
            rcases hd1 with hd1 | hd1
            · subst hd1
              rw [hvl] at hb
              rw [← Option.some.inj hb]
              exact not_lt.mp hgl
            · subst hd1
              rw [hvr] at hb
              rw [← Option.some.inj hb]
              exact not_lt.mp hgr
          · simp only [max_heapify, pick_larger, hL, hR, hsz, hl, hr, if_true, hvl, hvj, hgl,
              hvr, hgr, if_false, ne_eq, not_true_eq_false]
    · by_cases hgl : h.items[2 * j + 1] > h.items[j]
      · refine ⟨2 * j + 1, Or.inr ⟨by omega, by omega, hl, ⟨_, _, hvl, hvj, hgl⟩, ?_⟩, ?_⟩
        · intro d hd0 hdn hdp hdc
          omega
        · simp only [max_heapify, pick_larger, hL, hR, hsz, hl, hr, if_true, hvl, hvj, hgl,
            if_false]
      · refine ⟨j, Or.inl ⟨rfl, ?_⟩, ?_⟩
        · intro d hd0 hdn hdp a b ha hb
          rw [hvj] at ha
          rw [← Option.some.inj ha]
          have hd1 : d = 2 * j + 1 := by omega
          subst hd1
          rw [hvl] at hb
          rw [← Option.some.inj hb]
          exact not_lt.mp hgl
        · simp only [max_heapify, pick_larger, hL, hR, hsz, hl, hr, if_true, hvl, hvj, hgl,
            if_false, ne_eq, not_true_eq_false]
  · have hr : ¬ 2 * j + 2 < n := by omega
    refine ⟨j, Or.inl ⟨rfl, ?_⟩, ?_⟩
    · intro d hd0 hdn hdp
      omega
    · simp only [max_heapify, pick_larger, hL, hR, hsz, hl, hr, if_false, ne_eq,
        not_true_eq_false]

end SimpleHeap

namespace SimpleHeap

theorem max_heapify_shape {T : Type} [LinearOrder T] :
    ∀ (fuel : Nat) (h : Heap T) (j : Nat) (h1 : Heap T), max_heapify fuel h j = some h1 →
      h1.heap_size = h.heap_size ∧ h1.sorted = h.sorted ∧
      h1.items.length = h.items.length := by
  intro fuel
  induction fuel with
  | zero => intro h j h1 hrun; simp [max_heapify] at hrun
  | succ fuel ih =>
    intro h j h1 hrun
    simp only [max_heapify] at hrun
    split at hrun
    · cases hrun
    · split at hrun
      · cases hrun
      · split at hrun
        · split at hrun
          · cases hrun
          · next items1 hsw =>
            obtain ⟨e1, e2, e3⟩ := ih _ _ _ hrun
            obtain ⟨hl, _, _⟩ := StdVector.swap_at_spec _ _ _ _ hsw
            exact ⟨e1, e2, by rw [e3]; exact hl⟩
        · have he : h = h1 := Option.some.inj hrun
          subst he
          exact ⟨rfl, rfl, rfl⟩

theorem max_heapify_spec {T : Type} [LinearOrder T] (n k : Nat) (hn : 2 * n + 2 < 2 ^ 64) :
    ∀ (fuel : Nat) (h : Heap T) (j : Nat), h.heap_size = n → n ≤ h.items.length →
      HeapOrder.SiftDown (fun a b : T => a ≥ b) h.items n k j → k ≤ j → j ≤ n →
      n < fuel + j → 0 < fuel →
      ∃ h1, max_heapify fuel h j = some h1 ∧ h1.heap_size = n ∧ h1.sorted = h.sorted ∧
        h1.items.Perm h.items ∧
        HeapOrder.HeapFrom (fun a b : T => a ≥ b) h1.items n k ∧
        (∀ x, n ≤ x → h1.items[x]? = h.items[x]?) ∧
        (∀ x, x < n → ∃ y, y < n ∧ h1.items[x]? = h.items[y]?) := by
  intro fuel
  induction fuel with
  | zero => intro h j _ _ _ _ _ _ hf; omega
  | succ fuel ih =>
    intro h j hsz hlen hsd hkj hjn hfuel _
    obtain ⟨c, hc, hstep⟩ := max_heapify_step fuel h j n hsz hlen (by omega)
    rw [hstep]
    rcases hc with ⟨hcj, hdom⟩ | ⟨hcp, hc0, hcn, ⟨vc, vj, hvc, hvj, hgt⟩, hsib⟩
    · subst hcj
      rw [if_neg (by simp)]
      refine ⟨h, rfl, hsz, rfl, List.Perm.refl _, ?_, fun _ _ => rfl, fun x hx => ⟨x, hx, rfl⟩⟩
      exact HeapOrder.siftDown_done _ h.items n k c hsd hdom
    · have hne : c ≠ j := by omega
      rw [if_pos hne]
      have hcl : c < h.items.length := by omega
      have hjl : j < h.items.length := by omega
      have hsome := StdVector.swap_at_some h.items j c hjl hcl
      obtain ⟨hlen1, hsw, hperm⟩ := StdVector.swap_at_spec h.items _ j c hsome
      rw [hsome]
      have hsd1 := HeapOrder.siftDown_step (fun a b : T => a ≥ b) h.items _ n k j c vj vc
        hsd hkj hc0 hcn hcp hvj hvc (le_of_lt hgt) hsib hsw
      obtain ⟨h1, hrun, hs1, hso1, hp1, hh1, hf1, hq1⟩ :=
        ih { h with items := (h.items.set j h.items[c]).set c h.items[j] } c hsz
          (by show n ≤ ((h.items.set j h.items[c]).set c h.items[j]).length
              rw [hlen1]; exact hlen)
          hsd1 (by omega) (by omega) (by omega) (by omega)
      refine ⟨h1, hrun, hs1, hso1, hp1.trans hperm, hh1, ?_, ?_⟩
      · intro x hx
        exact ((hf1 x hx).trans (hsw x)).trans
          (by rw [if_neg (by omega), if_neg (by omega)])
      · intro x hx
        obtain ⟨y, hy, hxy⟩ := hq1 x hx
        have hy2 : ((h.items.set j h.items[c]).set c h.items[j])[y]?
            = if y = j then h.items[c]? else if y = c then h.items[j]? else h.items[y]? :=
          hsw y
        by_cases hyj : y = j
        · exact ⟨c, hcn, (hxy.trans hy2).trans (by rw [if_pos hyj])⟩
        · by_cases hyc : y = c
          · exact ⟨j, by omega, (hxy.trans hy2).trans (by rw [if_neg hyj, if_pos hyc])⟩
          · exact ⟨y, hy, (hxy.trans hy2).trans (by rw [if_neg hyj, if_neg hyc])⟩

end SimpleHeap

namespace SimpleHeap

/-! ## `build_max_heap` -/

theorem build_max_heap_loop_shape {T : Type} [LinearOrder T] :
    ∀ (k : Nat) (h h1 : Heap T), build_max_heap_loop k h = some h1 →
      h1.heap_size = h.heap_size ∧ h1.sorted = h.sorted ∧
      h1.items.length = h.items.length := by
  intro k
  induction k with
  | zero =>
    intro h h1 hrun
    have he : h = h1 := Option.some.inj hrun
    subst he
    exact ⟨rfl, rfl, rfl⟩
  | succ k ih =>
    intro h h1 hrun
    simp only [build_max_heap_loop] at hrun
    split at hrun
    · cases hrun
    · next h2 hmh =>
      obtain ⟨e1, e2, e3⟩ := max_heapify_shape _ _ _ _ hmh
      obtain ⟨f1, f2, f3⟩ := ih _ _ hrun
      exact ⟨f1.trans e1, f2.trans e2, f3.trans e3⟩

theorem build_max_heap_loop_spec {T : Type} [LinearOrder T] (n : Nat)
    (hn : 2 * n + 2 < 2 ^ 64) :
    ∀ (k : Nat) (h : Heap T), h.heap_size = n → n ≤ h.items.length →
      HeapOrder.HeapFrom (fun a b : T => a ≥ b) h.items n k → k ≤ n + 1 →
      ∃ h1, build_max_heap_loop k h = some h1 ∧ h1.heap_size = n ∧ h1.sorted = h.sorted ∧
        h1.items.Perm h.items ∧
        HeapOrder.HeapFrom (fun a b : T => a ≥ b) h1.items n 0 ∧
        (∀ x, n ≤ x → h1.items[x]? = h.items[x]?) := by
  intro k
  induction k with
  | zero =>
    intro h hsz _ hh _
    exact ⟨h, rfl, hsz, rfl, List.Perm.refl _, hh, fun _ _ => rfl⟩
  | succ k ih =>
    intro h hsz hlen hh hk
    obtain ⟨h2, hrun, hs2, hso2, hp2, hh2, hf2, _⟩ :=
      max_heapify_spec n k hn (n + 1) h k hsz hlen
        (HeapOrder.siftDown_init _ h.items n k hh) (Nat.le_refl _) (by omega) (by omega)
        (by omega)
    obtain ⟨h1, hrun1, hs1, hso1, hp1, hh1, hf1⟩ :=
      ih h2 hs2 (by rw [hp2.length_eq]; exact hlen) hh2 (by omega)
    refine ⟨h1, ?_, hs1, hso1.trans hso2, hp1.trans hp2, hh1, ?_⟩
    · simp only [build_max_heap_loop, hsz, hrun]
      exact hrun1
    · intro x hx
      exact (hf1 x hx).trans (hf2 x hx)

theorem build_max_heap_shape {T : Type} [LinearOrder T] (h h1 : Heap T)
    (hrun : build_max_heap h = some h1) :
    h1.heap_size = h.heap_size ∧ h1.sorted = h.sorted ∧ h1.items.length = h.items.length :=
  build_max_heap_loop_shape _ h h1 hrun

theorem build_max_heap_spec {T : Type} [LinearOrder T] (h : Heap T)
    (hsz : h.heap_size = h.items.length) (hn : h.items.length < 2 ^ 32) :
    ∃ h1, build_max_heap h = some h1 ∧ h1.heap_size = h.heap_size ∧ h1.sorted = h.sorted ∧
      h1.items.Perm h.items ∧
      HeapOrder.HeapFrom (fun a b : T => a ≥ b) h1.items h.items.length 0 := by
  have hti : to_int (h.heap_size / 2) = ((h.heap_size / 2 : Nat) : Int) :=
    to_int_eq _ (by omega)
  have hk : (to_int (h.heap_size / 2) + 1).toNat = h.items.length / 2 + 1 := by
    rw [hti, hsz]; omega
  obtain ⟨h1, hrun, hs1, hso1, hp1, hh1, _⟩ :=
    build_max_heap_loop_spec h.items.length (by omega) (h.items.length / 2 + 1) h hsz
      (Nat.le_refl _)
      (by intro c hc0 hcn hk; omega) (by omega)
  refine ⟨h1, ?_, hs1.trans hsz.symm, hso1, hp1, hh1⟩
  unfold build_max_heap
  rw [hk]
  exact hrun

end SimpleHeap
namespace SimpleHeap

/-! ## `sort` -/

theorem sort_loop_unfold {T : Type} [LinearOrder T] (k : Nat) (h : Heap T) :
    sort_loop (k + 1) h =
      match StdVector.swap_at h.items 0 (k + 1) with
      | none => none
      | some items1 =>
        match max_heapify (h.heap_size + 1)
            { h with items := items1, heap_size := size_pred h.heap_size } 0 with
        | none => none
        | some h1 => sort_loop k h1 := rfl

theorem sort_loop_shape {T : Type} [LinearOrder T] :
    ∀ (k : Nat) (h h1 : Heap T), sort_loop k h = some h1 →
      h1.sorted = h.sorted ∧ h1.items.length = h.items.length := by
  intro k
  induction k with
  | zero =>
    intro h h1 hrun
    have he : h = h1 := Option.some.inj hrun
    subst he
    exact ⟨rfl, rfl⟩
  | succ k ih =>
    intro h h1 hrun
    rw [sort_loop_unfold] at hrun
    split at hrun
    · cases hrun
    · next items1 hsw =>
      split at hrun
      · cases hrun
      · next h2 hmh =>
        obtain ⟨hl, _, _⟩ := StdVector.swap_at_spec _ _ _ _ hsw
        obtain ⟨_, e2, e3⟩ := max_heapify_shape _ _ _ _ hmh
        obtain ⟨f2, f3⟩ := ih _ _ hrun
        exact ⟨f2.trans e2, (f3.trans e3).trans hl⟩

theorem sort_loop_spec {T : Type} [LinearOrder T] :
    ∀ (k : Nat) (h : Heap T), h.heap_size = k + 1 → k + 1 ≤ h.items.length →
      2 * k + 4 < 2 ^ 64 →
      HeapOrder.HeapFrom (fun a b : T => a ≥ b) h.items (k + 1) 0 →
      SortedAbove h.items k →
      ∃ h1, sort_loop k h = some h1 ∧ h1.sorted = h.sorted ∧ h1.items.Perm h.items ∧
        SortedAbove h1.items 0 := by
  intro k
  induction k with
  | zero =>
    intro h _ _ _ _ hs
    exact ⟨h, rfl, rfl, List.Perm.refl _, hs⟩
  | succ k ih =>
    intro h hsz hlen hk hh hs
    have h0l : 0 < h.items.length := by omega
    have hkl : k + 1 < h.items.length := by omega
    have hsome := StdVector.swap_at_some h.items 0 (k + 1) h0l hkl
    obtain ⟨hlen1, hsw, hperm⟩ := StdVector.swap_at_spec h.items _ 0 (k + 1) hsome
    have hsp : size_pred h.heap_size = k + 1 := by
      rw [hsz]; exact size_pred_eq _ (by omega) (by omega)
    have hroot := HeapOrder.root_dominates (fun a b : T => a ≥ b) (fun x => le_refl x)
      (fun x y z hxy hyz => le_trans hyz hxy) h.items (k + 1 + 1) hlen hh
    -- values of the exchanged vector
    have hv0 : ((h.items.set 0 h.items[k + 1]).set (k + 1) h.items[0])[0]?
        = h.items[k + 1]? := by
      rw [hsw 0, if_pos rfl]
    have hvk : ((h.items.set 0 h.items[k + 1]).set (k + 1) h.items[0])[k + 1]?
        = h.items[0]? := by
      rw [hsw (k + 1), if_neg (by omega), if_pos rfl]
    have hvo : ∀ x, x ≠ 0 → x ≠ k + 1 →
        ((h.items.set 0 h.items[k + 1]).set (k + 1) h.items[0])[x]? = h.items[x]? := by
      intro x h1 h2
      rw [hsw x, if_neg h1, if_neg h2]
    have hsd : HeapOrder.SiftDown (fun a b : T => a ≥ b)
        ((h.items.set 0 h.items[k + 1]).set (k + 1) h.items[0]) (k + 1) 0 0 := by
      constructor
      · intro c hc0 hcn _ hne a b ha hb
        rw [hvo _ hne (by omega)] at ha
        rw [hvo c (by omega) (by omega)] at hb
        exact hh c hc0 (by omega) (Nat.zero_le _) a b ha hb
      · intro c _ _ _ h00
        omega
    obtain ⟨h2, hrun, hs2, hso2, hp2, hh2, hf2, hq2⟩ :=
      max_heapify_spec (k + 1) 0 (by omega) (h.heap_size + 1)
        { h with items := (h.items.set 0 h.items[k + 1]).set (k + 1) h.items[0],
                 heap_size := size_pred h.heap_size } 0 hsp
        (by show k + 1 ≤ ((h.items.set 0 h.items[k + 1]).set (k + 1) h.items[0]).length
            rw [hlen1]; omega)
        hsd (Nat.le_refl _) (by omega) (by omega) (by omega)
    have hlen2 : h2.items.length = h.items.length := by
      rw [hp2.length_eq]; exact hlen1
    -- every item of the old vector below `k + 2` is at most the old root
    have hle0 : ∀ y, y < k + 2 → ∀ a b, h.items[y]? = some a → h.items[0]? = some b →
        a ≤ b := by
      intro y hy a b ha hb
      exact hroot y hy b a hb ha
    -- where the items of the new prefix come from
    have hpre : ∀ x, x < k + 1 → ∃ y, y < k + 2 ∧ h2.items[x]? = h.items[y]? := by
      intro x hx
      obtain ⟨y, hy, hxy⟩ := hq2 x hx
      by_cases hy0 : y = 0
      · refine ⟨k + 1, by omega, ?_⟩
        rw [hxy, hy0]
        exact hv0
      · refine ⟨y, by omega, ?_⟩
        rw [hxy]
        exact hvo y hy0 (by omega)
    have hat : h2.items[k + 1]? = h.items[0]? := (hf2 (k + 1) (Nat.le_refl _)).trans hvk
    have hpost : ∀ x, k + 1 < x → h2.items[x]? = h.items[x]? := by
      intro x hx
      exact (hf2 x (by omega)).trans (hvo x (by omega) (by omega))
    have hs2a : SortedAbove h2.items k := by
      intro i j a b hij hkj ha hb
      by_cases hj : j = k + 1
      · subst hj
        rw [hat] at hb
        obtain ⟨y, hy, hiy⟩ := hpre i (by omega)
        rw [hiy] at ha
        exact hle0 y hy a b ha hb
      · rw [hpost j (by omega)] at hb
        by_cases hi : k + 1 < i
        · rw [hpost i hi] at ha
          exact hs i j a b hij (by omega) ha hb
        · by_cases hik : i = k + 1
          · subst hik
            rw [hat] at ha
            exact hs 0 j a b (by omega) (by omega) ha hb
          · obtain ⟨y, hy, hiy⟩ := hpre i (by omega)
            rw [hiy] at ha
            exact hs y j a b (by omega) (by omega) ha hb
    obtain ⟨h1, hrun1, hso1, hp1, hs1⟩ :=
      ih h2 hs2 (by omega) (by omega) hh2 hs2a
    refine ⟨h1, ?_, hso1.trans hso2, (hp1.trans hp2).trans hperm, hs1⟩
    rw [sort_loop_unfold, hsome]
    simp only [hrun]
    exact hrun1

theorem sortedAbove_zero {T : Type} [LinearOrder T] (l : List T) (h : SortedAbove l 0) :
    List.Sorted (fun a b : T => a ≤ b) l := by
  unfold List.Sorted
  rw [List.pairwise_iff_getElem]
  intro i j hi hj hij
  exact h i j _ _ hij (by omega) (List.getElem?_eq_getElem hi) (List.getElem?_eq_getElem hj)

theorem sort_shape {T : Type} [LinearOrder T] (h h1 : Heap T) (hrun : sort h = some h1) :
    h1.heap_size = h.heap_size ∧ h1.sorted = true ∧ h1.items.length = h.items.length := by
  unfold sort at hrun
  split at hrun
  · cases hrun
  · next h2 hb =>
    split at hrun
    · cases hrun
    · next h3 hl =>
      have he := Option.some.inj hrun
      subst he
      obtain ⟨_, _, e3⟩ := build_max_heap_shape _ _ hb
      obtain ⟨_, f3⟩ := sort_loop_shape _ _ _ hl
      exact ⟨rfl, rfl, f3.trans e3⟩

theorem sort_spec {T : Type} [LinearOrder T] (h : Heap T)
    (hsz : h.heap_size = h.items.length) (hn : h.items.length ≤ 2 ^ 31) :
    ∃ h1, sort h = some h1 ∧ List.Sorted (fun a b : T => a ≤ b) h1.items ∧
      h1.items.Perm h.items ∧ h1.heap_size = h.heap_size ∧ h1.sorted = true := by
  obtain ⟨h2, hrun2, hs2, hso2, hp2, hh2⟩ := build_max_heap_spec h hsz (by omega)
  have hl2 : h2.items.length = h.items.length := hp2.length_eq
  by_cases h0 : h.items.length = 0
  · have hk : (to_int (size_pred h2.heap_size)).toNat = 0 := by
      rw [hs2, hsz, h0]
      decide
    refine ⟨{ h2 with sorted := true, heap_size := h.heap_size }, ?_, ?_, hp2, rfl, rfl⟩
    · simp only [sort, hrun2, hk]
      rfl
    · have hnil : h2.items = [] := List.eq_nil_of_length_eq_zero (hl2.trans h0)
      show List.Sorted _ h2.items
      rw [hnil]
      exact List.sorted_nil
  · have hsp : size_pred h2.heap_size = h.items.length - 1 := by
      rw [hs2, hsz]; exact size_pred_eq _ (by omega) (by omega)
    have hk : (to_int (size_pred h2.heap_size)).toNat = h.items.length - 1 := by
      rw [hsp, to_int_eq _ (by omega)]; omega
    have hsucc : h.items.length - 1 + 1 = h.items.length := by omega
    obtain ⟨h3, hrun3, _, hp3, hs3⟩ :=
      sort_loop_spec (h.items.length - 1) h2 (by rw [hs2, hsz, hsucc])
        (by rw [hl2]; omega) (by omega) (by rw [hsucc]; exact hh2)
        (by
          intro i j a b _ hkj _ hb
          have hjl : j < h2.items.length := by
            rcases Nat.lt_or_ge j h2.items.length with hl | hl
            · exact hl
            · rw [List.getElem?_eq_none hl] at hb; cases hb
          omega)
    refine ⟨{ h3 with sorted := true, heap_size := h.heap_size }, ?_,
      sortedAbove_zero _ hs3, hp3.trans hp2, rfl, rfl⟩
    simp only [sort, hrun2, hk, hrun3]

end SimpleHeap
namespace SimpleHeap

/-! ## `heap_up` and `insert` -/

theorem heap_up_unfold {T : Type} [LinearOrder T] (fuel : Nat) (h : Heap T) (index : Nat) :
    heap_up (fuel + 1) h index =
      match h.items[index]?, h.items[parent (to_int index)]? with
      | some a, some b =>
        if a > b then
          match StdVector.swap_at h.items index (parent (to_int index)) with
          | none => none
          | some items1 => heap_up fuel { h with items := items1 } (parent (to_int index))
        else some h
      | _, _ => none := rfl

theorem heap_up_shape {T : Type} [LinearOrder T] :
    ∀ (fuel : Nat) (h : Heap T) (j : Nat) (h1 : Heap T), heap_up fuel h j = some h1 →
      h1.heap_size = h.heap_size ∧ h1.sorted = h.sorted ∧
      h1.items.length = h.items.length := by
  intro fuel
  induction fuel with
  | zero => intro h j h1 hrun; cases hrun
  | succ fuel ih =>
    intro h j h1 hrun
    rw [heap_up_unfold] at hrun
    split at hrun
    · split at hrun
      · split at hrun
        · cases hrun
        · next items1 hsw =>
          obtain ⟨e1, e2, e3⟩ := ih _ _ _ hrun
          obtain ⟨hl, _, _⟩ := StdVector.swap_at_spec _ _ _ _ hsw
          exact ⟨e1, e2, e3.trans hl⟩
      · have he : h = h1 := Option.some.inj hrun
        subst he
        exact ⟨rfl, rfl, rfl⟩
    · cases hrun

theorem heap_up_spec {T : Type} [LinearOrder T] (n : Nat) (hn : n ≤ 2 ^ 31) :
    ∀ (fuel : Nat) (h : Heap T) (j : Nat), h.items.length = n → j < n → j < fuel →
      HeapOrder.SiftUp (fun a b : T => a ≥ b) h.items n j →
      ∃ h1, heap_up fuel h j = some h1 ∧ h1.heap_size = h.heap_size ∧
        h1.sorted = h.sorted ∧ h1.items.Perm h.items ∧
        HeapOrder.HeapFrom (fun a b : T => a ≥ b) h1.items n 0 := by
  intro fuel
  induction fuel with
  | zero => intro h j _ _ hf; omega
  | succ fuel ih =>
    intro h j hlen hjn hfuel hsu
    have hpar : parent (to_int j) = (j - 1) / 2 := parent_to_int j (by omega)
    have hjl : j < h.items.length := by omega
    have hpl : (j - 1) / 2 < h.items.length := by omega
    have hvj : h.items[j]? = some h.items[j] := List.getElem?_eq_getElem hjl
    have hvp : h.items[(j - 1) / 2]? = some h.items[(j - 1) / 2] :=
      List.getElem?_eq_getElem hpl
    rw [heap_up_unfold, hpar, hvj, hvp]
    by_cases hgt : h.items[j] > h.items[(j - 1) / 2]
    · have hj0 : 0 < j := by
        rcases Nat.eq_zero_or_pos j with h0 | h0
        · subst h0
          exact absurd hgt (lt_irrefl _)
        · exact h0
      have hsome := StdVector.swap_at_some h.items j ((j - 1) / 2) hjl hpl
      obtain ⟨hlen1, hsw, hperm⟩ := StdVector.swap_at_spec h.items _ j ((j - 1) / 2) hsome
      have hsu1 := HeapOrder.siftUp_step (fun a b : T => a ≥ b)
        (fun x y z hxy hyz => le_trans hyz hxy) h.items _ n j
        h.items[(j - 1) / 2] h.items[j] hsu hj0 hjn hvp hvj (le_of_lt hgt)
        (HeapOrder.Swapped.symm hsw)
      obtain ⟨h1, hrun, hs1, hso1, hp1, hh1⟩ :=
        ih { h with
              items := ((h.items.set j h.items[(j - 1) / 2]).set ((j - 1) / 2) h.items[j]) }
          ((j - 1) / 2)
          (hlen1.trans hlen) (by omega) (by omega) hsu1
      refine ⟨h1, ?_, hs1, hso1, hp1.trans hperm, hh1⟩
      simp only [if_pos hgt, hsome]
      exact hrun
    · refine ⟨h, ?_, rfl, rfl, List.Perm.refl _, ?_⟩
      · simp only [if_neg hgt]
      · apply HeapOrder.siftUp_done _ h.items n j hsu
        right
        intro a b ha hb
        rw [hvp] at ha
        rw [hvj] at hb
        rw [← Option.some.inj ha, ← Option.some.inj hb]
        exact not_lt.mp hgt

theorem maxHeapOrder_iff {T : Type} [LinearOrder T] (items : List T) (n : Nat) :
    MaxHeapOrder items n ↔ HeapOrder.HeapFrom (fun a b : T => a ≥ b) items n 0 := by
  constructor
  · intro h c hc0 hcn _ a b ha hb
    exact h c hc0 hcn a b ha hb
  · intro h i hi0 hin a b ha hb
    exact h i hi0 hin (Nat.zero_le _) a b ha hb

theorem insert_shape {T : Type} [LinearOrder T] (h h1 : Heap T) (elem : T)
    (hrun : insert h elem = some h1) :
    h1.heap_size = h1.items.length ∧ h1.items.length = h.items.length + 1 ∧
      h1.sorted = false ∨ h1.heap_size = h1.items.length ∧
      h1.items.length = h.items.length + 1 ∧ h1.sorted = h.sorted := by
  unfold insert at hrun
  split at hrun
  · cases hrun
  · next h2 hpre =>
    obtain ⟨e1, e2, e3⟩ := heap_up_shape _ _ _ _ hrun
    have e1a : h1.heap_size = h2.items.length + 1 := by
      rw [e1]
      show (h2.items ++ [elem]).length = _
      simp
    have e3a : h1.items.length = h2.items.length + 1 := by
      rw [e3]
      show (h2.items ++ [elem]).length = _
      simp
    have e2a : h1.sorted = h2.sorted := e2
    split at hpre
    · split at hpre
      · cases hpre
      · next h3 hb =>
        have he := Option.some.inj hpre
        subst he
        obtain ⟨_, _, f3⟩ := build_max_heap_shape _ _ hb
        left
        refine ⟨by rw [e1a, e3a], ?_, e2a⟩
        rw [e3a]
        show h3.items.length + 1 = _
        rw [f3]
    · have he := Option.some.inj hpre
      subst he
      right
      exact ⟨by rw [e1a, e3a], e3a, e2a⟩

theorem insert_spec {T : Type} [LinearOrder T] (h : Heap T) (elem : T)
    (hsz : h.heap_size = h.items.length) (hn : h.items.length < 2 ^ 31)
    (hord : h.sorted = false → MaxHeapOrder h.items h.items.length) :
    ∃ h1, insert h elem = some h1 ∧ h1.items.Perm (h.items ++ [elem]) ∧
      MaxHeapOrder h1.items (h.items.length + 1) ∧
      h1.heap_size = h.items.length + 1 ∧ h1.sorted = false := by
  -- the state after the optional rebuild
  have hpre : ∃ h2, (if h.sorted then
        match build_max_heap h with
        | none => none
        | some h1 => some { h1 with sorted := false }
      else some h) = some h2 ∧ h2.sorted = false ∧ h2.items.Perm h.items ∧
      MaxHeapOrder h2.items h.items.length := by
    cases hs : h.sorted with
    | false =>
      exact ⟨h, by simp, hs, List.Perm.refl _, hord hs⟩
    | true =>
      obtain ⟨h2, hrun2, _, _, hp2, hh2⟩ := build_max_heap_spec h hsz (by omega)
      refine ⟨{ h2 with sorted := false }, by simp [hrun2], rfl, hp2, ?_⟩
      exact (maxHeapOrder_iff _ _).mpr hh2
  obtain ⟨h2, hrun2, hso2, hp2, hh2⟩ := hpre
  have hl2 : h2.items.length = h.items.length := hp2.length_eq
  have hlen3 : (h2.items ++ [elem]).length = h.items.length + 1 := by
    rw [List.length_append, hl2]; rfl
  have hsp : size_pred (h2.items ++ [elem]).length = h.items.length := by
    rw [hlen3]
    exact size_pred_eq _ (by omega) (by omega)
  have hsu : HeapOrder.SiftUp (fun a b : T => a ≥ b) (h2.items ++ [elem])
      (h.items.length + 1) h.items.length := by
    apply HeapOrder.siftUp_init
    intro c hc0 hcn _ a b ha hb
    rw [List.getElem?_append_left (by omega)] at ha hb
    exact hh2 c hc0 hcn a b ha hb
  obtain ⟨h1, hrun1, hs1, hso1, hp1, hh1⟩ :=
    heap_up_spec (h.items.length + 1) (by omega) (h2.items.length + 2)
      { h2 with items := h2.items ++ [elem], heap_size := (h2.items ++ [elem]).length }
      h.items.length hlen3 (by omega) (by omega) hsu
  refine ⟨h1, ?_, ?_, (maxHeapOrder_iff _ _).mpr hh1, hs1.trans hlen3, hso1.trans hso2⟩
  · unfold insert
    rw [hrun2]
    simp only [hsp]
    exact hrun1
  · exact hp1.trans (List.Perm.append_right _ hp2)

end SimpleHeap
namespace SimpleHeap

/-! ## The invariant of the reachable states -/

theorem build_max_heap_order {T : Type} [LinearOrder T] (h h1 : Heap T)
    (hsz : h.heap_size = h.items.length) (hn : h.items.length < 2 ^ 32)
    (hrun : build_max_heap h = some h1) :
    MaxHeapOrder h1.items h1.items.length := by
  obtain ⟨h2, hrun2, _, _, hp2, hh2⟩ := build_max_heap_spec h hsz hn
  rw [hrun] at hrun2
  have he : h1 = h2 := Option.some.inj hrun2
  subst he
  rw [hp2.length_eq]
  exact (maxHeapOrder_iff _ _).mpr hh2

theorem extract_max_shape {T : Type} [LinearOrder T] (h h1 : Heap T) (elem : T)
    (hrun : extract_max h = some (elem, h1)) :
    h1.heap_size = h1.items.length ∧ h1.items.length + 1 = h.items.length ∧
      (h1.items.length < 2 ^ 32 → MaxHeapOrder h1.items h1.items.length) := by
  unfold extract_max at hrun
  split at hrun
  · cases hrun
  · next items1 hsw =>
    split at hrun
    · cases hrun
    · next last hlast =>
      split at hrun
      · cases hrun
      · next h2 hb =>
        have he := Option.some.inj hrun
        have he2 : h2 = h1 := congrArg Prod.snd he
        subst he2
        obtain ⟨hl, _, _⟩ := StdVector.swap_at_spec _ _ _ _ hsw
        obtain ⟨e1, _, e3⟩ := build_max_heap_shape _ _ hb
        have e1a : h2.heap_size = items1.dropLast.length := e1
        have e3a : h2.items.length = items1.dropLast.length := e3
        have hne : items1 ≠ [] := by
          intro hnil
          rw [hnil] at hlast
          cases hlast
        have hpos : 0 < items1.length := List.length_pos.mpr hne
        have hdl : items1.dropLast.length = items1.length - 1 := List.length_dropLast _
        refine ⟨by rw [e1a, e3a], by rw [e3a, hdl, ← hl]; omega, ?_⟩
        intro hlt
        exact build_max_heap_order _ _ rfl
          (by show items1.dropLast.length < 2 ^ 32
              rw [← e3a]; exact hlt) hb

theorem reached_inv {T : Type} [LinearOrder T] (h : Heap T) (hr : Reached h) : Inv h := by
  induction hr with
  | empty =>
    refine ⟨rfl, ?_⟩
    intro _ _ i hi0 hin
    exact absurd hin (Nat.not_lt_zero _)
  | construct items h hrun =>
    obtain ⟨e1, _, e3⟩ := build_max_heap_shape _ _ hrun
    have e1a : h.heap_size = items.length := e1
    have e3a : h.items.length = items.length := e3
    refine ⟨by rw [e1a, e3a], ?_⟩
    intro _ hlen
    exact build_max_heap_order _ _ rfl
      (by show items.length < 2 ^ 32
          omega) hrun
  | insert h h1 elem _ hrun ih =>
    obtain ⟨hsz, hord⟩ := ih
    have hshape := insert_shape h h1 elem hrun
    have hs1 : h1.heap_size = h1.items.length := by
      rcases hshape with ⟨e, _, _⟩ | ⟨e, _, _⟩ <;> exact e
    have hl1 : h1.items.length = h.items.length + 1 := by
      rcases hshape with ⟨_, e, _⟩ | ⟨_, e, _⟩ <;> exact e
    refine ⟨hs1, ?_⟩
    intro _ hlen
    obtain ⟨h2, hrun2, _, hh2, _, _⟩ :=
      insert_spec h elem hsz (by omega) (fun hs => hord hs (by omega))
    rw [hrun] at hrun2
    have he : h1 = h2 := Option.some.inj hrun2
    subst he
    rw [hl1]
    exact hh2
  | sort h h1 _ hrun ih =>
    obtain ⟨e1, e2, e3⟩ := sort_shape h h1 hrun
    refine ⟨by rw [e1, e3]; exact ih.1, ?_⟩
    intro hs
    rw [e2] at hs
    cases hs
  | extract_max h h1 elem _ hrun _ =>
    obtain ⟨e1, _, e3⟩ := extract_max_shape h h1 elem hrun
    exact ⟨e1, fun _ hlen => e3 (by omega)⟩

end SimpleHeap
namespace SimpleHeap

/-! ## Claim C15: `sort` -/

theorem shown_reached : Reached shownHeap :=
  Reached.insert _ _ 6 (Reached.construct [1, 2, 3, 4, 5] _ (by rfl)) (by rfl)

theorem shown_sorted_reached : Reached shownSorted :=
  Reached.sort _ _ shown_reached (by rfl)

/-- C15 (as amended): for every heap reached through the constructors, `insert`, `sort` and
`extract_max` that holds at most `2^31` items, `sort()` returns, leaves the items in
non-decreasing order, as a permutation of the items before the call, and leaves `size()`
equal to its value before the call. -/
theorem C15_sort_sorts {T : Type} [LinearOrder T] (h : Heap T) (hr : Reached h)
    (hn : h.items.length ≤ 2 ^ 31) :
    ∃ h1, sort h = some h1 ∧ List.Sorted (fun a b : T => a ≤ b) h1.items ∧
      h1.items.Perm h.items ∧ size h1 = size h := by
  obtain ⟨h1, hrun, hs, hp, hsz, _⟩ := sort_spec h (reached_inv h hr).1 hn
  exact ⟨h1, hrun, hs, hp, hsz⟩

/-- The heap of `main`, holding `{6, 4, 5, 1, 2, 3}`, is sorted by `sort()`. -/
theorem C15_sort_sorts_witness :
    Reached shownHeap ∧ shownHeap.items.length ≤ 2 ^ 31 ∧
      ∃ h1, sort shownHeap = some h1 ∧ List.Sorted (fun a b : Int => a ≤ b) h1.items ∧
        h1.items.Perm shownHeap.items ∧ size h1 = size shownHeap :=
  ⟨shown_reached, by decide, C15_sort_sorts shownHeap shown_reached (by decide)⟩

end SimpleHeap
namespace SimpleHeap

/-! ## Heaps too large for the `int` loop counters -/

theorem max_heapify_noop {T : Type} [LinearOrder T] (fuel : Nat) (h : Heap T) (j : Nat)
    (hlen : h.heap_size ≤ h.items.length) (hj : 2 * j + 2 < 2 ^ 64)
    (hord : HeapOrder.HeapFrom (fun a b : T => a ≥ b) h.items h.heap_size 0) :
    max_heapify (fuel + 1) h j = some h := by
  obtain ⟨c, hc, hstep⟩ := max_heapify_step fuel h j h.heap_size rfl hlen hj
  rw [hstep]
  rcases hc with ⟨hcj, _⟩ | ⟨hcp, hc0, hcn, ⟨vc, vj, hvc, hvj, hgt⟩, _⟩
  · rw [if_neg (by simp [hcj])]
  · have hle : vj ≥ vc := hord c hc0 hcn (Nat.zero_le _) vj vc (by rw [hcp]; exact hvj) hvc
    exact absurd hgt (not_lt.mpr hle)

theorem build_max_heap_loop_noop {T : Type} [LinearOrder T] (h : Heap T)
    (hlen : h.heap_size ≤ h.items.length)
    (hord : HeapOrder.HeapFrom (fun a b : T => a ≥ b) h.items h.heap_size 0) :
    ∀ k, 2 * k < 2 ^ 64 → build_max_heap_loop k h = some h := by
  intro k
  induction k with
  | zero => intro _; rfl
  | succ k ih =>
    intro hk
    have hstep : build_max_heap_loop (k + 1) h =
        match max_heapify (h.heap_size + 1) h k with
        | none => none
        | some h1 => build_max_heap_loop k h1 := rfl
    rw [hstep, max_heapify_noop h.heap_size h k hlen (by omega) hord]
    exact ih (by omega)

theorem build_max_heap_noop {T : Type} [LinearOrder T] (h : Heap T)
    (hlen : h.heap_size ≤ h.items.length)
    (hord : HeapOrder.HeapFrom (fun a b : T => a ≥ b) h.items h.heap_size 0) :
    build_max_heap h = some h := by
  unfold build_max_heap
  apply build_max_heap_loop_noop h hlen hord
  unfold to_int
  split <;> omega

theorem flat_length (m : Nat) : (flatList m).length = m + 1 := by
  simp [flatList]

theorem flat_values (m i : Nat) (a : Int) (h : (flatList m)[i]? = some a) :
    a ≥ 0 ∧ (0 < i → a = 0) := by
  cases i with
  | zero =>
    have ha : a = 1 := by
      have h1 : (flatList m)[0]? = some 1 := List.getElem?_cons_zero
      rw [h1] at h
      exact (Option.some.inj h).symm
    subst ha
    exact ⟨by decide, fun h0 => absurd h0 (Nat.lt_irrefl 0)⟩
  | succ i =>
    have h1 : (flatList m)[i + 1]? = (List.replicate m (0 : Int))[i]? :=
      List.getElem?_cons_succ
    rw [h1] at h
    have hmem : a ∈ List.replicate m (0 : Int) := List.mem_iff_getElem?.mpr ⟨i, h⟩
    have ha : a = 0 := List.eq_of_mem_replicate hmem
    subst ha
    exact ⟨le_refl _, fun _ => rfl⟩

theorem flat_order (m : Nat) :
    HeapOrder.HeapFrom (fun a b : Int => a ≥ b) (flatList m) (m + 1) 0 := by
  intro c hc0 _ _ a b ha hb
  have hb0 : b = 0 := (flat_values m c b hb).2 hc0
  subst hb0
  exact (flat_values m _ a ha).1

theorem flat_reached (m : Nat) : Reached (flatHeap m) := by
  apply Reached.construct (flatList m)
  unfold construct
  rw [flat_length]
  exact build_max_heap_noop (flatHeap m) (Nat.le_of_eq (flat_length m).symm)
    (flat_order m)

theorem sort_flat (m : Nat) (hskip : (to_int (size_pred (m + 1))).toNat = 0) :
    sort (flatHeap m) = some { flatHeap m with sorted := true } := by
  have hb : build_max_heap (flatHeap m) = some (flatHeap m) :=
    build_max_heap_noop (flatHeap m) (Nat.le_of_eq (flat_length m).symm)
      (flat_order m)
  have hk : (to_int (size_pred (flatHeap m).heap_size)).toNat = 0 := hskip
  unfold sort
  rw [hb]
  simp only [hk]
  rfl

theorem flat_not_sorted (m : Nat) (hm : m ≠ 0) :
    ¬ List.Sorted (fun a b : Int => a ≤ b) (flatList m) := by
  intro hs
  have hp : List.Pairwise (fun a b : Int => a ≤ b) ((1 : Int) :: List.replicate m 0) := hs
  rw [List.pairwise_cons] at hp
  have h10 : (1 : Int) ≤ 0 := hp.1 0 (List.mem_replicate.mpr ⟨hm, rfl⟩)
  exact absurd h10 (by decide)

/-- C15 (as stated) fails: the heap that the constructor builds from a vector of one 1
followed by `2^31` zeros is reachable, and `sort()` returns on it with the items
unchanged, 1 first and zeros behind it, which is not a non-decreasing order: the loop
counter `static_cast<int>(heap_size - 1)` is negative, so the loop body never runs. -/
theorem C15_sort_skips_loop_on_huge_heap :
    Reached (flatHeap 2147483648) ∧
      ∃ h1, sort (flatHeap 2147483648) = some h1 ∧
        ¬ List.Sorted (fun a b : Int => a ≤ b) h1.items :=
  ⟨flat_reached 2147483648,
    ⟨_, sort_flat 2147483648 (by decide), flat_not_sorted 2147483648 (by decide)⟩⟩

end SimpleHeap
namespace SimpleHeap

/-! ## Claim C16: `insert` -/

/-- C16 (as amended): for every heap reached through the constructors, `insert`, `sort` and
`extract_max` that holds fewer than `2^31` items, `insert(x)` returns and leaves the items
as a permutation of the previous items plus `x`, in max-heap order
`items[(i-1)/2] >= items[i]` for every `0 < i < size()`, with `size()` increased by one and
the sorted flag false, and `max()` returns an item that every stored item is at most. -/
theorem C16_insert_reheaps {T : Type} [LinearOrder T] (h : Heap T) (x : T) (hr : Reached h)
    (hn : h.items.length < 2 ^ 31) :
    ∃ h1, insert h x = some h1 ∧ h1.items.Perm (h.items ++ [x]) ∧
      MaxHeapOrder h1.items (size h1) ∧ size h1 = size h + 1 ∧ h1.sorted = false ∧
      ∃ m, max h1 = some m ∧ ∀ y, y ∈ h1.items → y ≤ m := by
  obtain ⟨hsz, hord⟩ := reached_inv h hr
  obtain ⟨h1, hrun, hp, hh, hs1, hso⟩ :=
    insert_spec h x hsz hn (fun hs => hord hs (by omega))
  have hl1 : h1.items.length = h.items.length + 1 := by
    rw [hp.length_eq, List.length_append]; rfl
  have hsize : size h1 = h.items.length + 1 := hs1
  have hsize2 : size h1 = size h + 1 := by
    rw [hsize]
    show _ = h.heap_size + 1
    rw [hsz]
  refine ⟨h1, hrun, hp, by rw [hsize]; exact hh, hsize2, hso, ?_⟩
  have hroot := HeapOrder.root_dominates (fun a b : T => a ≥ b) (fun x => le_refl x)
    (fun x y z hxy hyz => le_trans hyz hxy) h1.items (h.items.length + 1)
    (Nat.le_of_eq hl1.symm) ((maxHeapOrder_iff _ _).mp hh)
  cases hitems : h1.items with
  | nil => rw [hitems] at hl1; cases hl1
  | cons a t =>
    refine ⟨a, by unfold max; rw [hitems]; rfl, ?_⟩
    intro y hy
    rw [← hitems] at hy
    obtain ⟨i, hi, hiy⟩ := List.getElem_of_mem hy
    have h0 : h1.items[0]? = some a := by rw [hitems]; exact List.getElem?_cons_zero
    have hiy2 : h1.items[i]? = some y := by rw [List.getElem?_eq_getElem hi, hiy]
    exact hroot i (by omega) a y h0 hiy2

/-- The heap of `main` directly after `sort()`: `insert(9)` re-heaps
the sorted items `{1, 2, 3, 4, 5, 6}`. -/
theorem C16_insert_reheaps_witness :
    Reached shownSorted ∧ shownSorted.items.length < 2 ^ 31 ∧
      ∃ h1, insert shownSorted 9 = some h1 ∧ h1.items.Perm (shownSorted.items ++ [9]) ∧
        MaxHeapOrder h1.items (size h1) ∧ size h1 = size shownSorted + 1 ∧
        h1.sorted = false ∧ ∃ m, max h1 = some m ∧ ∀ y, y ∈ h1.items → y ≤ m :=
  ⟨shown_sorted_reached, by decide,
    C16_insert_reheaps shownSorted 9 shown_sorted_reached (by decide)⟩

theorem heap_up_swap {T : Type} [LinearOrder T] (fuel : Nat) (h : Heap T) (j : Nat) (a b : T)
    (hj : h.items[j]? = some a) (hp : h.items[parent (to_int j)]? = some b) (hgt : a > b) :
    heap_up (fuel + 1) h j =
      heap_up fuel { h with items := ((h.items.set j b).set (parent (to_int j)) a) }
        (parent (to_int j)) := by
  rw [heap_up_unfold, hj, hp]
  simp only [if_pos hgt, StdVector.swap_at, hj, hp]

theorem heap_up_stop {T : Type} [LinearOrder T] (fuel : Nat) (h : Heap T) (j : Nat) (a b : T)
    (hj : h.items[j]? = some a) (hp : h.items[parent (to_int j)]? = some b) (hle : ¬ a > b) :
    heap_up (fuel + 1) h j = some h := by
  rw [heap_up_unfold, hj, hp]
  simp only [if_neg hle]

theorem flat_lookup_zero (m i : Nat) (h0 : 0 < i) (hi : i ≤ m) :
    (flatList m)[i]? = some 0 := by
  obtain ⟨k, hk⟩ : ∃ k, i = k + 1 := ⟨i - 1, by omega⟩
  subst hk
  have h1 : (flatList m)[k + 1]? = (List.replicate m (0 : Int))[k]? :=
    List.getElem?_cons_succ
  rw [h1]
  exact List.getElem?_replicate_of_lt (by omega)

theorem insert_flat (m : Nat) (hpar : parent (to_int (m + 1)) = 0) (hm : m + 2 < 2 ^ 64) :
    insert (flatHeap m) 2 =
      some { items := ((flatList m ++ [2]).set (m + 1) 1).set 0 2, sorted := false,
             heap_size := m + 2 } := by
  have hlen : (flatList m ++ [2]).length = m + 2 := by
    rw [List.length_append, flat_length]; rfl
  have hsp : size_pred (m + 2) = m + 1 := size_pred_eq _ (by omega) hm
  have hlast : (flatList m ++ [2])[m + 1]? = some 2 := by
    have h1 := List.getElem?_concat_length (flatList m) (2 : Int)
    rw [flat_length] at h1
    exact h1
  have hfirst : (flatList m ++ [2])[0]? = some 1 := List.getElem?_cons_zero
  have hstart : insert (flatHeap m) 2 =
      heap_up (m + 1 + 1 + 1)
        { items := flatList m ++ [2], sorted := false, heap_size := m + 2 } (m + 1) := by
    have hs : (flatHeap m).sorted = false := rfl
    unfold insert
    simp only [hs, Bool.false_eq_true, if_false]
    have hi : (flatHeap m).items = flatList m := rfl
    rw [hi, hlen, hsp, flat_length]
  rw [hstart,
    heap_up_swap (m + 1 + 1) _ (m + 1) 2 1 hlast (by rw [hpar]; exact hfirst) (by decide),
    hpar]
  have hp0 : parent (to_int 0) = 0 := by decide
  have hnew : (((flatList m ++ [2]).set (m + 1) 1).set 0 2)[0]? = some 2 := by
    rw [List.getElem?_set, if_pos rfl, if_pos (by rw [List.length_set, hlen]; omega)]
  exact heap_up_stop (m + 1) _ 0 2 2 hnew (by rw [hp0]; exact hnew) (lt_irrefl _)

theorem insert_flat_order (m : Nat) (hm : 2 ≤ m) :
    ¬ MaxHeapOrder (((flatList m ++ [2]).set (m + 1) 1).set 0 2) (m + 2) := by
  intro hord
  have hlen : (flatList m ++ [2]).length = m + 2 := by
    rw [List.length_append, flat_length]; rfl
  have hchild : (((flatList m ++ [2]).set (m + 1) 1).set 0 2)[m + 1]? = some 1 := by
    rw [List.getElem?_set, if_neg (by omega), List.getElem?_set, if_pos rfl,
      if_pos (by rw [hlen]; omega)]
  have hparent : (((flatList m ++ [2]).set (m + 1) 1).set 0 2)[(m + 1 - 1) / 2]?
      = some 0 := by
    rw [List.getElem?_set, if_neg (by omega), List.getElem?_set, if_neg (by omega),
      List.getElem?_append_left (by rw [flat_length]; omega)]
    exact flat_lookup_zero m _ (by omega) (by omega)
  have hbad : (0 : Int) ≥ 1 := hord (m + 1) (by omega) (by omega) 0 1 hparent hchild
  exact absurd hbad (by decide)

/-- C16 (as stated) fails: the heap that the constructor builds from a vector of one 1
followed by `2^31 - 1` zeros is reachable and holds `2^31` items; `insert(2)` returns on
it, but the result is not in max-heap order: `parent` receives the new index `2^31` as the
negative `int` `-2^31` and answers 0, so the new item is exchanged with the root and the
old root 1 ends at index `2^31`, below a parent holding 0. -/
theorem C16_insert_breaks_order_on_huge_heap :
    Reached (flatHeap 2147483647) ∧
      ∃ h1, insert (flatHeap 2147483647) 2 = some h1 ∧ ¬ MaxHeapOrder h1.items (size h1) :=
  ⟨flat_reached 2147483647,
    ⟨_, insert_flat 2147483647 (by decide) (by decide),
      insert_flat_order 2147483647 (by decide)⟩⟩

end SimpleHeap
namespace DirectAddress

/-! ## Insert / Search / Delete -/

theorem valid_iff (key : Int) : VALID key = true ↔ 0 ≤ key ∧ key ≤ 12 := by
  simp [VALID, MAXKEY]

/-- C17: in a table whose key counter is at most `MAXKEY` (fewer than 13 keys handed out),
`Insert(e)` sets `e.key` to a key in `0..12` and keeps `e.satellite`, and a following
`Search(e)` returns an entry with that key and that satellite. -/
theorem C17_insert_search_round_trip (d : DirectAddressTable) (e : Entry)
    (h0 : 0 ≤ d.key) (hmax : d.key ≤ MAXKEY) :
    ∃ d1 e1, Insert d e = some (d1, e1) ∧
      0 ≤ e1.key ∧ e1.key ≤ 12 ∧ e1.satellite = e.satellite ∧
      (Search d1 e1).key = e1.key ∧ (Search d1 e1).satellite = e.satellite := by
  have hm : d.key ≤ 12 := hmax
  have hnot : ¬ d.key > MAXKEY := by simp only [MAXKEY]; omega
  refine ⟨{ d with table := setSlot d.table d.key.toNat { e with key := d.key }
                   key := d.key + 1 }, { e with key := d.key }, ?_, h0, hm, rfl, ?_, ?_⟩
  · simp [Insert, hnot, assignSlot, h0, hmax]
  · simp [Search, VALID, MAXKEY, h0, hm, setSlot]
  · simp [Search, VALID, MAXKEY, h0, hm, setSlot]

/-- The round trip of `main`: inserting `{303}` into the fresh table hands out key 0. -/
theorem C17_insert_search_round_trip_witness :
    ∃ d1 e1, Insert emptyTable ⟨303, 0⟩ = some (d1, e1) ∧
      0 ≤ e1.key ∧ e1.key ≤ 12 ∧ e1.satellite = (⟨303, 0⟩ : Entry).satellite ∧
      (Search d1 e1).key = e1.key ∧ (Search d1 e1).satellite = (⟨303, 0⟩ : Entry).satellite :=
  C17_insert_search_round_trip emptyTable ⟨303, 0⟩ (by decide) (by decide)

/-- C18: for an entry with a valid key, `Delete(e)` sets the slot at that key to `{-1, -1}`,
pushes the key on the reclaimed stack, sets `e.key` to -1 and leaves every other slot (and
the key counter) unchanged, so that a following `Search(e)` returns `{-1, -1}`; for an entry
whose key is not in `0..12`, `Delete` leaves the table object and the entry unchanged. -/
theorem C18_delete_frame (d : DirectAddressTable) (e : Entry) :
    (0 ≤ e.key ∧ e.key ≤ 12 →
      (Delete d e).1.table e.key.toNat = ⟨-1, -1⟩ ∧
      (Delete d e).1.reclaimed_keys = e.key :: d.reclaimed_keys ∧
      (Delete d e).2.key = -1 ∧ (Delete d e).2.satellite = e.satellite ∧
      (∀ i, i ≠ e.key.toNat → (Delete d e).1.table i = d.table i) ∧
      (Delete d e).1.key = d.key ∧
      Search (Delete d e).1 (Delete d e).2 = ⟨-1, -1⟩) ∧
    (¬ (0 ≤ e.key ∧ e.key ≤ 12) → Delete d e = (d, e)) := by
  constructor
  · intro hv
    have hV : VALID e.key = true := (valid_iff e.key).mpr hv
    have hD : Delete d e =
        ({ d with reclaimed_keys := e.key :: d.reclaimed_keys
                  table := setSlot d.table e.key.toNat ⟨-1, -1⟩ },
         { e with key := -1 }) := by
      simp [Delete, hV]
    rw [hD]
    refine ⟨by simp [setSlot], rfl, rfl, rfl, ?_, rfl, ?_⟩
    · intro i hi
      simp [setSlot, hi]
    · simp [Search, VALID]
  · intro hv
    have hV : VALID e.key = false := by
      cases h : VALID e.key with
      | false => rfl
      | true => exact absurd ((valid_iff e.key).mp h) hv
    simp [Delete, hV]

/-- Deleting the entry with key 2 from `usedTable`, and deleting an entry with key 13. -/
theorem C18_delete_frame_witness :
    ((Delete usedTable ⟨102, 2⟩).1.table 2 = ⟨-1, -1⟩ ∧
      (Delete usedTable ⟨102, 2⟩).1.reclaimed_keys = [2, 3] ∧
      (Delete usedTable ⟨102, 2⟩).2.key = -1 ∧
      Search (Delete usedTable ⟨102, 2⟩).1 (Delete usedTable ⟨102, 2⟩).2 = ⟨-1, -1⟩) ∧
    Delete usedTable ⟨7, 13⟩ = (usedTable, ⟨7, 13⟩) :=
  have h := C18_delete_frame usedTable ⟨102, 2⟩
  have h1 := h.1 (by decide)
  ⟨⟨h1.1, h1.2.1, h1.2.2.1, h1.2.2.2.2.2.2⟩,
   (C18_delete_frame usedTable ⟨7, 13⟩).2 (by decide)⟩

end DirectAddress

